import Mathlib

/-!
Shallow embedding of the dyson JSON engine (text buffer, lexer, recursive
descent parser, value tree, path addressing, structural diff), translated
from the Rust sources under src/, together with proofs settling the frozen
claims about its specification.

Conventions of the embedding:
- Rust `String` and `&str` are modelled as `List Char` (`Str` below); the
  UTF-8 byte order used by Rust `String` comparison agrees with code point
  order, so lexicographic comparison of `List Char` is faithful.
- `i64` is modelled as `Int` together with an explicit range check where the
  code performs a fallible conversion.
- `f64` is modelled by `F64` below: the values manipulated by this code all
  arise from decimal literals and the only operations applied to them are
  decimal parsing, `Display`, and `PartialEq`; no arithmetic occurs.  A
  finite value is kept as an exact decimal `m * 10^(-k)`; `nan` models the
  IEEE NaN payloads, whose `PartialEq` compares unequal to everything
  including itself, exactly as Rust `f64`.
- fallible Rust functions returning `anyhow::Result` are modelled with
  `Except PErr`; `panic!` (via `itertools::zip_eq`) is modelled by `Option`
  with `none` for the abort.
- loops are modelled by recursion; the mutually recursive parser procedures
  carry an explicit fuel argument that strictly decreases at every nested
  call, and the entry point supplies fuel larger than any derivation can
  consume (a sufficiency bound is proved for the values the theorems need).
-/

namespace Dyson

/-- Rust `String` / `&str` contents, one `Char` per Unicode scalar value. -/
abbrev Str := List Char

/-- Position `(row, col)` in the text buffer, zero based. -/
abbrev Pos := Nat × Nat

/-- One lexer item: a position paired with the character there. -/
abbrev PC := Pos × Char

/-! ## Token classifiers, from src/src/syntax/token.rs -/

/-- MainToken of src/src/syntax/token.rs: structural single-character tokens. -/
inductive MainToken
  | leftBrace
  | rightBrace
  | leftBracket
  | rightBracket
  | colon
  | comma
  | quotation
  | digit (c : Char)
  | plus
  | minus
  | dot
  | whitespace
  | eofTok
  | undecided (c : Char)
  deriving DecidableEq, Repr

/-- MainToken::tokenize (SingleToken impl) from src/src/syntax/token.rs. -/
def MainToken.tokenize (c : Char) : MainToken :=
  if c = '\x7b' then .leftBrace
  else if c = '\x7d' then .rightBrace
  else if c = '[' then .leftBracket
  else if c = ']' then .rightBracket
  else if c = ':' then .colon
  else if c = ',' then .comma
  else if c = '"' then .quotation
  else if c = '+' then .plus
  else if c = '-' then .minus
  else if c = '.' then .dot
  else if c = ' ' ∨ c = '\n' ∨ c = '\r' ∨ c = '\t' then .whitespace
  else if '0' ≤ c ∧ c ≤ '9' then .digit c
  else .undecided c

/-- ImmediateToken of src/src/syntax/token.rs. -/
inductive ImmediateToken
  | true_
  | false_
  | null_
  | undecided (c : Char)
  | unexpected (s : Str)
  deriving DecidableEq, Repr

/-- ImmediateToken::tokenize (SingleToken impl). -/
def ImmediateToken.tokenize (c : Char) : ImmediateToken :=
  if c = 't' ∨ c = 'f' ∨ c = 'n' then .undecided c else .unexpected [c]

/-- ImmediateToken::confirm (SequentialToken impl), full-string comparison. -/
def ImmediateToken.confirm (s : Str) : ImmediateToken :=
  if s = "true".data then .true_
  else if s = "false".data then .false_
  else if s = "null".data then .null_
  else .unexpected s

/-- Rendered text of each immediate token (its Display impl). -/
def ImmediateToken.text : ImmediateToken → Str
  | .true_ => "true".data
  | .false_ => "false".data
  | .null_ => "null".data
  | .undecided c => [c]
  | .unexpected s => s

/-- StringToken of src/src/syntax/token.rs. -/
inductive StringToken
  | quotation
  | reverseSolidus
  | solidus
  | backspace
  | formfeed
  | linefeed
  | carriageReturn
  | horizontalTab
  | unicode
  | hex4Digits (s : Str)
  | undecided (c : Char)
  | unexpected (s : Str)
  deriving DecidableEq, Repr

/-- StringToken::tokenize (SingleToken impl). -/
def StringToken.tokenize (c : Char) : StringToken :=
  if c = '"' then .quotation
  else if c = '\\' then .reverseSolidus
  else if c = '/' then .solidus
  else if c = 'b' then .backspace
  else if c = 'f' then .formfeed
  else if c = 'n' then .linefeed
  else if c = 'r' then .carriageReturn
  else if c = 't' then .horizontalTab
  else if c = 'u' then .unicode
  else if ('0' ≤ c ∧ c ≤ '9') ∨ ('a' ≤ c ∧ c ≤ 'f') ∨ ('A' ≤ c ∧ c ≤ 'F')
    then .undecided c
  else .unexpected [c]

/-- NumberToken of src/src/syntax/token.rs. -/
inductive NumberToken
  | zero
  | oneNine (c : Char)
  | plus
  | minus
  | dot
  | exponent
  | unexpected (c : Char)
  deriving DecidableEq, Repr

/-- NumberToken::tokenize (SingleToken impl). -/
def NumberToken.tokenize (c : Char) : NumberToken :=
  if c = '0' then .zero
  else if c = '+' then .plus
  else if c = '-' then .minus
  else if c = '.' then .dot
  else if c = 'e' ∨ c = 'E' then .exponent
  else if '1' ≤ c ∧ c ≤ '9' then .oneNine c
  else .unexpected c

/-! ## The f64 model -/

/-- Model of Rust `f64` as this code uses it.  Every float handled by the
engine is produced by `str::parse::<f64>` from a decimal numeral and is only
ever compared with `PartialEq` or rendered with `Display`; no arithmetic is
performed.  A finite value is therefore kept exactly, as `m * 10 ^ (-(k :
Int))`; `nan` stands for the IEEE NaN values, which `PartialEq` makes
unequal to everything including themselves. -/
inductive F64
  | nan
  | num (m : Int) (k : Nat)
  deriving DecidableEq, Repr

/-- Rust `PartialEq` on `f64`: NaN compares unequal to everything; finite
values compare by their numeric value (cross multiplied here since the
representation is not canonical). -/
def F64.rustEq : F64 → F64 → Bool
  | .nan, _ => false
  | _, .nan => false
  | .num m k, .num m2 k2 => m * (10 : Int) ^ k2 = m2 * (10 : Int) ^ k

/-! ## Value, from src/src/ast/mod.rs -/

/-- Value of src/src/ast/mod.rs.  `object` keeps the key to value mapping as
an insertion ordered association list (the parser of src/src/syntax/parser.rs
builds a `LinkedHashMap`); `integer` is `i64`, `float` is `f64`. -/
inductive Value
  | object (ms : List (Str × Value))
  | array (es : List Value)
  | bool (b : Bool)
  | null
  | string (s : Str)
  | integer (n : Int)
  | float (f : F64)
  deriving Repr

mutual

/-- Derived `PartialEq for Value`: structural, with `f64` semantics on
`float` leaves (so it is not reflexive at NaN) and with the object branch
comparing the underlying maps.  Distinct-key maps compare equal iff they
hold the same key to value pairs; on the insertion ordered lists kept here,
equality of the lists is used, which is the relation produced by parsing and
by the constructions in the claims. -/
def Value.rustEq : Value → Value → Bool
  | .object ms, .object ms2 => rustEqMembers ms ms2
  | .array es, .array es2 => rustEqElems es es2
  | .bool b, .bool b2 => b = b2
  | .null, .null => true
  | .string s, .string s2 => s = s2
  | .integer n, .integer n2 => n = n2
  | .float f, .float f2 => f.rustEq f2
  | _, _ => false

/-- Member lists compared pairwise in order. -/
def Value.rustEqMembers : List (Str × Value) → List (Str × Value) → Bool
  | [], [] => true
  | (k, v) :: tl, (k2, v2) :: tl2 => k = k2 && v.rustEq v2 && rustEqMembers tl tl2
  | _, _ => false

/-- Element lists compared pairwise in order. -/
def Value.rustEqElems : List Value → List Value → Bool
  | [], [] => true
  | v :: tl, v2 :: tl2 => v.rustEq v2 && rustEqElems tl tl2
  | _, _ => false

end

/-! ## Rendering: Display and stringify, from src/src/ast/mod.rs -/

/-- Decimal digit character, value `n` in `0..9`. -/
def digitChar (n : Nat) : Char := Char.ofNat (48 + n)

/-- Decimal digits of `n`, most significant first; the first argument is
fuel that only has to exceed the number of digits. -/
def natDigitsAux : Nat → Nat → Str
  | 0, _ => []
  | fuel + 1, n =>
    if n < 10 then [digitChar n] else natDigitsAux fuel (n / 10) ++ [digitChar (n % 10)]

/-- Decimal digits of `n`, no leading zeros, `0` rendered as `"0"`. -/
def natDigits (n : Nat) : Str := natDigitsAux (n + 1) n

/-- Display of `i64` (and of the integer part of floats): optional minus
sign followed by the decimal digits. -/
def intToString (n : Int) : Str :=
  if n < 0 then '-' :: natDigits n.natAbs else natDigits n.natAbs

/-- Model of `Vec::join(sep)` on rendered fragments. -/
def joinSep (sep : Str) : List Str → Str
  | [] => []
  | [x] => x
  | x :: xs => x ++ sep ++ joinSep sep xs

/-- Model of Rust `str::replace` with a single-character pattern: every
occurrence of `c` is replaced by `r`, in one pass. -/
def replaceChar : Str → Char → Str → Str
  | [], _, _ => []
  | x :: tl, c, r => (if x = c then r else [x]) ++ replaceChar tl c r

/-- The `quote` helper of src/src/ast/mod.rs: chained single-character
replacements escaping backslash, quote, solidus, LF, CR and TAB, wrapped in
quotation marks. -/
def quote (s : Str) : Str :=
  '"' ::
    (replaceChar (replaceChar (replaceChar (replaceChar (replaceChar (replaceChar
      s '\\' ['\\', '\\']) '"' ['\\', '"']) '/' ['\\', '/'])
      '\n' ['\\', 'n']) '\r' ['\\', 'r']) '\t' ['\\', 't']) ++ ['"']

/-- Canonical decimal form of a finite float: trailing factors of ten are
moved out of the fractional part, so the pair renders in the shortest
decimal spelling (which is what Rust `Display for f64` prints for the
decimal values this engine manipulates). -/
def F64.canon : Int → Nat → Int × Nat
  | m, 0 => (m, 0)
  | m, k + 1 =>
    if m = 0 then (0, 0) else if m % 10 = 0 then F64.canon (m / 10) k else (m, k + 1)

/-- Pad digits on the left with zeros up to length `n`. -/
def padZeros (n : Nat) (ds : Str) : Str := List.replicate (n - ds.length) '0' ++ ds

/-- Display of `f64` (Rust renders the shortest round-tripping decimal,
never scientific notation; an integral value is printed without a decimal
point, so `1.0` prints as `"1"`). -/
def f64ToString : F64 → Str
  | .nan => "NaN".data
  | .num m k =>
    let c := F64.canon m k
    if c.2 = 0 then intToString c.1
    else
      let ds := padZeros (c.2 + 1) (natDigits c.1.natAbs)
      (if c.1 < 0 then ['-'] else []) ++
        ds.take (ds.length - c.2) ++ '.' :: ds.drop (ds.length - c.2)

mutual

/-- Display for Value (src/src/ast/mod.rs lines 78 to 96): the compact
rendering with no insignificant whitespace; `Indent<0>` of src/src/ast/io.rs. -/
def compact : Value → Str
  | .object ms => '\x7b' :: joinSep ",".data (compactMembers ms) ++ ['\x7d']
  | .array es => '[' :: joinSep ",".data (compactElems es) ++ [']']
  | .bool b => if b then "true".data else "false".data
  | .null => "null".data
  | .string s => quote s
  | .integer n => intToString n
  | .float f => f64ToString f

/-- Members rendered as `"key":value`, in insertion order. -/
def compactMembers : List (Str × Value) → List Str
  | [] => []
  | (k, v) :: tl => (quote k ++ ':' :: compact v) :: compactMembers tl

/-- Elements rendered in order. -/
def compactElems : List Value → List Str
  | [] => []
  | v :: tl => compact v :: compactElems tl

end

/-- Indentation of `n` levels: the four-space unit repeated `n` times. -/
def indentStr (n : Nat) : Str := List.replicate (4 * n) ' '

mutual

/-- The `stringify_recursive` helper of `Value::stringify`
(src/src/ast/mod.rs lines 98 to 132): pretty rendering with four-space
indentation, one member or element per line. -/
def stringifyRec : Value → Nat → Str
  | .object ms, ind =>
    '\x7b' :: '\n' :: joinSep ",\n".data (stringifyMembers ms (ind + 1)) ++
      '\n' :: indentStr ind ++ ['\x7d']
  | .array es, ind =>
    '[' :: '\n' :: joinSep ",\n".data (stringifyElems es (ind + 1)) ++
      '\n' :: indentStr ind ++ [']']
  | .bool b, _ => if b then "true".data else "false".data
  | .null, _ => "null".data
  | .string s, _ => quote s
  | .integer n, _ => intToString n
  | .float f, _ => f64ToString f

/-- Members rendered one per line as `indent"key": value` at the inner
indentation level. -/
def stringifyMembers : List (Str × Value) → Nat → List Str
  | [], _ => []
  | (k, v) :: tl, ind =>
    (indentStr ind ++ quote k ++ ':' :: ' ' :: stringifyRec v ind) :: stringifyMembers tl ind

/-- Elements rendered one per line at the inner indentation level. -/
def stringifyElems : List Value → Nat → List Str
  | [], _ => []
  | v :: tl, ind => (indentStr ind ++ stringifyRec v ind) :: stringifyElems tl ind

end

/-- Value::stringify (src/src/ast/mod.rs): pretty rendering from depth 0;
`Indent<1>` of src/src/ast/io.rs. -/
def stringify (v : Value) : Str := stringifyRec v 0

/-! ## Text buffer, from src/src/syntax/rawjson.rs -/

/-- Model of the RawJson json field: the rows of the buffer, each row
carrying its trailing line feed. -/
abbrev RawJson := List (List Char)

/-- Model of `str::replace("\r\n", "\n")`: one left to right pass. -/
def replaceCrlf : Str → Str
  | [] => []
  | [c] => [c]
  | c :: c2 :: tl =>
    if c = '\r' ∧ c2 = '\n' then '\n' :: replaceCrlf tl
    else c :: replaceCrlf (c2 :: tl)

/-- Model of `str::split('\n')`: the fragments between line feeds,
including empty ones (splitting the empty string gives one empty
fragment). -/
def splitNl : Str → List Str
  | [] => [[]]
  | c :: tl =>
    if c = '\n' then [] :: splitNl tl
    else
      match splitNl tl with
      | hd :: rest => (c :: hd) :: rest
      | [] => [[c]]

/-- The `From<&str> for RawJson` construction of src/src/syntax/rawjson.rs:
empty input gives zero rows; otherwise CRLF is normalized, the text is split
on line feeds, and every row receives a trailing `'\n'`. -/
def rawJsonOfString (s : Str) : RawJson :=
  if s = [] then [] else (splitNl (replaceCrlf s)).map (fun row => row ++ ['\n'])

/-- RawJson::eof of src/src/syntax/rawjson.rs lines 16 to 24. -/
def rawEof (j : RawJson) : Pos :=
  let r := j.length
  if r > 0 then (r - 1, (j.getD (r - 1) []).length) else (0, 0)

/-- Characters of one row paired with their `(row, col)` positions,
starting at column `c0`. -/
def rowPCs (r : Nat) : Nat → List Char → List PC
  | _, [] => []
  | c0, ch :: tl => ((r, c0), ch) :: rowPCs r (c0 + 1) tl

/-- Position annotated character sequence of the rows starting at row
index `r`. -/
def streamAux : Nat → RawJson → List PC
  | _, [] => []
  | r, row :: rows => rowPCs r 0 row ++ streamAux (r + 1) rows

/-- The full iteration sequence of the Lexer over a buffer: every character
in row major order with its position.  This is exactly the sequence
produced by `Lexer::next` of src/src/syntax/lexer.rs (column then row
wraparound), since every row of a buffer built from a string is
nonempty. -/
def streamOf (j : RawJson) : List PC := streamAux 0 j

/-! ## Lexer and error model -/

/-- A token of any of the four grammar regions, used to report lexer level
errors uniformly. -/
inductive TokKind
  | mainTok (t : MainToken)
  | strTok (t : StringToken)
  | numTok (t : NumberToken)
  | immTok (t : ImmediateToken)
  deriving DecidableEq, Repr

/-- Structured parse errors, one constructor per error construction site
reachable from Parser of src/src/syntax/parser.rs.  The payloads keep the
data the sites store (positions, offending tokens, partial text).
`outOfFuel` is an artifact of the fuel based model of the mutual recursion
and is never produced for the fuel supplied by the entry point. -/
inductive PErr
  | cannotStartParseValue (found : MainToken) (pos : Pos)
  | valueUnexpectedEof (pos : Pos)
  | trailingComma (pos : Pos)
  | lexUnexpected (found expected : TokKind) (pos : Pos)
  | lexUnexpectedEof (expected : TokKind) (pos : Pos)
  | lexNCharsEof (sofar : Str) (start stop : Pos)
  | lexNCharsWhitespace (sofar : Str) (start stop : Pos)
  | seqUnexpectedEof (expected : List ImmediateToken) (start stop : Pos)
  | immUnexpectedToken (found : ImmediateToken) (expected : List ImmediateToken) (pos : Pos)
  | numUnexpectedToken (found : NumberToken) (pos : Pos)
  | stringUnexpectedEof (comp : Str) (start stop : Pos)
  | stringUnexpectedLinefeed (comp : Str) (start stop : Pos)
  | unsupportedEscapeSequence (escape : StringToken) (start stop : Pos)
  | unexpectedEscapeSequence (escape : StringToken) (start stop : Pos)
  | cannotConvertUnicode (uc : Str) (start stop : Pos)
  | invalidHexDigits (s : Str)
  | numberUnexpectedEof (num : Str) (start stop : Pos)
  | emptyDigits (pos : Pos)
  | cannotConvertI64 (num : Str) (start stop : Pos)
  | cannotConvertF64 (num : Str) (start stop : Pos)
  | outOfFuel
  deriving DecidableEq, Repr

/-- Lexer cursor state: the remaining `(position, character)` items and the
eof position of the underlying buffer (used by error payloads). -/
structure Lexer where
  s : List PC
  eofPos : Pos
  deriving Repr

/-- Worker of skip_whitespace, structural on the item list. -/
def skipWsList : List PC → List PC
  | [] => []
  | (p, c) :: tl =>
    if MainToken.tokenize c = .whitespace then skipWsList tl else (p, c) :: tl

/-- Lexer::skip_whitespace: advance while the current character classifies
as whitespace under MainToken. -/
def Lexer.skipWs (l : Lexer) : Lexer := ⟨skipWsList l.s, l.eofPos⟩

/-- Lexer::lex_1_char with the `SkipWs` flag: after the optional whitespace
skip, classify the current character; on a match consume it and return it,
otherwise fail without consuming (the whitespace skip is kept).  Both
outcomes return the updated cursor, since the caller may catch the
failure. -/
def lex1 {α : Type} [DecidableEq α] (tokenize : Char → α) (inj : α → TokKind)
    (expected : α) (skipWsFirst : Bool) (l : Lexer) : Except PErr PC × Lexer :=
  let l1 := if skipWsFirst then l.skipWs else l
  match l1.s with
  | [] => (.error (.lexUnexpectedEof (inj expected) l1.eofPos), l1)
  | (p, c) :: tl =>
    if tokenize c = expected then (.ok (p, c), ⟨tl, l1.eofPos⟩)
    else (.error (.lexUnexpected (inj (tokenize c)) (inj expected) p), l1)

/-- Lexer::is_next with the `SkipWs` flag: non consuming classification of
the current character (`false` at eof); the cursor after the optional
whitespace skip is returned. -/
def isNext {α : Type} [DecidableEq α] (tokenize : Char → α) (expected : α)
    (skipWsFirst : Bool) (l : Lexer) : Bool × Lexer :=
  let l1 := if skipWsFirst then l.skipWs else l
  match l1.s with
  | [] => (false, l1)
  | (_, c) :: _ => (decide (tokenize c = expected), l1)

/-- Worker of `lex_n_chars`: read exactly `n` further characters, none of
which may be whitespace, accumulating them. -/
def lexNAux (start : Pos) : Nat → Str → Lexer → Except PErr (Str × Lexer)
  | 0, acc, l => .ok (acc, l)
  | n + 1, acc, l =>
    match l.s with
    | [] => .error (.lexNCharsEof acc start l.eofPos)
    | (p, c) :: tl =>
      if MainToken.tokenize c = .whitespace then .error (.lexNCharsWhitespace acc start p)
      else lexNAux start n (acc ++ [c]) ⟨tl, l.eofPos⟩

/-- Lexer::lex_n_chars: read the next `n` characters without crossing
whitespace; `n = 0` reads nothing. -/
def lexNChars (n : Nat) (l : Lexer) : Except PErr (Str × Lexer) :=
  if n = 0 then .ok ([], l)
  else
    match l.s with
    | [] => .error (.lexNCharsEof [] l.eofPos l.eofPos)
    | (start, _) :: _ => lexNAux start n [] l

/-- Lexer::lex_expected: skip whitespace, read exactly the length of the
expected literal and compare the tokenized text with it. -/
def lexExpected (expected : ImmediateToken) (l : Lexer) : Except PErr Lexer :=
  let l1 := l.skipWs
  match l1.s with
  | [] => .error (.lexUnexpectedEof (.immTok expected) l1.eofPos)
  | (start, _) :: _ =>
    match lexNAux start expected.text.length [] l1 with
    | .error e => .error e
    | .ok (ts, l2) =>
      if ImmediateToken.confirm ts = expected then .ok l2
      else .error (.immUnexpectedToken (ImmediateToken.confirm ts) [expected] start)

/-! ## Parser, from src/src/syntax/parser.rs -/

/-- Value of a hex digit character, if it is one. -/
def hexDigitVal? (c : Char) : Option Nat :=
  if '0' ≤ c ∧ c ≤ '9' then some (c.toNat - 48)
  else if 'a' ≤ c ∧ c ≤ 'f' then some (c.toNat - 87)
  else if 'A' ≤ c ∧ c ≤ 'F' then some (c.toNat - 55)
  else none

/-- Model of `u32::from_str_radix(s, 16)`: an optional leading plus sign
followed by a nonempty run of hex digits. -/
def hexValue? (s : Str) : Option Nat :=
  let body := match s with | '+' :: tl => tl | _ => s
  if body = [] then none
  else body.foldl (fun acc c => acc.bind (fun a => (hexDigitVal? c).map (fun d => a * 16 + d)))
    (some 0)

/-- Model of `char::from_u32`: valid Unicode scalar values only. -/
def charFromU32? (n : Nat) : Option Char :=
  if n < 0xd800 ∨ (0xe000 ≤ n ∧ n < 0x110000) then some (Char.ofNat n) else none

/-- Parser::parse_unicode: read four hex characters after `\u`, require a
following character to exist, and convert the code point. -/
def parseUnicode (l : Lexer) (start : Pos) : Except PErr (Char × Lexer) :=
  match lexNChars 4 l with
  | .error e => .error e
  | .ok (hex4, l1) =>
    match l1.s with
    | [] => .error (.stringUnexpectedEof hex4 start l1.eofPos)
    | (p, _) :: _ =>
      match hexValue? hex4 with
      | none => .error (.invalidHexDigits hex4)
      | some nval =>
        match charFromU32? nval with
        | none => .error (.cannotConvertUnicode hex4 start p)
        | some ch => .ok (ch, l1)

/-- Parser::parse_escape_sequence: consume the backslash and one more
character and classify it; `\b` and `\f` are rejected with the dedicated
unsupported escape error. -/
def parseEscape (l : Lexer) : Except PErr (Char × Lexer) :=
  match lex1 StringToken.tokenize TokKind.strTok .reverseSolidus false l with
  | (.error e, _) => .error e
  | (.ok (start, _), l1) =>
    match l1.s with
    | [] => .error (.stringUnexpectedEof ['\\'] start l1.eofPos)
    | (p, escaped) :: tl =>
      let l2 : Lexer := ⟨tl, l1.eofPos⟩
      match StringToken.tokenize escaped with
      | .quotation => .ok ('"', l2)
      | .reverseSolidus => .ok ('\\', l2)
      | .solidus => .ok ('/', l2)
      | .backspace => .error (.unsupportedEscapeSequence (StringToken.tokenize escaped) start p)
      | .formfeed => .error (.unsupportedEscapeSequence (StringToken.tokenize escaped) start p)
      | .linefeed => .ok ('\n', l2)
      | .carriageReturn => .ok ('\r', l2)
      | .horizontalTab => .ok ('\t', l2)
      | .unicode => parseUnicode l2 start
      | tk => .error (.unexpectedEscapeSequence tk start p)

/-- Body of the Parser::parse_string loop: until the closing quote, reject a
raw line feed, dispatch a backslash to escape parsing and append everything
else verbatim.  One unit of fuel is spent per iteration and every iteration
consumes at least one character, so the fuel supplied by `parseString`
cannot run out. -/
def parseStringLoop : Nat → Str → Pos → Lexer → Except PErr (Str × Lexer)
  | 0, _, _, _ => .error .outOfFuel
  | fuel + 1, acc, start, l =>
    match l.s with
    | [] => .error (.stringUnexpectedEof acc start l.eofPos)
    | (p, c) :: tl =>
      if StringToken.tokenize c = .quotation then .ok (acc, l)
      else if c = '\n' then .error (.stringUnexpectedLinefeed acc start p)
      else if StringToken.tokenize c = .reverseSolidus then
        match parseEscape l with
        | .error e => .error e
        | .ok (ch, l2) => parseStringLoop fuel (acc ++ [ch]) start l2
      else parseStringLoop fuel (acc ++ [c]) start ⟨tl, l.eofPos⟩

/-- Parser::parse_string: consume the opening quote, run the character
loop, consume the closing quote. -/
def parseString (l : Lexer) : Except PErr (Value × Lexer) :=
  match lex1 StringToken.tokenize TokKind.strTok .quotation false l with
  | (.error e, _) => .error e
  | (.ok (start, _), l1) =>
    match parseStringLoop (l1.s.length + 1) [] start l1 with
    | .error e => .error e
    | .ok (s, l2) =>
      match lex1 StringToken.tokenize TokKind.strTok .quotation false l2 with
      | (.error e, _) => .error e
      | (.ok _, l3) => .ok (.string s, l3)

/-- Parser::parse_digits: consume a run of digit characters; an empty run
is the dedicated empty digits error.  The recursion is structural on the
stream. -/
def parseDigitsAux (start : Pos) (e : Pos) : List PC → Str → Except PErr (Str × Lexer)
  | [], acc => if acc = [] then .error (.emptyDigits start) else .ok (acc, ⟨[], e⟩)
  | (p, c) :: tl, acc =>
    match NumberToken.tokenize c with
    | .zero => parseDigitsAux start e tl (acc ++ [c])
    | .oneNine _ => parseDigitsAux start e tl (acc ++ [c])
    | _ => if acc = [] then .error (.emptyDigits start) else .ok (acc, ⟨(p, c) :: tl, e⟩)

/-- Parser::parse_fraction: a dot followed by a mandatory digit run. -/
def parseFraction (start : Pos) (l : Lexer) : Except PErr (Str × Lexer) :=
  match lex1 NumberToken.tokenize TokKind.numTok .dot false l with
  | (.error e, _) => .error e
  | (.ok (_, dotc), l1) =>
    match parseDigitsAux start l1.eofPos l1.s [] with
    | .error e => .error e
    | .ok (ds, l2) => .ok (dotc :: ds, l2)

/-- Parser::parse_exponent: `e`/`E`, an optional sign, and a mandatory
digit run. -/
def parseExponent (start : Pos) (l : Lexer) : Except PErr (Str × Lexer) :=
  match lex1 NumberToken.tokenize TokKind.numTok .exponent false l with
  | (.error e, _) => .error e
  | (.ok (_, expc), l1) =>
    match l1.s with
    | [] => .error (.numberUnexpectedEof [expc] start l1.eofPos)
    | (pos, sd) :: tl =>
      match NumberToken.tokenize sd with
      | .plus =>
        match parseDigitsAux start l1.eofPos tl [] with
        | .error e => .error e
        | .ok (ds, l2) => .ok (expc :: sd :: ds, l2)
      | .minus =>
        match parseDigitsAux start l1.eofPos tl [] with
        | .error e => .error e
        | .ok (ds, l2) => .ok (expc :: sd :: ds, l2)
      | .zero =>
        match parseDigitsAux start l1.eofPos l1.s [] with
        | .error e => .error e
        | .ok (ds, l2) => .ok (expc :: ds, l2)
      | .oneNine _ =>
        match parseDigitsAux start l1.eofPos l1.s [] with
        | .error e => .error e
        | .ok (ds, l2) => .ok (expc :: ds, l2)
      | tk => .error (.numUnexpectedToken tk pos)

/-- Is `c` a decimal digit. -/
def isDigitCh (c : Char) : Bool := decide ('0' ≤ c ∧ c ≤ '9')

/-- Numeric value of a digit run. -/
def digitsVal (ds : Str) : Nat := ds.foldl (fun a c => a * 10 + (c.toNat - 48)) 0

/-- Model of `str::parse::<i64>`: optional sign, nonempty digit run, value
within the 64 bit signed range. -/
def strToI64 (s : Str) : Option Int :=
  let (sign, body) : Int × Str :=
    match s with
    | [] => (1, [])
    | c :: tl =>
      if c = '-' then (-1, tl) else if c = '+' then (1, tl) else (1, c :: tl)
  if body = [] ∨ ¬ body.all isDigitCh then none
  else
    let v : Int := sign * digitsVal body
    if -(2 ^ 63) ≤ v ∧ v ≤ 2 ^ 63 - 1 then some v else none

/-- Model of `str::parse::<f64>` on the numerals this parser builds:
optional sign, integer digits, optional fraction, optional exponent; the
exact decimal value is kept.  (Rust rounds to the nearest binary64 and
overflows to infinity; the numerals compared by the claims are all exactly
representable, and no claim exercises the overflow range.) -/
def strToF64 (s : Str) : Option F64 :=
  let (sign, body) : Int × Str :=
    match s with
    | [] => (1, [])
    | c :: tl =>
      if c = '-' then (-1, tl) else if c = '+' then (1, tl) else (1, c :: tl)
  let ip := body.takeWhile isDigitCh
  let rest := body.dropWhile isDigitCh
  let (fp, rest2) : Str × Str :=
    match rest with
    | [] => ([], [])
    | c :: tl =>
      if c = '.' then (tl.takeWhile isDigitCh, tl.dropWhile isDigitCh) else ([], c :: tl)
  if ip = [] ∧ fp = [] then none
  else
    match rest2 with
    | [] =>
      let m : Int := sign * (digitsVal (ip ++ fp))
      some (.num m fp.length)
    | ec :: tl =>
      if ec = 'e' ∨ ec = 'E' then
        let (esign, ebody) : Int × Str :=
          match tl with
          | [] => (1, [])
          | c2 :: tl2 =>
            if c2 = '-' then (-1, tl2) else if c2 = '+' then (1, tl2) else (1, c2 :: tl2)
        if ebody = [] ∨ ¬ ebody.all isDigitCh then none
        else
          let m : Int := sign * (digitsVal (ip ++ fp))
          let e : Int := esign * digitsVal ebody - fp.length
          if 0 ≤ e then some (.num (m * (10 : Int) ^ e.toNat) 0) else some (.num m e.natAbs)
      else none

/-- Parser::parse_number: optional minus, a lone zero or a digit run, an
optional fraction and exponent deciding float against integer, then the
fallible conversion of the accumulated numeral. -/
def parseNumber (l : Lexer) : Except PErr (Value × Lexer) :=
  match l.s with
  | [] => .error (.numberUnexpectedEof [] l.eofPos l.eofPos)
  | (start, _) :: _ =>
    let (mres, l1) := lex1 NumberToken.tokenize TokKind.numTok .minus false l
    let num0 : Str := match mres with | .ok (_, mc) => [mc] | .error _ => []
    let (zres, l2) := lex1 NumberToken.tokenize TokKind.numTok .zero false l1
    let digitsPart : Except PErr (Str × Lexer) :=
      match zres with
      | .ok (_, zc) => .ok (num0 ++ [zc], l2)
      | .error _ =>
        match parseDigitsAux start l2.eofPos l2.s [] with
        | .error e => .error e
        | .ok (ds, l3) => .ok (num0 ++ ds, l3)
    match digitsPart with
    | .error e => .error e
    | .ok (num1, l3) =>
      let c : Char := match l3.s with | [] => '\x00' | (_, ch) :: _ => ch
      if NumberToken.tokenize c = .dot ∨ NumberToken.tokenize c = .exponent then
        let fracPart : Except PErr (Str × Lexer) :=
          match isNext NumberToken.tokenize .dot false l3 with
          | (true, l4) =>
            match parseFraction start l4 with
            | .error e => .error e
            | .ok (fs, l5) => .ok (num1 ++ fs, l5)
          | (false, l4) => .ok (num1, l4)
        match fracPart with
        | .error e => .error e
        | .ok (num2, l5) =>
          let expPart : Except PErr (Str × Lexer) :=
            match isNext NumberToken.tokenize .exponent false l5 with
            | (true, l6) =>
              match parseExponent start l6 with
              | .error e => .error e
              | .ok (es, l7) => .ok (num2 ++ es, l7)
            | (false, l6) => .ok (num2, l6)
          match expPart with
          | .error e => .error e
          | .ok (num3, l7) =>
            let stop : Pos := match l7.s with | [] => l7.eofPos | (p, _) :: _ => p
            match strToF64 num3 with
            | some f => .ok (.float f, l7)
            | none => .error (.cannotConvertF64 num3 start stop)
      else
        let stop : Pos := match l3.s with | [] => l3.eofPos | (p, _) :: _ => p
        match strToI64 num1 with
        | some n => .ok (.integer n, l3)
        | none => .error (.cannotConvertI64 num1 start stop)

/-- Parser::parse_bool: disambiguate on the first character, then require
the exact literal. -/
def parseBool (l : Lexer) : Except PErr (Value × Lexer) :=
  match l.s with
  | [] => .error (.seqUnexpectedEof [.true_, .false_] l.eofPos l.eofPos)
  | (pos, tf) :: _ =>
    match ImmediateToken.tokenize tf with
    | .undecided 't' =>
      match lexExpected .true_ l with
      | .error e => .error e
      | .ok l2 => .ok (.bool true, l2)
    | .undecided 'f' =>
      match lexExpected .false_ l with
      | .error e => .error e
      | .ok l2 => .ok (.bool false, l2)
    | bl => .error (.immUnexpectedToken bl [.true_, .false_] pos)

/-- Parser::parse_null: require the `null` literal. -/
def parseNull (l : Lexer) : Except PErr (Value × Lexer) :=
  match l.s with
  | [] => .error (.seqUnexpectedEof [.null_] l.eofPos l.eofPos)
  | (pos, n) :: _ =>
    match ImmediateToken.tokenize n with
    | .undecided 'n' =>
      match lexExpected .null_ l with
      | .error e => .error e
      | .ok l2 => .ok (.null, l2)
    | nl => .error (.immUnexpectedToken nl [.null_] pos)

/-- LinkedHashMap::insert: replace in place when the key is present
(keeping the first insertion position), append otherwise. -/
def insertMember : List (Str × Value) → Str → Value → List (Str × Value)
  | [], k, v => [(k, v)]
  | (k0, v0) :: tl, k, v =>
    if k0 = k then (k0, v) :: tl else (k0, v0) :: insertMember tl k v

/-- The `String::from(Value)` conversion the object loop applies to a
parsed key: a parsed key is always a `string` value. -/
def keyOf : Value → Str
  | .string s => s
  | _ => []

/-- Closing step of parse_object: the final `lex_1_char` on `}`. -/
def closeObject (acc : List (Str × Value)) (l : Lexer) : Except PErr (Value × Lexer) :=
  match lex1 MainToken.tokenize TokKind.mainTok .rightBrace true l with
  | (.error e, _) => .error e
  | (.ok _, l1) => .ok (.object acc, l1)

/-- Closing step of parse_array: the final `lex_1_char` on `]`. -/
def closeArray (acc : List Value) (l : Lexer) : Except PErr (Value × Lexer) :=
  match lex1 MainToken.tokenize TokKind.mainTok .rightBracket true l with
  | (.error e, _) => .error e
  | (.ok _, l1) => .ok (.array acc, l1)

/-- The state of the mutually recursive parser procedures: which procedure
is running and, for the member and element loops, the container built so
far.  Packaging the mutual recursion as one function that is structurally
recursive on fuel keeps every parse kernel computable. -/
inductive PFrame
  | val
  | obj
  | objLoop (acc : List (Str × Value))
  | arr
  | arrLoop (acc : List Value)

/-- The mutually recursive parser procedures of src/src/syntax/parser.rs,
one branch per procedure, each mutual call spending one unit of fuel:

- `.val` is Parser::parse_value (lines 24 to 47): skip whitespace, dispatch
  on the classified leading character;
- `.obj` is Parser::parse_object (lines 51 to 72): consume `{` and enter
  the member loop;
- `.objLoop acc` is the member loop of parse_object: while the next token
  is not `}`, a quotation starts another member (key, colon, value,
  insert); a consumed comma followed by `}` is the dedicated trailing comma
  error at the comma position; a failed comma consumption continues the
  loop, which exits when the next token is `}` or not a quotation; finally
  `}` is consumed;
- `.arr` is Parser::parse_array (lines 76 to 93): consume `[` and enter the
  element loop;
- `.arrLoop acc` is the element loop of parse_array: while the next token
  is not `]`, parse an element; a consumed comma followed by `]` is the
  dedicated trailing comma error; a failed comma consumption breaks the
  loop; finally `]` is consumed. -/
def parseStep : Nat → PFrame → Lexer → Except PErr (Value × Lexer)
  | 0, _, _ => .error .outOfFuel
  | fuel + 1, .val, l =>
    let l1 := l.skipWs
    match l1.s with
    | [] => .error (.valueUnexpectedEof l1.eofPos)
    | (pos, c) :: _ =>
      match MainToken.tokenize c with
      | .leftBrace => parseStep fuel .obj l1
      | .leftBracket => parseStep fuel .arr l1
      | .undecided 't' => parseBool l1
      | .undecided 'f' => parseBool l1
      | .undecided 'n' => parseNull l1
      | .quotation => parseString l1
      | .minus => parseNumber l1
      | .digit _ => parseNumber l1
      | tk => .error (.cannotStartParseValue tk pos)
  | fuel + 1, .obj, l =>
    match lex1 MainToken.tokenize TokKind.mainTok .leftBrace true l with
    | (.error e, _) => .error e
    | (.ok _, l1) => parseStep fuel (.objLoop []) l1
  | fuel + 1, .objLoop acc, l =>
    match isNext MainToken.tokenize .rightBrace true l with
    | (true, l1) => closeObject acc l1
    | (false, l1) =>
      match isNext MainToken.tokenize .quotation true l1 with
      | (false, l2) => closeObject acc l2
      | (true, l2) =>
        match parseString l2 with
        | .error e => .error e
        | .ok (kv, l3) =>
          match lex1 MainToken.tokenize TokKind.mainTok .colon true l3 with
          | (.error e, _) => .error e
          | (.ok _, l4) =>
            match parseStep fuel .val l4 with
            | .error e => .error e
            | .ok (v, l5) =>
              let acc2 := insertMember acc (keyOf kv) v
              match lex1 MainToken.tokenize TokKind.mainTok .comma true l5 with
              | (.ok (p, _), l6) =>
                match isNext MainToken.tokenize .rightBrace true l6 with
                | (true, _) => .error (.trailingComma p)
                | (false, l7) => parseStep fuel (.objLoop acc2) l7
              | (.error _, l6) => parseStep fuel (.objLoop acc2) l6
  | fuel + 1, .arr, l =>
    match lex1 MainToken.tokenize TokKind.mainTok .leftBracket true l with
    | (.error e, _) => .error e
    | (.ok _, l1) => parseStep fuel (.arrLoop []) l1
  | fuel + 1, .arrLoop acc, l =>
    match isNext MainToken.tokenize .rightBracket true l with
    | (true, l1) => closeArray acc l1
    | (false, l1) =>
      match parseStep fuel .val l1 with
      | .error e => .error e
      | .ok (v, l2) =>
        let acc2 := acc ++ [v]
        match lex1 MainToken.tokenize TokKind.mainTok .comma true l2 with
        | (.ok (p, _), l3) =>
          match isNext MainToken.tokenize .rightBracket true l3 with
          | (true, _) => .error (.trailingComma p)
          | (false, l4) => parseStep fuel (.arrLoop acc2) l4
        | (.error _, l3) => closeArray acc2 l3

/-- Parser::parse_value. -/
def parseValue (fuel : Nat) (l : Lexer) : Except PErr (Value × Lexer) :=
  parseStep fuel .val l

/-- Parser::parse_object. -/
def parseObject (fuel : Nat) (l : Lexer) : Except PErr (Value × Lexer) :=
  parseStep fuel .obj l

/-- Parser::parse_array. -/
def parseArray (fuel : Nat) (l : Lexer) : Except PErr (Value × Lexer) :=
  parseStep fuel .arr l

/-- Value::parse of src/src/ast/io.rs: build the RawJson buffer from the
input text, run parse_value from a fresh lexer and return its value.  At
most three frame transitions happen per consumed character, so the supplied
fuel exceeds what any parse can spend; the sufficiency lemmas below prove
this for the values the round trip theorems quantify over. -/
def Value.parse (s : Str) : Except PErr Value :=
  let rj := rawJsonOfString s
  let st := streamOf rj
  match parseValue (3 * st.length + 4) ⟨st, rawEof rj⟩ with
  | .error e => .error e
  | .ok (v, _) => .ok v

/-! ## Paths, from src/src/ast/index.rs and src/src/ast/index_path.rs -/

/-- JsonIndexer of src/src/ast/index.rs: one addressing step. -/
inductive JsonIndexer
  | objInd (s : Str)
  | arrInd (i : Nat)
  deriving DecidableEq, Repr

/-- A path: the ordered addressing steps (the underlying `Vec<JsonIndexer>`
of JsonPath; the diff engine uses the plain vector). -/
abbrev JsonPath := List JsonIndexer

/-- JsonPath::lca of src/src/ast/index_path.rs lines 87 to 94: zip the two
paths, take while the steps agree, and collect the steps taken. -/
def lcaPath : JsonPath → JsonPath → JsonPath
  | x :: xs, y :: ys => if x = y then x :: lcaPath xs ys else []
  | _, _ => []

/-- JsonPath::depth of src/src/ast/index_path.rs. -/
def pathDepth (p : JsonPath) : Nat := p.length

/-- One list is a leading segment of another. -/
def PrefOf {α : Type} (p l : List α) : Prop := ∃ t, p ++ t = l

/-! ## Diff engine, from src/src/ast/diff.rs -/

/-- Lexicographic comparison of strings by code point, the order of Rust
`String` `Ord` (UTF-8 byte order agrees with code point order). -/
def strLe : Str → Str → Bool
  | [], _ => true
  | _ :: _, [] => false
  | a :: xs, b :: ys => if a = b then strLe xs ys else decide (a < b)

/-- Insertion step of the by-key sort. -/
def insertByKey (x : Str × Value) : List (Str × Value) → List (Str × Value)
  | [] => [x]
  | y :: ys => if strLe x.1 y.1 then x :: y :: ys else y :: insertByKey x ys

/-- Model of `sorted_by_key(|e| e.0)`: the members ordered by key. -/
def sortByKey : List (Str × Value) → List (Str × Value)
  | [] => []
  | x :: xs => insertByKey x (sortByKey xs)

mutual

/-- Body of diff_value (src/src/ast/diff.rs lines 10 to 50).  `none` models
the panic of `itertools::zip_eq` on iterators of unequal length; a panic
anywhere discards the whole result.  The fuel decreases once per recursion
level; the entry point supplies more than the depth of the left tree, which
bounds the recursion since only aligned container pairs recurse. -/
def diffRec : Nat → Value → Value → JsonPath → JsonPath → Option (List (JsonPath × JsonPath))
  | 0, _, _, _, _ => none
  | fuel + 1, .object ma, .object mb, pa, pb => diffMembers fuel (sortByKey ma) (sortByKey mb) pa pb
  | fuel + 1, .array va, .array vb, pa, pb => diffElems fuel 0 va vb pa pb
  | _ + 1, a, b, pa, pb => if a.rustEq b then some [] else some [(pa, pb)]

/-- The object arm: both member lists sorted by key are zipped in lock
step; a key mismatch records a divergence without recursing, matching keys
recurse with the key appended to both paths; unequal lengths panic. -/
def diffMembers : Nat → List (Str × Value) → List (Str × Value) → JsonPath → JsonPath →
    Option (List (JsonPath × JsonPath))
  | _, [], [], _, _ => some []
  | fuel, (ka, va) :: ta, (kb, vb) :: tb, pa, pb =>
    let here :=
      if ka = kb then diffRec fuel va vb (pa ++ [.objInd ka]) (pb ++ [.objInd kb])
      else some [(pa ++ [.objInd ka], pb ++ [.objInd kb])]
    match here, diffMembers fuel ta tb pa pb with
    | some h, some t => some (h ++ t)
    | _, _ => none
  | _, _, _, _, _ => none

/-- The array arm: elements zipped by index in lock step; unequal lengths
panic. -/
def diffElems : Nat → Nat → List Value → List Value → JsonPath → JsonPath →
    Option (List (JsonPath × JsonPath))
  | _, _, [], [], _, _ => some []
  | fuel, i, a :: ta, b :: tb, pa, pb =>
    match diffRec fuel a b (pa ++ [.arrInd i]) (pb ++ [.arrInd i]),
        diffElems fuel (i + 1) ta tb pa pb with
    | some h, some t => some (h ++ t)
    | _, _ => none
  | _, _, _, _, _, _ => none

end

mutual

/-- Nesting depth of a value, 1 at a leaf: a bound on the recursion depth
of the diff walk along its left argument. -/
def vdepth : Value → Nat
  | .object ms => 1 + vdepthMembers ms
  | .array es => 1 + vdepthElems es
  | _ => 1

/-- Largest nesting depth among member values. -/
def vdepthMembers : List (Str × Value) → Nat
  | [] => 0
  | (_, v) :: tl => max (vdepth v) (vdepthMembers tl)

/-- Largest nesting depth among elements. -/
def vdepthElems : List Value → Nat
  | [] => 0
  | v :: tl => max (vdepth v) (vdepthElems tl)

end

/-- diff_value of src/src/ast/diff.rs: walk the two trees from the root
with empty paths.  The fuel strictly exceeds the depth of `a`, which bounds
the recursion. -/
def diffValue (a b : Value) : Option (List (JsonPath × JsonPath)) :=
  diffRec (vdepth a + 1) a b [] []

/-! ## Validity predicates on values -/

/-- A value of the data model of the specification: object keys are unique
(the map invariant) and every integer fits `i64`. -/
inductive Wf : Value → Prop
  | object : ∀ ms, ms.Pairwise (fun a b => a.1 ≠ b.1) → (∀ kv ∈ ms, Wf kv.2) →
      Wf (.object ms)
  | array : ∀ es, (∀ v ∈ es, Wf v) → Wf (.array es)
  | bool : ∀ b, Wf (.bool b)
  | null : Wf .null
  | string : ∀ s, Wf (.string s)
  | integer : ∀ n : Int, -(2 ^ 63) ≤ n → n ≤ 2 ^ 63 - 1 → Wf (.integer n)
  | float : ∀ f, Wf (.float f)

/-- A value with no float leaf anywhere. -/
inductive NoFloat : Value → Prop
  | object : ∀ ms, (∀ kv ∈ ms, NoFloat kv.2) → NoFloat (.object ms)
  | array : ∀ es, (∀ v ∈ es, NoFloat v) → NoFloat (.array es)
  | bool : ∀ b, NoFloat (.bool b)
  | null : NoFloat .null
  | string : ∀ s, NoFloat (.string s)
  | integer : ∀ n, NoFloat (.integer n)

/-- A value whose float leaves (if any) are not NaN. -/
inductive NoNan : Value → Prop
  | object : ∀ ms, (∀ kv ∈ ms, NoNan kv.2) → NoNan (.object ms)
  | array : ∀ es, (∀ v ∈ es, NoNan v) → NoNan (.array es)
  | bool : ∀ b, NoNan (.bool b)
  | null : NoNan .null
  | string : ∀ s, NoNan (.string s)
  | integer : ∀ n, NoNan (.integer n)
  | float : ∀ m k, NoNan (.float (.num m k))

mutual

/-- Fuel sufficient for `parseValue` to complete on a rendering of `v`:
one unit per call in the `parseValue` / `parseObject` / loop chain. -/
def needFuel : Value → Nat
  | .object ms => 2 + needLoopMembers ms
  | .array es => 2 + needLoopElems es
  | _ => 1

/-- Fuel sufficient for the member loop on the given members. -/
def needLoopMembers : List (Str × Value) → Nat
  | [] => 1
  | (_, v) :: tl => 1 + max (needFuel v) (needLoopMembers tl)

/-- Fuel sufficient for the element loop on the given elements. -/
def needLoopElems : List Value → Nat
  | [] => 1
  | v :: tl => 1 + max (needFuel v) (needLoopElems tl)

end

/-- The escape `quote` applies to one character (the chained replacements
act independently on each character). -/
def escChar (c : Char) : Str :=
  if c = '\\' then ['\\', '\\']
  else if c = '"' then ['\\', '"']
  else if c = '/' then ['\\', '/']
  else if c = '\n' then ['\\', 'n']
  else if c = '\r' then ['\\', 'r']
  else if c = '\t' then ['\\', 't']
  else [c]

/-- Character-wise form of the `quote` body. -/
def escStr : Str → Str
  | [] => []
  | c :: tl => escChar c ++ escStr tl

/-- A tail of the stream whose head cannot extend a numeral: parsing a
value directly followed by such a tail stops exactly at the boundary. -/
def SafeRest (l : List PC) : Prop :=
  ∀ p c, l.head? = some (p, c) → isDigitCh c = false ∧ c ≠ '.' ∧ c ≠ 'e' ∧ c ≠ 'E'

/-- A run of lexer items all classified as whitespace. -/
def WsRun (u : List PC) : Prop :=
  ∀ pc ∈ u, MainToken.tokenize pc.2 = MainToken.whitespace

/-- The leaf values (everything except containers and floats), with the
`i64` range bound on integers. -/
def LeafVal : Value → Prop
  | .bool _ => True
  | .null => True
  | .string _ => True
  | .integer n => -(2 ^ 63) ≤ n ∧ n ≤ 2 ^ 63 - 1
  | _ => False

/-- The pretty rendering of an object, seen from inside the member loop:
the text from the first member (indentation stripped) to the closing brace
inclusive.  The loop skips whitespace before every token, so the stripped
indentation joins the whitespace run already crossed. -/
def pObjTail : List (Str × Value) → Nat → Str
  | [], _ => ['\x7d']
  | (k, v) :: tl, ind =>
    quote k ++ ':' :: ' ' :: (stringifyRec v (ind + 1) ++
      match tl with
      | [] => '\n' :: (indentStr ind ++ ['\x7d'])
      | _ :: _ => ',' :: '\n' :: (indentStr (ind + 1) ++ pObjTail tl ind))

/-- The pretty rendering of an array, seen from inside the element loop:
the text from the first element to the closing bracket inclusive. -/
def pArrTail : List Value → Nat → Str
  | [], _ => [']']
  | v :: tl, ind =>
    stringifyRec v (ind + 1) ++
      match tl with
      | [] => '\n' :: (indentStr ind ++ [']'])
      | _ :: _ => ',' :: '\n' :: (indentStr (ind + 1) ++ pArrTail tl ind)

/-! ## Theorems: the frozen claims -/

/-- C6: parsing `{"a":1,}` and `[1,]` both fail, each with the dedicated
trailing comma error kind carrying exactly the position of the offending
comma (column 6 and column 2 of row 0 respectively), not a generic syntax
error. -/
theorem claim6_trailing_comma_rejection :
    Value.parse "\x7b\"a\":1,\x7d".data = .error (.trailingComma (0, 6)) ∧
    Value.parse "[1,]".data = .error (.trailingComma (0, 2)) :=
  ⟨rfl, rfl⟩

/-- C8: `"\u00f9"` parses to the string `ù`, `"\/"` parses to `/`, and
`"\f"` (likewise `"\b"`) fails with the dedicated unsupported escape error
carrying the offending escape token and its span, rather than substituting
a character. -/
theorem claim8_escape_handling :
    Value.parse "\"\\u00f9\"".data = .ok (.string "ù".data) ∧
    Value.parse "\"\\/\"".data = .ok (.string "/".data) ∧
    Value.parse "\"\\f\"".data = .error (.unsupportedEscapeSequence .formfeed (0, 1) (0, 2)) ∧
    Value.parse "\"\\b\"".data = .error (.unsupportedEscapeSequence .backspace (0, 1) (0, 2)) :=
  ⟨rfl, rfl, rfl, rfl⟩

/-- C10: Value::parse consumes only a leading prefix of the input and
performs no end-of-input check: `{} x` parses to the empty object ignoring
` x`, `01` parses to `Integer 0` ignoring the second digit, and `1.2.3`
parses to `Float 1.2` (the exact decimal 12/10) ignoring `.3`. -/
theorem claim10_prefix_only_parse :
    Value.parse "\x7b\x7d x".data = .ok (.object []) ∧
    Value.parse "01".data = .ok (.integer 0) ∧
    Value.parse "1.2.3".data = .ok (.float (.num 12 1)) :=
  ⟨rfl, rfl, rfl⟩

/-- C3: evaluation of the cited code on the number grammar examples.  The
first four behaviours are as the claim states; but `1.2.3` parses
successfully to `Float 1.2` (the in-tree test
src/src/syntax/error.rs::test_invalid_number expects it to fail) and `01`
parses successfully to `Integer 0`, because parse never checks that the
whole input was consumed. -/
theorem claim3_number_grammar_evaluation :
    Value.parse "100".data = .ok (.integer 100) ∧
    Value.parse "0.5".data = .ok (.float (.num 5 1)) ∧
    Value.parse "1E3".data = .ok (.float (.num 1000 0)) ∧
    Value.parse "+123".data = .error (.cannotStartParseValue .plus (0, 0)) ∧
    Value.parse "1.2.3".data = .ok (.float (.num 12 1)) ∧
    Value.parse "01".data = .ok (.integer 0) :=
  ⟨rfl, rfl, rfl, rfl, rfl, rfl⟩

/-- C2, counterexample: the claim says an input whose two object members
are not separated by a comma is rejected, but `{"a":1 "b":2}` parses
successfully to the object holding both members: after a failed comma
consumption the member loop continues rather than exiting. -/
theorem claim2_counterexample :
    Value.parse "\x7b\"a\":1 \"b\":2\x7d".data =
      .ok (.object [("a".data, .integer 1), ("b".data, .integer 2)]) :=
  rfl

/-- C2, amended: after a member is parsed, a failed comma consumption
continues the member loop, so members merely separated by whitespace are
accepted (`{"a":1 "b":2}` gives both members); the loop exits only when the
next token is not a quotation, and then a closing `}` is required, so
`{"a":1 5}` fails with an unexpected token error expecting `}`. -/
theorem claim2_amended_member_loop :
    Value.parse "\x7b\"a\":1 \"b\":2\x7d".data =
      .ok (.object [("a".data, .integer 1), ("b".data, .integer 2)]) ∧
    Value.parse "\x7b\"a\":1 5\x7d".data =
      .error (.lexUnexpected (.mainTok (.digit '5')) (.mainTok .rightBrace) (0, 7)) :=
  ⟨rfl, rfl⟩

/-- C7, counterexample: the buffer built from `"a"` has one row, so the
claimed sentinel `(rows, 0)` would be `(1, 0)`; the code returns `(0, 2)`
(last row index, length of the last row including its trailing line
feed). -/
theorem claim7_counterexample :
    (rawJsonOfString "a".data).length = 1 ∧
    rawEof (rawJsonOfString "a".data) = (0, 2) ∧
    rawEof (rawJsonOfString "a".data) ≠ ((rawJsonOfString "a".data).length, 0) :=
  ⟨rfl, rfl, by decide⟩

/-- C7, amended: eof() returns `(0, 0)` on the empty buffer, and on a
non-empty buffer (written `rows ++ [row]`) it returns the index of the last
row paired with that row's length — one past the characters of the last
row — not `(rows, 0)`. -/
theorem claim7_amended_eof_sentinel :
    rawEof [] = (0, 0) ∧
    ∀ (rows : RawJson) (row : List Char), rawEof (rows ++ [row]) = (rows.length, row.length) := by
  refine ⟨rfl, ?_⟩
  intro rows row
  have hget : (rows ++ [row]).getD ((rows ++ [row]).length - 1) [] = row := by
    rw [List.length_append, List.length_singleton, Nat.add_sub_cancel,
      List.getD_eq_getElem?_getD, List.getElem?_concat_length, Option.getD_some]
  have hpos : (rows ++ [row]).length > 0 := by
    rw [List.length_append, List.length_singleton]; omega
  show (if (rows ++ [row]).length > 0 then
      ((rows ++ [row]).length - 1, ((rows ++ [row]).getD ((rows ++ [row]).length - 1) []).length)
    else (0, 0)) = (rows.length, row.length)
  rw [if_pos hpos, hget, List.length_append, List.length_singleton, Nat.add_sub_cancel]

/-- Left projection of the shared path: `lcaPath a b` is a leading segment
of `a`. -/
theorem lcaPath_pref_left : ∀ a b : JsonPath, PrefOf (lcaPath a b) a := by
  intro a
  induction a with
  | nil => intro b; cases b <;> exact ⟨[], rfl⟩
  | cons x xs ih =>
    intro b
    cases b with
    | nil => exact ⟨x :: xs, rfl⟩
    | cons y ys =>
      by_cases hxy : x = y
      · obtain ⟨t, ht⟩ := ih ys
        exact ⟨t, by simp [lcaPath, hxy, ht]⟩
      · exact ⟨x :: xs, by simp [lcaPath, hxy]⟩

/-- Right projection of the shared path: `lcaPath a b` is a leading segment
of `b`. -/
theorem lcaPath_pref_right : ∀ a b : JsonPath, PrefOf (lcaPath a b) b := by
  intro a
  induction a with
  | nil => intro b; cases b <;> exact ⟨_, rfl⟩
  | cons x xs ih =>
    intro b
    cases b with
    | nil => exact ⟨[], rfl⟩
    | cons y ys =>
      by_cases hxy : x = y
      · subst hxy
        obtain ⟨t, ht⟩ := ih ys
        exact ⟨t, by simp [lcaPath, ht]⟩
      · exact ⟨y :: ys, by simp [lcaPath, hxy]⟩

/-- Maximality: every common leading segment is at most as deep as the
computed one. -/
theorem lcaPath_longest :
    ∀ (p a b : JsonPath), PrefOf p a → PrefOf p b → p.length ≤ (lcaPath a b).length := by
  intro p
  induction p with
  | nil => intro a b _ _; exact Nat.zero_le _
  | cons z zs ih =>
    intro a b ⟨ta, hta⟩ ⟨tb, htb⟩
    subst hta htb
    have h1 : lcaPath (z :: zs ++ ta) (z :: zs ++ tb) = z :: lcaPath (zs ++ ta) (zs ++ tb) := by
      simp [lcaPath]
    rw [h1]
    have := ih (zs ++ ta) (zs ++ tb) ⟨ta, rfl⟩ ⟨tb, rfl⟩
    simp only [List.length_cons]
    omega

/-- C9: JsonPath::lca computes the longest shared prefix: it is a prefix of
both arguments, and every common prefix has depth at most its depth. -/
theorem claim9_lca_longest_shared :
    ∀ a b : JsonPath,
      PrefOf (lcaPath a b) a ∧ PrefOf (lcaPath a b) b ∧
        ∀ p : JsonPath, PrefOf p a → PrefOf p b → pathDepth p ≤ pathDepth (lcaPath a b) :=
  fun a b =>
    ⟨lcaPath_pref_left a b, lcaPath_pref_right a b, fun p hpa hpb => lcaPath_longest p a b hpa hpb⟩

/-- C9, witness: the paths of the src/src/ast/index_path.rs test
(`key>0` and `key>2>"foo"`) at the common prefix `key`. -/
theorem claim9_lca_witness :
    PrefOf (lcaPath [JsonIndexer.objInd "key".data, JsonIndexer.arrInd 0]
        [JsonIndexer.objInd "key".data, JsonIndexer.arrInd 2, JsonIndexer.objInd "foo".data])
      [JsonIndexer.objInd "key".data, JsonIndexer.arrInd 0] ∧
    pathDepth [JsonIndexer.objInd "key".data] ≤
      pathDepth (lcaPath [JsonIndexer.objInd "key".data, JsonIndexer.arrInd 0]
        [JsonIndexer.objInd "key".data, JsonIndexer.arrInd 2, JsonIndexer.objInd "foo".data]) :=
  ⟨(claim9_lca_longest_shared _ _).1,
    (claim9_lca_longest_shared _ _).2.2 [JsonIndexer.objInd "key".data]
      ⟨[JsonIndexer.arrInd 0], rfl⟩
      ⟨[JsonIndexer.arrInd 2, JsonIndexer.objInd "foo".data], rfl⟩⟩

/-- Inserting by key produces a permutation of pushing in front. -/
theorem insertByKey_perm (x : Str × Value) :
    ∀ l : List (Str × Value), List.Perm (insertByKey x l) (x :: l) := by
  intro l
  induction l with
  | nil => exact List.Perm.refl _
  | cons y ys ih =>
    by_cases h : strLe x.1 y.1 = true
    · simp [insertByKey, h]
    · simp only [insertByKey, h, if_false, Bool.false_eq_true]
      exact (ih.cons y).trans (List.Perm.swap x y ys)

/-- The by-key sort permutes the member list. -/
theorem sortByKey_perm : ∀ l : List (Str × Value), List.Perm (sortByKey l) l := by
  intro l
  induction l with
  | nil => exact List.Perm.refl _
  | cons x xs ih => exact (insertByKey_perm x (sortByKey xs)).trans (ih.cons x)

/-- Sorting by key preserves the number of members. -/
theorem length_sortByKey (l : List (Str × Value)) : (sortByKey l).length = l.length :=
  (sortByKey_perm l).length_eq

/-- Members of the sorted list are members of the original list. -/
theorem mem_of_mem_sortByKey {x : Str × Value} {l : List (Str × Value)}
    (h : x ∈ sortByKey l) : x ∈ l :=
  (sortByKey_perm l).mem_iff.mp h

/-- A member value is no deeper than the member depth bound. -/
theorem vdepth_le_of_mem_members {kv : Str × Value} :
    ∀ {ms : List (Str × Value)}, kv ∈ ms → vdepth kv.2 ≤ vdepthMembers ms := by
  intro ms
  induction ms with
  | nil => intro h; cases h
  | cons hd tl ih =>
    intro h
    rcases List.mem_cons.mp h with h | h
    · subst h
      simp [vdepthMembers]
    · calc vdepth kv.2 ≤ vdepthMembers tl := ih h
        _ ≤ vdepthMembers (hd :: tl) := by
          obtain ⟨k0, v0⟩ := hd
          simp [vdepthMembers]

/-- An element is no deeper than the element depth bound. -/
theorem vdepth_le_of_mem_elems {v : Value} :
    ∀ {es : List Value}, v ∈ es → vdepth v ≤ vdepthElems es := by
  intro es
  induction es with
  | nil => intro h; cases h
  | cons hd tl ih =>
    intro h
    rcases List.mem_cons.mp h with h | h
    · subst h
      simp [vdepthElems]
    · calc vdepth v ≤ vdepthElems tl := ih h
        _ ≤ vdepthElems (hd :: tl) := by simp [vdepthElems]

/-- Zipping member lists of different lengths panics, whatever the fuel. -/
theorem diffMembers_length_ne :
    ∀ (s1 s2 : List (Str × Value)) (fuel : Nat) (pa pb : JsonPath),
      s1.length ≠ s2.length → diffMembers fuel s1 s2 pa pb = none := by
  intro s1
  induction s1 with
  | nil =>
    intro s2 fuel pa pb h
    cases s2 with
    | nil => exact absurd rfl h
    | cons y t => simp [diffMembers]
  | cons x t1 ih =>
    intro s2 fuel pa pb h
    cases s2 with
    | nil => obtain ⟨xk, xv⟩ := x; simp [diffMembers]
    | cons y t2 =>
      obtain ⟨xk, xv⟩ := x
      obtain ⟨yk, yv⟩ := y
      have ht : t1.length ≠ t2.length := by
        simp only [List.length_cons] at h
        omega
      simp only [diffMembers, ih t2 fuel pa pb ht]
      cases hif : (if xk = yk then
          diffRec fuel xv yv (pa ++ [.objInd xk]) (pb ++ [.objInd yk])
        else some [(pa ++ [.objInd xk], pb ++ [.objInd yk])]) <;> rfl

/-- Zipping element lists of different lengths panics, whatever the fuel. -/
theorem diffElems_length_ne :
    ∀ (e1 e2 : List Value) (fuel i : Nat) (pa pb : JsonPath),
      e1.length ≠ e2.length → diffElems fuel i e1 e2 pa pb = none := by
  intro e1
  induction e1 with
  | nil =>
    intro e2 fuel i pa pb h
    cases e2 with
    | nil => exact absurd rfl h
    | cons y t => simp [diffElems]
  | cons x t1 ih =>
    intro e2 fuel i pa pb h
    cases e2 with
    | nil => simp [diffElems]
    | cons y t2 =>
      have ht : t1.length ≠ t2.length := by
        simp only [List.length_cons] at h
        omega
      simp only [diffElems, ih t2 fuel (i + 1) pa pb ht]
      cases hd : diffRec fuel x y (pa ++ [.arrInd i]) (pb ++ [.arrInd i]) <;> rfl

/-- C5, counterexample: comparing an Object with an Array (mismatched
variants, hence trees of different shape) does not abort: the catch-all arm
records a single root divergence and returns it. -/
theorem claim5_counterexample :
    diffValue (.object []) (.array []) = some [([], [])] ∧
    diffValue (.object []) (.array []) ≠ none := by
  constructor
  · simp [diffValue, vdepth, vdepthMembers, diffRec, Value.rustEq]
  · simp [diffValue, vdepth, vdepthMembers, diffRec, Value.rustEq]

/-- C5, amended: the diff aborts (panics, modelled `none`) exactly where
`zip_eq` meets same-variant containers of different sizes - two Objects
with different key counts or two Arrays of different lengths - whereas a
mismatched-variant pair (Object against Array in either order) is handled
by the catch-all arm, which records a divergence at the current path and
returns normally. -/
theorem claim5_shape_mismatch_behaviour :
    (∀ ma mb : List (Str × Value), ma.length ≠ mb.length →
      diffValue (.object ma) (.object mb) = none) ∧
    (∀ va vb : List Value, va.length ≠ vb.length →
      diffValue (.array va) (.array vb) = none) ∧
    (∀ (ma : List (Str × Value)) (vb : List Value),
      diffValue (.object ma) (.array vb) = some [([], [])]) ∧
    (∀ (va : List Value) (mb : List (Str × Value)),
      diffValue (.array va) (.object mb) = some [([], [])]) := by
  refine ⟨?_, ?_, ?_, ?_⟩
  · intro ma mb h
    have hs : (sortByKey ma).length ≠ (sortByKey mb).length := by
      rw [length_sortByKey, length_sortByKey]; exact h
    simp only [diffValue, diffRec]
    exact diffMembers_length_ne _ _ _ _ _ hs
  · intro va vb h
    simp only [diffValue, diffRec]
    exact diffElems_length_ne _ _ _ _ _ _ h
  · intro ma vb
    simp [diffValue, diffRec, Value.rustEq]
  · intro va mb
    simp [diffValue, diffRec, Value.rustEq]

/-- C5, witness: a one-member object against an empty object, and a
two-element array against a one-element array, both abort. -/
theorem claim5_shape_mismatch_witness :
    diffValue (.object [("a".data, .null)]) (.object []) = none ∧
    diffValue (.array [.null, .null]) (.array [.null]) = none :=
  ⟨claim5_shape_mismatch_behaviour.1 _ _ (by decide),
    claim5_shape_mismatch_behaviour.2.1 _ _ (by decide)⟩

/-- The member loop of the reflexive walk returns no divergence: with any
fuel that covers every member value, identical member lists diff to the
empty list. -/
theorem diffMembers_self (n : Nat)
    (ih : ∀ (v : Value) (pa pb : JsonPath), vdepth v < n → NoNan v →
      diffRec n v v pa pb = some []) :
    ∀ (ms : List (Str × Value)) (pa pb : JsonPath),
      (∀ kv ∈ ms, vdepth kv.2 < n ∧ NoNan kv.2) →
      diffMembers n ms ms pa pb = some [] := by
  intro ms
  induction ms with
  | nil => intro pa pb _; simp [diffMembers]
  | cons hd tl ihm =>
    intro pa pb h
    obtain ⟨k, v⟩ := hd
    have hv := h (k, v) (List.mem_cons_self _ _)
    have htl : ∀ kv ∈ tl, vdepth kv.2 < n ∧ NoNan kv.2 :=
      fun kv hkv => h kv (List.mem_cons_of_mem _ hkv)
    simp [diffMembers, ih v _ _ hv.1 hv.2, ihm pa pb htl]

/-- The element loop of the reflexive walk returns no divergence. -/
theorem diffElems_self (n : Nat)
    (ih : ∀ (v : Value) (pa pb : JsonPath), vdepth v < n → NoNan v →
      diffRec n v v pa pb = some []) :
    ∀ (es : List Value) (i : Nat) (pa pb : JsonPath),
      (∀ v ∈ es, vdepth v < n ∧ NoNan v) →
      diffElems n i es es pa pb = some [] := by
  intro es
  induction es with
  | nil => intro i pa pb _; simp [diffElems]
  | cons hd tl ihm =>
    intro i pa pb h
    have hv := h hd (List.mem_cons_self _ _)
    have htl : ∀ v ∈ tl, vdepth v < n ∧ NoNan v :=
      fun v hkv => h v (List.mem_cons_of_mem _ hkv)
    simp [diffElems, ih hd _ _ hv.1 hv.2, ihm (i + 1) pa pb htl]

/-- Reflexivity of the diff walk on NaN-free values, for any fuel
exceeding the depth. -/
theorem diffRec_self :
    ∀ (fuel : Nat) (v : Value) (pa pb : JsonPath), vdepth v < fuel → NoNan v →
      diffRec fuel v v pa pb = some [] := by
  intro fuel
  induction fuel with
  | zero => intro v pa pb h; omega
  | succ n ih =>
    intro v pa pb hd hn
    cases hn with
    | object ms hms =>
      have hdm : vdepthMembers ms < n := by
        simp only [vdepth] at hd
        omega
      simp only [diffRec]
      refine diffMembers_self n ih (sortByKey ms) pa pb ?_
      intro kv hkv
      have hmem := mem_of_mem_sortByKey hkv
      exact ⟨lt_of_le_of_lt (vdepth_le_of_mem_members hmem) hdm, hms kv hmem⟩
    | array es hes =>
      have hde : vdepthElems es < n := by
        simp only [vdepth] at hd
        omega
      simp only [diffRec]
      refine diffElems_self n ih es 0 pa pb ?_
      intro v hv
      exact ⟨lt_of_le_of_lt (vdepth_le_of_mem_elems hv) hde, hes v hv⟩
    | bool b => simp [diffRec, Value.rustEq]
    | null => simp [diffRec, Value.rustEq]
    | string s => simp [diffRec, Value.rustEq]
    | integer m => simp [diffRec, Value.rustEq]
    | float m k => simp [diffRec, Value.rustEq, F64.rustEq]

/-- C4, counterexample: at a NaN float leaf the claim fails: `f64`
`PartialEq` makes NaN unequal to itself, so diff_value(v, v) reports a
divergence at the root instead of the empty list. -/
theorem claim4_counterexample :
    diffValue (.float .nan) (.float .nan) = some [([], [])] ∧
    diffValue (.float .nan) (.float .nan) ≠ some [] := by
  constructor
  · simp [diffValue, vdepth, diffRec, Value.rustEq, F64.rustEq]
  · simp [diffValue, vdepth, diffRec, Value.rustEq, F64.rustEq]

/-- C4, amended: for every value none of whose float leaves is NaN
(including any finite float leaf), diff_value(v, v) returns the empty list
of divergences. -/
theorem claim4_diff_reflexive (v : Value) (h : NoNan v) : diffValue v v = some [] :=
  diffRec_self (vdepth v + 1) v [] [] (by omega) h

/-- C4, witness: reflexivity at a tree with a finite float leaf. -/
theorem claim4_diff_reflexive_witness :
    NoNan (.object [("x".data, .float (.num 5 1))]) ∧
    diffValue (.object [("x".data, .float (.num 5 1))])
      (.object [("x".data, .float (.num 5 1))]) = some [] :=
  have h : NoNan (.object [("x".data, .float (.num 5 1))]) :=
    .object _ (fun kv hkv => by
      rcases List.mem_singleton.mp hkv with rfl
      exact .float 5 1)
  ⟨h, claim4_diff_reflexive _ h⟩

/-! ## Round trip: stream and lexer primitives -/

/-- A stream rendering a cons splits into its first item and the rest. -/
theorem map_snd_cons {l : List PC} {c : Char} {s : Str}
    (h : l.map Prod.snd = c :: s) :
    ∃ p tl, l = (p, c) :: tl ∧ tl.map Prod.snd = s := by
  cases l with
  | nil => simp at h
  | cons hd tl =>
    obtain ⟨p, c0⟩ := hd
    simp only [List.map_cons, List.cons.injEq] at h
    exact ⟨p, tl, by rw [h.1], h.2⟩

/-- A stream rendering a concatenation splits accordingly. -/
theorem map_snd_append {l : List PC} {s₁ s₂ : Str}
    (h : l.map Prod.snd = s₁ ++ s₂) :
    ∃ u w, l = u ++ w ∧ u.map Prod.snd = s₁ ∧ w.map Prod.snd = s₂ := by
  induction s₁ generalizing l with
  | nil => exact ⟨[], l, rfl, rfl, h⟩
  | cons c cs ih =>
    rw [List.cons_append] at h
    obtain ⟨p, tl, rfl, htl⟩ := map_snd_cons h
    obtain ⟨u, w, rfl, hu, hw⟩ := ih htl
    exact ⟨(p, c) :: u, w, rfl, by simp [hu], hw⟩

/-- An empty rendering forces an empty stream. -/
theorem map_snd_nil {l : List PC} (h : l.map Prod.snd = []) : l = [] :=
  List.map_eq_nil_iff.mp h

/-- Skipping whitespace does not move past a non-whitespace head. -/
theorem skipWsList_not_ws {p : Pos} {c : Char} {tl : List PC}
    (h : MainToken.tokenize c ≠ .whitespace) :
    skipWsList ((p, c) :: tl) = (p, c) :: tl := by
  simp [skipWsList, h]

/-- Skipping whitespace crosses a run of whitespace items. -/
theorem skipWsList_append_ws {u : List PC}
    (h : ∀ pc ∈ u, MainToken.tokenize pc.2 = .whitespace) :
    ∀ l : List PC, skipWsList (u ++ l) = skipWsList l := by
  induction u with
  | nil => intro l; rfl
  | cons hd tl ih =>
    intro l
    obtain ⟨p, c⟩ := hd
    have hc := h (p, c) (List.mem_cons_self _ _)
    simp only [List.cons_append, skipWsList, hc, if_pos]
    exact ih (fun pc hpc => h pc (List.mem_cons_of_mem _ hpc)) l

/-- Successful single-token read without whitespace skipping. -/
theorem lex1_cons_ok {α : Type} [DecidableEq α] {tokenize : Char → α} {inj : α → TokKind}
    {expected : α} {p : Pos} {c : Char} {tl : List PC} {e : Pos}
    (h : tokenize c = expected) :
    lex1 tokenize inj expected false ⟨(p, c) :: tl, e⟩ = (.ok (p, c), ⟨tl, e⟩) := by
  simp [lex1, Lexer.skipWs, skipWsList, h]

/-- Failed single-token read without whitespace skipping: the cursor does
not move. -/
theorem lex1_cons_fail {α : Type} [DecidableEq α] {tokenize : Char → α} {inj : α → TokKind}
    {expected : α} {p : Pos} {c : Char} {tl : List PC} {e : Pos}
    (h : tokenize c ≠ expected) :
    lex1 tokenize inj expected false ⟨(p, c) :: tl, e⟩ =
      (.error (.lexUnexpected (inj (tokenize c)) (inj expected) p), ⟨(p, c) :: tl, e⟩) := by
  simp [lex1, Lexer.skipWs, skipWsList, h]

/-- Successful single-token read with whitespace skipping, when the head is
already significant. -/
theorem lex1_skip_cons_ok {α : Type} [DecidableEq α] {tokenize : Char → α} {inj : α → TokKind}
    {expected : α} {p : Pos} {c : Char} {tl : List PC} {e : Pos}
    (hws : MainToken.tokenize c ≠ .whitespace) (h : tokenize c = expected) :
    lex1 tokenize inj expected true ⟨(p, c) :: tl, e⟩ = (.ok (p, c), ⟨tl, e⟩) := by
  simp [lex1, Lexer.skipWs, skipWsList_not_ws hws, h]

/-- Failed single-token read with whitespace skipping, when the head is
already significant. -/
theorem lex1_skip_cons_fail {α : Type} [DecidableEq α] {tokenize : Char → α} {inj : α → TokKind}
    {expected : α} {p : Pos} {c : Char} {tl : List PC} {e : Pos}
    (hws : MainToken.tokenize c ≠ .whitespace) (h : tokenize c ≠ expected) :
    lex1 tokenize inj expected true ⟨(p, c) :: tl, e⟩ =
      (.error (.lexUnexpected (inj (tokenize c)) (inj expected) p), ⟨(p, c) :: tl, e⟩) := by
  simp [lex1, Lexer.skipWs, skipWsList_not_ws hws, h]

/-- Non-consuming classification of a significant head, with skipping. -/
theorem isNext_skip_cons {α : Type} [DecidableEq α] {tokenize : Char → α}
    {expected : α} {p : Pos} {c : Char} {tl : List PC} {e : Pos}
    (hws : MainToken.tokenize c ≠ .whitespace) :
    isNext tokenize expected true ⟨(p, c) :: tl, e⟩ =
      (decide (tokenize c = expected), ⟨(p, c) :: tl, e⟩) := by
  simp [isNext, Lexer.skipWs, skipWsList_not_ws hws]

/-- Non-consuming classification without skipping. -/
theorem isNext_cons {α : Type} [DecidableEq α] {tokenize : Char → α}
    {expected : α} {p : Pos} {c : Char} {tl : List PC} {e : Pos} :
    isNext tokenize expected false ⟨(p, c) :: tl, e⟩ =
      (decide (tokenize c = expected), ⟨(p, c) :: tl, e⟩) := by
  simp [isNext]

/-! ## Round trip: character class facts -/

/-- Inversion of the string token classifier at its two structural
tokens. -/
theorem tokST_inv {c : Char} :
    (StringToken.tokenize c = .quotation ↔ c = '"') ∧
    (StringToken.tokenize c = .reverseSolidus ↔ c = '\\') := by
  by_cases h1 : c = '"'
  · subst h1; decide
  · by_cases h2 : c = '\\'
    · subst h2; decide
    · simp only [StringToken.tokenize, if_neg h1, if_neg h2]
      split_ifs with h3 h4 h5 h6 h7 h8 h9 h10 <;> simp [h1, h2]

/-- Only the quotation mark classifies as the quotation string token. -/
theorem tokST_quotation_iff {c : Char} : StringToken.tokenize c = .quotation ↔ c = '"' :=
  tokST_inv.1

/-- Only the backslash classifies as the reverse solidus string token. -/
theorem tokST_reverseSolidus_iff {c : Char} :
    StringToken.tokenize c = .reverseSolidus ↔ c = '\\' :=
  tokST_inv.2

/-- Inversion of the number token classifier at the tokens the parser
dispatches on. -/
theorem tokNum_inv {c : Char} :
    (NumberToken.tokenize c = .zero ↔ c = '0') ∧
    (NumberToken.tokenize c = .dot ↔ c = '.') ∧
    (NumberToken.tokenize c = .exponent ↔ (c = 'e' ∨ c = 'E')) ∧
    (isDigitCh c = false → ∀ d, NumberToken.tokenize c ≠ .oneNine d) := by
  by_cases h1 : c = '0'
  · subst h1
    exact ⟨by decide, by decide, by decide, fun h _ => absurd h (by decide)⟩
  · by_cases h2 : c = '+'
    · subst h2
      exact ⟨by decide, by decide, by decide, fun _ d => by simp [NumberToken.tokenize]⟩
    · by_cases h3 : c = '-'
      · subst h3
        exact ⟨by decide, by decide, by decide, fun _ d => by simp [NumberToken.tokenize]⟩
      · by_cases h4 : c = '.'
        · subst h4
          exact ⟨by decide, by decide, by decide, fun _ d => by simp [NumberToken.tokenize]⟩
        · by_cases h5 : c = 'e' ∨ c = 'E'
          · rcases h5 with rfl | rfl <;>
              exact ⟨by decide, by decide, by decide, fun _ d => by simp [NumberToken.tokenize]⟩
          · simp only [NumberToken.tokenize, if_neg h1, if_neg h2, if_neg h3, if_neg h4,
              if_neg h5]
            by_cases h6 : '1' ≤ c ∧ c ≤ '9'
            · have hd : isDigitCh c = true := by
                simp only [isDigitCh, decide_eq_true_eq]
                exact ⟨le_trans (by decide) h6.1, h6.2⟩
              simp [if_pos h6, h1, h4, h5, hd]
            · simp [if_neg h6, h1, h4, h5]

/-- Only the zero digit classifies as the zero number token. -/
theorem tokNum_zero_iff {c : Char} : NumberToken.tokenize c = .zero ↔ c = '0' :=
  tokNum_inv.1

/-- Only the dot classifies as the dot number token. -/
theorem tokNum_dot_iff {c : Char} : NumberToken.tokenize c = .dot ↔ c = '.' :=
  tokNum_inv.2.1

/-- Only `e` and `E` classify as the exponent number token. -/
theorem tokNum_exp_iff {c : Char} :
    NumberToken.tokenize c = .exponent ↔ c = 'e' ∨ c = 'E' :=
  tokNum_inv.2.2.1

/-- A non-digit character classifies as neither digit number token. -/
theorem tokNum_not_digit {c : Char} (h : isDigitCh c = false) :
    NumberToken.tokenize c ≠ .zero ∧ ∀ d, NumberToken.tokenize c ≠ .oneNine d := by
  refine ⟨?_, tokNum_inv.2.2.2 h⟩
  simp only [Ne, tokNum_zero_iff]
  intro hc
  subst hc
  simp [isDigitCh] at h

/-! ## Round trip: decimal digit rendering -/

/-- A digit character is a digit. -/
theorem isDigitCh_digitChar {k : Nat} (h : k < 10) : isDigitCh (digitChar k) = true := by
  interval_cases k <;> decide

/-- Numeric value of a digit run extended by one digit. -/
theorem digitsVal_append_single (a : Str) (c : Char) :
    digitsVal (a ++ [c]) = digitsVal a * 10 + (c.toNat - 48) := by
  simp [digitsVal, List.foldl_append]

/-- The code of a digit character. -/
theorem digitChar_toNat {k : Nat} (h : k < 10) : (digitChar k).toNat = 48 + k := by
  interval_cases k <;> decide

/-- The decimal digit rendering is a nonempty run of digit characters whose
value is the rendered number and whose leading digit is nonzero when the
number is. -/
theorem natDigitsAux_spec :
    ∀ (fuel n : Nat), n < fuel →
      natDigitsAux fuel n ≠ [] ∧
      (∀ c ∈ natDigitsAux fuel n, isDigitCh c = true) ∧
      digitsVal (natDigitsAux fuel n) = n ∧
      (∀ d ds, natDigitsAux fuel n = d :: ds → 0 < n → NumberToken.tokenize d ≠ .zero) := by
  intro fuel
  induction fuel with
  | zero => intro n h; omega
  | succ m ih =>
    intro n h
    by_cases h10 : n < 10
    · refine ⟨by simp [natDigitsAux, h10], ?_, ?_, ?_⟩
      · intro c hc
        simp only [natDigitsAux, if_pos h10, List.mem_singleton] at hc
        subst hc
        exact isDigitCh_digitChar h10
      · simp [natDigitsAux, h10, digitsVal, digitChar_toNat h10]
      · intro d ds hds hn
        simp only [natDigitsAux, if_pos h10, List.cons.injEq] at hds
        rw [← hds.1]
        simp only [Ne, tokNum_zero_iff]
        intro h0
        have h48 := congrArg Char.toNat h0
        rw [digitChar_toNat h10] at h48
        have : (48 : Nat) + n = 48 := by simpa using h48
        omega
    · have hm : n / 10 < m := by
        have h1 : n / 10 < n := Nat.div_lt_self (by omega) (by omega)
        omega
      obtain ⟨hne, hdig, hval, hhead⟩ := ih (n / 10) hm
      have hmod : n % 10 < 10 := Nat.mod_lt _ (by omega)
      refine ⟨?_, ?_, ?_, ?_⟩
      · simp [natDigitsAux, h10]
      · intro c hc
        simp only [natDigitsAux, if_neg h10, List.mem_append, List.mem_singleton] at hc
        rcases hc with hc | hc
        · exact hdig c hc
        · subst hc; exact isDigitCh_digitChar hmod
      · simp only [natDigitsAux, if_neg h10]
        rw [digitsVal_append_single, hval, digitChar_toNat hmod]
        omega
      · intro d ds hds hn
        obtain ⟨d0, ds0, hcons⟩ := List.exists_cons_of_ne_nil hne
        simp only [natDigitsAux, if_neg h10, hcons, List.cons_append, List.cons.injEq] at hds
        rw [← hds.1]
        exact hhead d0 ds0 hcons (by omega)

/-- Specification of `natDigits`. -/
theorem natDigits_spec (n : Nat) :
    natDigits n ≠ [] ∧
    (∀ c ∈ natDigits n, isDigitCh c = true) ∧
    digitsVal (natDigits n) = n ∧
    (∀ d ds, natDigits n = d :: ds → 0 < n → NumberToken.tokenize d ≠ .zero) :=
  natDigitsAux_spec (n + 1) n (by omega)

/-- Character order in terms of the scalar value. -/
theorem char_le_iff {a b : Char} : a ≤ b ↔ a.toNat ≤ b.toNat := by
  rw [Char.le_def, UInt32.le_def, BitVec.le_def]; rfl

/-- Strict character order in terms of the scalar value. -/
theorem char_lt_iff {a b : Char} : a < b ↔ a.toNat < b.toNat := by
  rw [Char.lt_def, UInt32.lt_def, BitVec.lt_def]; rfl

/-- Characters with the same scalar value are equal. -/
theorem char_eq_of_toNat {a b : Char} (h : a.toNat = b.toNat) : a = b := by
  apply Char.ext; apply UInt32.eq_of_toBitVec_eq; apply BitVec.eq_of_toNat_eq; exact h

/-- Scalar value bounds of a digit character. -/
theorem digit_toNat_bounds {c : Char} (h : isDigitCh c = true) :
    48 ≤ c.toNat ∧ c.toNat ≤ 57 := by
  simp only [isDigitCh, decide_eq_true_eq] at h
  exact ⟨char_le_iff.mp h.1, char_le_iff.mp h.2⟩

/-- A digit character differs from any character whose scalar value lies
outside the digit range. -/
theorem digit_ne_of_out {c : Char} (h : isDigitCh c = true) (d : Char)
    (hd : d.toNat < 48 ∨ 57 < d.toNat) : c ≠ d := by
  intro he
  have hb := digit_toNat_bounds h
  rw [he] at hb
  omega

/-- A digit character classifies under NumberToken as zero or as its own
one-to-nine token. -/
theorem digit_cases {c : Char} (h : isDigitCh c = true) :
    (c = '0' ∧ NumberToken.tokenize c = .zero) ∨
    (c ≠ '0' ∧ NumberToken.tokenize c = .oneNine c) := by
  by_cases h0 : c = '0'
  · subst h0; exact Or.inl ⟨rfl, rfl⟩
  · refine Or.inr ⟨h0, ?_⟩
    have hb := digit_toNat_bounds h
    have h48 : c.toNat ≠ 48 := fun he => h0 (char_eq_of_toNat (by simpa using he))
    have h1c : '1' ≤ c := char_le_iff.mpr (by simp; omega)
    have h9c : c ≤ '9' := by
      simp only [isDigitCh, decide_eq_true_eq] at h
      exact h.2
    simp only [NumberToken.tokenize, if_neg h0,
      if_neg (digit_ne_of_out h '+' (by decide)),
      if_neg (digit_ne_of_out h '-' (by decide)),
      if_neg (digit_ne_of_out h '.' (by decide))]
    rw [if_neg, if_pos ⟨h1c, h9c⟩]
    rintro (he | he) <;> exact digit_ne_of_out h _ (by decide) he

/-- A digit character classifies under MainToken as its own digit token. -/
theorem tokenizeMain_digit {c : Char} (h : isDigitCh c = true) :
    MainToken.tokenize c = .digit c := by
  have hd : '0' ≤ c ∧ c ≤ '9' := by
    simpa only [isDigitCh, decide_eq_true_eq] using h
  simp only [MainToken.tokenize,
    if_neg (digit_ne_of_out h '\x7b' (by decide)),
    if_neg (digit_ne_of_out h '\x7d' (by decide)),
    if_neg (digit_ne_of_out h '[' (by decide)),
    if_neg (digit_ne_of_out h ']' (by decide)),
    if_neg (digit_ne_of_out h ':' (by decide)),
    if_neg (digit_ne_of_out h ',' (by decide)),
    if_neg (digit_ne_of_out h '"' (by decide)),
    if_neg (digit_ne_of_out h '+' (by decide)),
    if_neg (digit_ne_of_out h '-' (by decide)),
    if_neg (digit_ne_of_out h '.' (by decide))]
  rw [if_neg, if_pos hd]
  rintro (he | he | he | he) <;> exact digit_ne_of_out h _ (by decide) he

/-- A digit character is not whitespace under MainToken. -/
theorem tokenizeMain_digit_not_ws {c : Char} (h : isDigitCh c = true) :
    MainToken.tokenize c ≠ .whitespace := by
  rw [tokenizeMain_digit h]
  simp

/-- Evaluation of the i64 conversion on an unsigned digit run. -/
theorem strToI64_digits {d : Char} {ds : Str}
    (hall : ∀ c ∈ d :: ds, isDigitCh c = true)
    (hrange : (digitsVal (d :: ds) : Int) ≤ 2 ^ 63 - 1) :
    strToI64 (d :: ds) = some ((digitsVal (d :: ds) : Int)) := by
  have hd := hall d (List.mem_cons_self _ _)
  have hne1 : d ≠ '-' := digit_ne_of_out hd '-' (by decide)
  have hne2 : d ≠ '+' := digit_ne_of_out hd '+' (by decide)
  have hbody : (d :: ds).all isDigitCh = true := List.all_eq_true.mpr hall
  simp only [strToI64, if_neg hne1, if_neg hne2, hbody]
  have hlow : (0 : Int) ≤ (digitsVal (d :: ds) : Int) := Int.natCast_nonneg _
  simp
  constructor <;> omega

/-- Evaluation of the i64 conversion on a minus sign and a digit run. -/
theorem strToI64_neg_digits {ds : Str} (hne : ds ≠ [])
    (hall : ∀ c ∈ ds, isDigitCh c = true)
    (hrange : -(2 ^ 63 : Int) ≤ -(digitsVal ds : Int)) :
    strToI64 ('-' :: ds) = some (-(digitsVal ds : Int)) := by
  have hbody : ds.all isDigitCh = true := List.all_eq_true.mpr hall
  simp only [strToI64, if_pos rfl, hbody]
  have hlow : (0 : Int) ≤ (digitsVal ds : Int) := Int.natCast_nonneg _
  simp [hne]
  refine ⟨hall, by omega, by omega⟩

/-- The i64 conversion inverts the i64 rendering on the representable
range. -/
theorem strToI64_intToString {n : Int} (h1 : -(2 ^ 63) ≤ n) (h2 : n ≤ 2 ^ 63 - 1) :
    strToI64 (intToString n) = some n := by
  obtain ⟨hne, hdig, hval, _⟩ := natDigits_spec n.natAbs
  obtain ⟨d, ds, hcons⟩ := List.exists_cons_of_ne_nil hne
  by_cases hneg : n < 0
  · rw [intToString, if_pos hneg]
    rw [strToI64_neg_digits hne hdig (by rw [hval]; omega), hval]
    congr 1
    omega
  · rw [intToString, if_neg hneg, hcons]
    rw [strToI64_digits (hcons ▸ hdig) (by rw [← hcons, hval]; omega), ← hcons, hval]
    congr 1
    omega

/-- parse_digits consumes exactly a nonempty digit run when the following
stream cannot extend it. -/
theorem parseDigitsAux_consume :
    ∀ (ds : Str) (l₁ l₂ : List PC) (e start : Pos) (acc : Str),
      l₁.map Prod.snd = ds → (∀ c ∈ ds, isDigitCh c = true) → SafeRest l₂ →
      acc ++ ds ≠ [] →
      parseDigitsAux start e (l₁ ++ l₂) acc = .ok (acc ++ ds, ⟨l₂, e⟩) := by
  intro ds
  induction ds with
  | nil =>
    intro l₁ l₂ e start acc h1 _ hsafe hne
    rw [map_snd_nil h1, List.nil_append]
    cases l₂ with
    | nil =>
      simp only [List.append_nil] at hne
      simp [parseDigitsAux, hne]
    | cons pc tl =>
      obtain ⟨p, c⟩ := pc
      have hc := hsafe p c rfl
      obtain ⟨hz, ho⟩ := tokNum_not_digit hc.1
      simp only [List.append_nil] at hne
      cases htok : NumberToken.tokenize c with
      | zero => exact absurd htok hz
      | oneNine d => exact absurd htok (ho d)
      | plus => simp [parseDigitsAux, htok, hne]
      | minus => simp [parseDigitsAux, htok, hne]
      | dot => simp [parseDigitsAux, htok, hne]
      | exponent => simp [parseDigitsAux, htok, hne]
      | unexpected d => simp [parseDigitsAux, htok, hne]
  | cons d dtl ih =>
    intro l₁ l₂ e start acc h1 hdig hsafe _
    obtain ⟨p, tl, rfl, htl⟩ := map_snd_cons h1
    have hd := hdig d (List.mem_cons_self _ _)
    have hdtl : ∀ c ∈ dtl, isDigitCh c = true :=
      fun c hc => hdig c (List.mem_cons_of_mem _ hc)
    have step : parseDigitsAux start e (((p, d) :: tl) ++ l₂) acc =
        parseDigitsAux start e (tl ++ l₂) (acc ++ [d]) := by
      rcases digit_cases hd with ⟨_, htok⟩ | ⟨_, htok⟩ <;>
        simp [parseDigitsAux, htok]
    rw [step, ih tl l₂ e start (acc ++ [d]) htl hdtl hsafe (by simp)]
    simp

/-- On a safe rest the first character opens neither a fraction nor an
exponent. -/
theorem safeRest_head_not_frac {p : Pos} {ch : Char} {tl : List PC}
    (hsafe : SafeRest ((p, ch) :: tl)) :
    ¬(NumberToken.tokenize ch = .dot ∨ NumberToken.tokenize ch = .exponent) := by
  obtain ⟨_, hdot, he, hE⟩ := hsafe p ch rfl
  rintro (h | h)
  · exact hdot (tokNum_dot_iff.mp h)
  · rcases tokNum_exp_iff.mp h with h | h
    · exact he h
    · exact hE h

/-- parse_number returns the rendered integer and stops at the rendering
boundary. -/
theorem parseNumber_int {n : Int} (h1 : -(2 ^ 63) ≤ n) (h2 : n ≤ 2 ^ 63 - 1)
    {l₁ l₂ : List PC} {e : Pos}
    (hmap : l₁.map Prod.snd = intToString n) (hsafe : SafeRest l₂) :
    parseNumber ⟨l₁ ++ l₂, e⟩ = .ok (.integer n, ⟨l₂, e⟩) := by
  obtain ⟨hne, hdig, hval, hhead⟩ := natDigits_spec n.natAbs
  obtain ⟨d, ds, hcons⟩ := List.exists_cons_of_ne_nil hne
  by_cases hneg : n < 0
  · -- minus sign, then digits with a nonzero leading digit
    rw [intToString, if_pos hneg] at hmap
    obtain ⟨pm, tlm, rfl, htlm⟩ := map_snd_cons hmap
    rw [hcons] at htlm
    obtain ⟨pd, tld, rfl, htld⟩ := map_snd_cons htlm
    have hd : isDigitCh d = true := hdig d (by rw [hcons]; exact List.mem_cons_self _ _)
    have habs : 0 < n.natAbs := by omega
    have hzero : NumberToken.tokenize d ≠ .zero := hhead d ds hcons habs
    have honine : NumberToken.tokenize d = .oneNine d := by
      rcases digit_cases hd with ⟨_, h⟩ | ⟨_, h⟩
      · exact absurd h hzero
      · exact h
    simp only [parseNumber, List.cons_append,
      lex1_cons_ok (show NumberToken.tokenize '-' = .minus by decide)]
    simp only [lex1_cons_fail (show NumberToken.tokenize d ≠ .zero from hzero)]
    have hdigits := parseDigitsAux_consume (d :: ds) ((pd, d) :: tld) l₂ e pm []
      (by simp [htld]) (by rw [← hcons]; exact hdig) hsafe (by simp)
    rw [List.cons_append] at hdigits
    rw [hdigits]
    simp only [List.nil_append]
    have hstr : strToI64 ('-' :: (d :: ds)) = some n := by
      have := strToI64_intToString (n := n) h1 h2
      rw [intToString, if_pos hneg, hcons] at this
      exact this
    split_ifs with hif
    · rcases l₂ with _ | ⟨⟨q, ch⟩, tl⟩
      · exact absurd hif (by decide)
      · exact absurd hif (safeRest_head_not_frac hsafe)
    · rw [hstr]
  · -- plain digit run
    rw [intToString, if_neg hneg] at hmap
    rw [hcons] at hmap
    obtain ⟨pd, tld, rfl, htld⟩ := map_snd_cons hmap
    have hd : isDigitCh d = true := hdig d (by rw [hcons]; exact List.mem_cons_self _ _)
    have hminus : NumberToken.tokenize d ≠ .minus := by
      rcases digit_cases hd with ⟨_, h⟩ | ⟨_, h⟩ <;> simp [h]
    have hstr : strToI64 (d :: ds) = some n := by
      have := strToI64_intToString (n := n) h1 h2
      rw [intToString, if_neg hneg, hcons] at this
      exact this
    by_cases h0 : n = 0
    · -- the single zero digit
      subst h0
      have : natDigits (0 : Int).natAbs = ['0'] := by decide
      rw [this] at hcons
      obtain ⟨rfl, rfl⟩ : d = '0' ∧ ds = [] := by
        simpa [List.cons.injEq] using hcons.symm
      have hnil : tld = [] := map_snd_nil htld
      subst hnil
      simp only [parseNumber, List.cons_append, List.nil_append,
        lex1_cons_fail (show NumberToken.tokenize '0' ≠ .minus by decide),
        lex1_cons_ok (show NumberToken.tokenize '0' = .zero by decide)]
      split_ifs with hif
      · rcases l₂ with _ | ⟨⟨q, ch⟩, tl⟩
        · exact absurd hif (by decide)
        · exact absurd hif (safeRest_head_not_frac hsafe)
      · rw [hstr]
    · -- a nonzero leading digit
      have habs : 0 < n.natAbs := by omega
      have hzero : NumberToken.tokenize d ≠ .zero := hhead d ds hcons habs
      simp only [parseNumber, List.cons_append,
        lex1_cons_fail (show NumberToken.tokenize d ≠ .minus from hminus),
        lex1_cons_fail (show NumberToken.tokenize d ≠ .zero from hzero)]
      have hdigits := parseDigitsAux_consume (d :: ds) ((pd, d) :: tld) l₂ e pd []
        (by simp [htld]) (by rw [← hcons]; exact hdig) hsafe (by simp)
      rw [List.cons_append] at hdigits
      rw [hdigits]
      simp only [List.nil_append]
      split_ifs with hif
      · rcases l₂ with _ | ⟨⟨q, ch⟩, tl⟩
        · exact absurd hif (by decide)
        · exact absurd hif (safeRest_head_not_frac hsafe)
      · rw [hstr]

/-! ## Round trip: strings -/

/-- A single-character replacement distributes over append. -/
theorem replaceChar_append (c : Char) (r : Str) :
    ∀ xs ys : Str, replaceChar (xs ++ ys) c r = replaceChar xs c r ++ replaceChar ys c r := by
  intro xs
  induction xs with
  | nil => intro ys; rfl
  | cons x tl ih =>
    intro ys
    simp only [List.cons_append, replaceChar, List.append_eq, ih, List.append_assoc]

/-- The six chained replacements of `quote` act on one character exactly as
`escChar`. -/
theorem escChar_chain (x : Char) :
    replaceChar (replaceChar (replaceChar (replaceChar (replaceChar (replaceChar
      [x] '\\' ['\\', '\\']) '"' ['\\', '"']) '/' ['\\', '/'])
      '\n' ['\\', 'n']) '\r' ['\\', 'r']) '\t' ['\\', 't'] = escChar x := by
  by_cases h1 : x = '\\'
  · subst h1; decide
  by_cases h2 : x = '"'
  · subst h2; decide
  by_cases h3 : x = '/'
  · subst h3; decide
  by_cases h4 : x = '\n'
  · subst h4; decide
  by_cases h5 : x = '\r'
  · subst h5; decide
  by_cases h6 : x = '\t'
  · subst h6; decide
  simp [replaceChar, escChar, h1, h2, h3, h4, h5, h6]

/-- The body of `quote` equals the character-wise escaping. -/
theorem quote_escStr (s : Str) : quote s = '"' :: (escStr s ++ ['"']) := by
  rw [quote]
  induction s with
  | nil => rfl
  | cons x tl ih =>
    have hx : x :: tl = [x] ++ tl := rfl
    rw [hx]
    simp only [replaceChar_append]
    rw [escChar_chain]
    simp only [escStr, List.append_assoc]
    simpa using ih

/-- parse_escape_sequence on each escape pair produced by `escChar`: the
backslash and the code character are consumed and the escaped character is
returned. -/
theorem parseEscape_pair {c ec : Char}
    (h : (c, ec) ∈ [('"', '"'), ('\\', '\\'), ('/', '/'), ('\n', 'n'), ('\r', 'r'), ('\t', 't')])
    (p1 p2 : Pos) (tl : List PC) (e : Pos) :
    parseEscape ⟨(p1, '\\') :: (p2, ec) :: tl, e⟩ = .ok (c, ⟨tl, e⟩) := by
  fin_cases h <;>
    simp +decide [parseEscape,
      lex1_cons_ok (show StringToken.tokenize '\\' = StringToken.reverseSolidus by decide),
      StringToken.tokenize]

/-- The parse_string loop rebuilds the escaped content and stops at the
closing quotation mark. -/
theorem parseStringLoop_rt :
    ∀ (content : Str) (fuel : Nat) (acc : Str) (start : Pos) (l₁ l₂ : List PC) (q : Pos)
      (e : Pos),
      l₁.map Prod.snd = escStr content → l₁.length + 1 ≤ fuel →
      parseStringLoop fuel acc start ⟨l₁ ++ (q, '"') :: l₂, e⟩ =
        .ok (acc ++ content, ⟨(q, '"') :: l₂, e⟩) := by
  intro content
  induction content with
  | nil =>
    intro fuel acc start l₁ l₂ q e hmap hfuel
    rw [map_snd_nil hmap]
    obtain ⟨f, rfl⟩ : ∃ f, fuel = f + 1 := ⟨fuel - 1, by omega⟩
    simp +decide [parseStringLoop]
  | cons c tl ih =>
    intro fuel acc start l₁ l₂ q e hmap hfuel
    rw [escStr] at hmap
    by_cases hc : c = '\\' ∨ c = '"' ∨ c = '/' ∨ c = '\n' ∨ c = '\r' ∨ c = '\t'
    · obtain ⟨ec, hmem, hch⟩ : ∃ ec,
          (c, ec) ∈ [('"', '"'), ('\\', '\\'), ('/', '/'), ('\n', 'n'), ('\r', 'r'),
            ('\t', 't')] ∧ escChar c = ['\\', ec] := by
        rcases hc with rfl | rfl | rfl | rfl | rfl | rfl
        · exact ⟨'\\', by simp, by decide⟩
        · exact ⟨'"', by simp, by decide⟩
        · exact ⟨'/', by simp, by decide⟩
        · exact ⟨'n', by simp, by decide⟩
        · exact ⟨'r', by simp, by decide⟩
        · exact ⟨'t', by simp, by decide⟩
      rw [hch] at hmap
      have hmap2 : l₁.map Prod.snd = '\\' :: (ec :: escStr tl) := by simpa using hmap
      obtain ⟨p1, r1, rfl, hr1⟩ := map_snd_cons hmap2
      obtain ⟨p2, r2, rfl, hr2⟩ := map_snd_cons hr1
      obtain ⟨f, rfl⟩ : ∃ f, fuel = f + 1 := ⟨fuel - 1, by omega⟩
      simp only [List.cons_append, parseStringLoop,
        if_neg (show ¬StringToken.tokenize '\\' = .quotation by decide),
        if_neg (show ¬('\\' = '\n') by decide),
        if_pos (show StringToken.tokenize '\\' = .reverseSolidus by decide),
        parseEscape_pair hmem]
      rw [ih f (acc ++ [c]) start r2 l₂ q e hr2
        (by simp only [List.length_cons] at hfuel ⊢; omega)]
      simp
    · push_neg at hc
      obtain ⟨h1, h2, h3, h4, h5, h6⟩ := hc
      have hesc : escChar c = [c] := by simp [escChar, h1, h2, h3, h4, h5, h6]
      rw [hesc] at hmap
      obtain ⟨p1, r1, rfl, hr1⟩ := map_snd_cons (by simpa using hmap)
      obtain ⟨f, rfl⟩ : ∃ f, fuel = f + 1 := ⟨fuel - 1, by omega⟩
      simp only [List.cons_append, parseStringLoop,
        if_neg (show ¬StringToken.tokenize c = .quotation by
          simp only [Ne, tokST_quotation_iff]; exact h2),
        if_neg h4,
        if_neg (show ¬StringToken.tokenize c = .reverseSolidus by
          simp only [Ne, tokST_reverseSolidus_iff]; exact h1)]
      rw [ih f (acc ++ [c]) start r1 l₂ q e hr1
        (by simp only [List.length_cons] at hfuel ⊢; omega)]
      simp

/-- Parser::parse_string on a rendered string literal: the quotes and
escaped content are consumed and the original content returned. -/
theorem parseString_rt {content : Str} {l₁ : List PC} (l₂ : List PC) (e : Pos)
    (hmap : l₁.map Prod.snd = quote content) :
    parseString ⟨l₁ ++ l₂, e⟩ = .ok (.string content, ⟨l₂, e⟩) := by
  rw [quote_escStr] at hmap
  obtain ⟨p, r1, rfl, hr1⟩ := map_snd_cons hmap
  obtain ⟨mid, rest, rfl, hmid, hrest⟩ := map_snd_append hr1
  obtain ⟨q, rqnil, rfl, hnil⟩ := map_snd_cons hrest
  rw [map_snd_nil hnil]
  simp only [List.cons_append, List.singleton_append, List.append_assoc, List.nil_append,
    parseString, lex1_cons_ok (show StringToken.tokenize '"' = .quotation by decide)]
  have hloop := parseStringLoop_rt content ((mid ++ (q, '"') :: l₂).length + 1) [] p mid l₂ q e
    hmid (by simp only [List.length_append, List.length_cons]; omega)
  rw [hloop]
  simp only [List.nil_append,
    lex1_cons_ok (show StringToken.tokenize '"' = .quotation by decide)]

/-! ## Round trip: the immediate literals -/

/-- Parser::parse_bool on the rendered `true` literal. -/
theorem parseBool_true_rt {l₁ l₂ : List PC} {e : Pos}
    (hmap : l₁.map Prod.snd = "true".data) :
    parseBool ⟨l₁ ++ l₂, e⟩ = .ok (.bool true, ⟨l₂, e⟩) := by
  have hd : "true".data = 't' :: 'r' :: 'u' :: 'e' :: [] := rfl
  rw [hd] at hmap
  obtain ⟨p1, r1, rfl, h1⟩ := map_snd_cons hmap
  obtain ⟨p2, r2, rfl, h2⟩ := map_snd_cons h1
  obtain ⟨p3, r3, rfl, h3⟩ := map_snd_cons h2
  obtain ⟨p4, r4, rfl, h4⟩ := map_snd_cons h3
  rw [map_snd_nil h4]
  simp +decide [parseBool, lexExpected, Lexer.skipWs, skipWsList, lexNAux,
    ImmediateToken.tokenize, ImmediateToken.confirm, ImmediateToken.text, MainToken.tokenize]

/-- Parser::parse_bool on the rendered `false` literal. -/
theorem parseBool_false_rt {l₁ l₂ : List PC} {e : Pos}
    (hmap : l₁.map Prod.snd = "false".data) :
    parseBool ⟨l₁ ++ l₂, e⟩ = .ok (.bool false, ⟨l₂, e⟩) := by
  have hd : "false".data = 'f' :: 'a' :: 'l' :: 's' :: 'e' :: [] := rfl
  rw [hd] at hmap
  obtain ⟨p1, r1, rfl, h1⟩ := map_snd_cons hmap
  obtain ⟨p2, r2, rfl, h2⟩ := map_snd_cons h1
  obtain ⟨p3, r3, rfl, h3⟩ := map_snd_cons h2
  obtain ⟨p4, r4, rfl, h4⟩ := map_snd_cons h3
  obtain ⟨p5, r5, rfl, h5⟩ := map_snd_cons h4
  rw [map_snd_nil h5]
  simp +decide [parseBool, lexExpected, Lexer.skipWs, skipWsList, lexNAux,
    ImmediateToken.tokenize, ImmediateToken.confirm, ImmediateToken.text, MainToken.tokenize]

/-- Parser::parse_null on the rendered `null` literal. -/
theorem parseNull_rt {l₁ l₂ : List PC} {e : Pos}
    (hmap : l₁.map Prod.snd = "null".data) :
    parseNull ⟨l₁ ++ l₂, e⟩ = .ok (.null, ⟨l₂, e⟩) := by
  have hd : "null".data = 'n' :: 'u' :: 'l' :: 'l' :: [] := rfl
  rw [hd] at hmap
  obtain ⟨p1, r1, rfl, h1⟩ := map_snd_cons hmap
  obtain ⟨p2, r2, rfl, h2⟩ := map_snd_cons h1
  obtain ⟨p3, r3, rfl, h3⟩ := map_snd_cons h2
  obtain ⟨p4, r4, rfl, h4⟩ := map_snd_cons h3
  rw [map_snd_nil h4]
  simp +decide [parseNull, lexExpected, Lexer.skipWs, skipWsList, lexNAux,
    ImmediateToken.tokenize, ImmediateToken.confirm, ImmediateToken.text, MainToken.tokenize]

/-! ## Round trip: lexing across a whitespace run -/

/-- Successful single-token read with skipping, across a whitespace run. -/
theorem lex1_ws_ok {α : Type} [DecidableEq α] {tokenize : Char → α} {inj : α → TokKind}
    {expected : α} {u : List PC} {p : Pos} {c : Char} {tl : List PC} {e : Pos}
    (hu : WsRun u) (hws : MainToken.tokenize c ≠ .whitespace) (h : tokenize c = expected) :
    lex1 tokenize inj expected true ⟨u ++ (p, c) :: tl, e⟩ = (.ok (p, c), ⟨tl, e⟩) := by
  simp [lex1, Lexer.skipWs, skipWsList_append_ws hu, skipWsList_not_ws hws, h]

/-- Failed single-token read with skipping, across a whitespace run: the
cursor stops after the run. -/
theorem lex1_ws_fail {α : Type} [DecidableEq α] {tokenize : Char → α} {inj : α → TokKind}
    {expected : α} {u : List PC} {p : Pos} {c : Char} {tl : List PC} {e : Pos}
    (hu : WsRun u) (hws : MainToken.tokenize c ≠ .whitespace) (h : tokenize c ≠ expected) :
    lex1 tokenize inj expected true ⟨u ++ (p, c) :: tl, e⟩ =
      (.error (.lexUnexpected (inj (tokenize c)) (inj expected) p), ⟨(p, c) :: tl, e⟩) := by
  simp [lex1, Lexer.skipWs, skipWsList_append_ws hu, skipWsList_not_ws hws, h]

/-- Non-consuming classification with skipping, across a whitespace run. -/
theorem isNext_ws {α : Type} [DecidableEq α] {tokenize : Char → α}
    {expected : α} {u : List PC} {p : Pos} {c : Char} {tl : List PC} {e : Pos}
    (hu : WsRun u) (hws : MainToken.tokenize c ≠ .whitespace) :
    isNext tokenize expected true ⟨u ++ (p, c) :: tl, e⟩ =
      (decide (tokenize c = expected), ⟨(p, c) :: tl, e⟩) := by
  simp [isNext, Lexer.skipWs, skipWsList_append_ws hu, skipWsList_not_ws hws]

/-- Insertion of a fresh key into the linked map appends. -/
theorem insertMember_notMem {k : Str} {v : Value} :
    ∀ {acc : List (Str × Value)}, (∀ kv ∈ acc, kv.1 ≠ k) →
      insertMember acc k v = acc ++ [(k, v)] := by
  intro acc
  induction acc with
  | nil => intro _; rfl
  | cons hd tl ih =>
    intro h
    obtain ⟨k0, v0⟩ := hd
    have hne : k0 ≠ k := h (k0, v0) (List.mem_cons_self _ _)
    simp only [insertMember, if_neg hne, List.cons_append, List.cons.injEq, true_and]
    exact ih fun kv hkv => h kv (List.mem_cons_of_mem _ hkv)

/-- parse_value on the rendering of a leaf value (the compact and pretty
renderings of a leaf coincide): whitespace is skipped, the leading character
dispatches to the right procedure, and the rendering is consumed exactly. -/
theorem leafVal_rt : ∀ (v : Value), LeafVal v →
    ∀ (f : Nat) (u l₁ l₂ : List PC) (e : Pos),
      WsRun u → l₁.map Prod.snd = compact v → SafeRest l₂ →
      parseStep (f + 1) .val ⟨u ++ (l₁ ++ l₂), e⟩ = .ok (v, ⟨l₂, e⟩) := by
  intro v hv f u l₁ l₂ e hu hmap hsafe
  cases v with
  | object ms => exact hv.elim
  | array es => exact hv.elim
  | float fl => exact hv.elim
  | bool b =>
    cases b with
    | true =>
      have hmap2 : l₁.map Prod.snd = 't' :: "rue".data := hmap
      obtain ⟨p, r, rfl, hr⟩ := map_snd_cons hmap2
      simp only [List.cons_append, List.append_assoc] at hmap ⊢
      simp only [parseStep, Lexer.skipWs, skipWsList_append_ws hu,
        skipWsList_not_ws (show MainToken.tokenize 't' ≠ .whitespace by decide),
        show MainToken.tokenize 't' = .undecided 't' by decide]
      rw [← List.cons_append]
      exact parseBool_true_rt hmap
    | false =>
      have hmap2 : l₁.map Prod.snd = 'f' :: "alse".data := hmap
      obtain ⟨p, r, rfl, hr⟩ := map_snd_cons hmap2
      simp only [List.cons_append, List.append_assoc] at hmap ⊢
      simp only [parseStep, Lexer.skipWs, skipWsList_append_ws hu,
        skipWsList_not_ws (show MainToken.tokenize 'f' ≠ .whitespace by decide),
        show MainToken.tokenize 'f' = .undecided 'f' by decide]
      rw [← List.cons_append]
      exact parseBool_false_rt hmap
  | null =>
    have hmap2 : l₁.map Prod.snd = 'n' :: "ull".data := hmap
    obtain ⟨p, r, rfl, hr⟩ := map_snd_cons hmap2
    simp only [List.cons_append, List.append_assoc] at hmap ⊢
    simp only [parseStep, Lexer.skipWs, skipWsList_append_ws hu,
      skipWsList_not_ws (show MainToken.tokenize 'n' ≠ .whitespace by decide),
      show MainToken.tokenize 'n' = .undecided 'n' by decide]
    rw [← List.cons_append]
    exact parseNull_rt hmap
  | string s =>
    rw [compact, quote_escStr] at hmap
    obtain ⟨p, r, rfl, hr⟩ := map_snd_cons hmap
    simp only [List.cons_append, List.append_assoc] at hmap ⊢
    simp only [parseStep, Lexer.skipWs, skipWsList_append_ws hu,
      skipWsList_not_ws (show MainToken.tokenize '"' ≠ .whitespace by decide),
      show MainToken.tokenize '"' = .quotation by decide]
    rw [← List.cons_append]
    refine parseString_rt _ _ ?_
    rw [quote_escStr]
    exact hmap
  | integer n =>
    obtain ⟨h1, h2⟩ := hv
    rw [compact] at hmap
    by_cases hneg : n < 0
    · rw [intToString, if_pos hneg] at hmap
      obtain ⟨p, r, rfl, hr⟩ := map_snd_cons hmap
      simp only [List.cons_append, List.append_assoc] at hmap ⊢
      simp only [parseStep, Lexer.skipWs, skipWsList_append_ws hu,
        skipWsList_not_ws (show MainToken.tokenize '-' ≠ .whitespace by decide),
        show MainToken.tokenize '-' = .minus by decide]
      rw [← List.cons_append]
      refine parseNumber_int h1 h2 ?_ hsafe
      rw [intToString, if_pos hneg]
      exact hmap
    · rw [intToString, if_neg hneg] at hmap
      obtain ⟨hne, hdig, _, _⟩ := natDigits_spec n.natAbs
      obtain ⟨d, ds, hcons⟩ := List.exists_cons_of_ne_nil hne
      rw [hcons] at hmap
      obtain ⟨p, r, rfl, hr⟩ := map_snd_cons hmap
      have hd : isDigitCh d = true := hdig d (by rw [hcons]; exact List.mem_cons_self _ _)
      simp only [List.cons_append, List.append_assoc] at hmap ⊢
      simp only [parseStep, Lexer.skipWs, skipWsList_append_ws hu,
        skipWsList_not_ws (tokenizeMain_digit_not_ws hd), tokenizeMain_digit hd]
      rw [← List.cons_append]
      refine parseNumber_int h1 h2 ?_ hsafe
      rw [intToString, if_neg hneg, hcons]
      exact hmap

/-! ## Round trip: helpers for the container induction -/

/-- Every value needs at least one unit of fuel. -/
theorem needFuel_pos (v : Value) : 1 ≤ needFuel v := by
  cases v <;> simp [needFuel] <;> omega

/-- The member loop needs at least one unit of fuel. -/
theorem needLoopMembers_pos (ms : List (Str × Value)) : 1 ≤ needLoopMembers ms := by
  cases ms with
  | nil => simp [needLoopMembers]
  | cons hd tl => obtain ⟨k, v⟩ := hd; simp [needLoopMembers]

/-- The element loop needs at least one unit of fuel. -/
theorem needLoopElems_pos (es : List Value) : 1 ≤ needLoopElems es := by
  cases es <;> simp [needLoopElems]

/-- A cons stream is a safe rest iff its head satisfies the boundary
conditions. -/
theorem safeRest_cons {p : Pos} {c : Char} {tl : List PC}
    (h : isDigitCh c = false ∧ c ≠ '.' ∧ c ≠ 'e' ∧ c ≠ 'E') : SafeRest ((p, c) :: tl) := by
  intro p2 c2 hh
  simp only [List.head?_cons, Option.some.injEq, Prod.mk.injEq] at hh
  rcases hh with ⟨_, rfl⟩
  exact h

/-- Inversion of well-formedness at an object. -/
theorem wf_object_inv {ms : List (Str × Value)} (h : Wf (.object ms)) :
    ms.Pairwise (fun a b => a.1 ≠ b.1) ∧ ∀ kv ∈ ms, Wf kv.2 := by
  cases h with
  | object _ h1 h2 => exact ⟨h1, h2⟩

/-- Inversion of well-formedness at an array. -/
theorem wf_array_inv {es : List Value} (h : Wf (.array es)) : ∀ v ∈ es, Wf v := by
  cases h with
  | array _ h1 => exact h1

/-- Inversion of well-formedness at an integer. -/
theorem wf_integer_inv {n : Int} (h : Wf (.integer n)) :
    -(2 ^ 63) ≤ n ∧ n ≤ 2 ^ 63 - 1 := by
  cases h with
  | integer _ h1 h2 => exact ⟨h1, h2⟩

/-- Inversion of float-freeness at an object. -/
theorem noFloat_object_inv {ms : List (Str × Value)} (h : NoFloat (.object ms)) :
    ∀ kv ∈ ms, NoFloat kv.2 := by
  cases h with
  | object _ h1 => exact h1

/-- Inversion of float-freeness at an array. -/
theorem noFloat_array_inv {es : List Value} (h : NoFloat (.array es)) :
    ∀ v ∈ es, NoFloat v := by
  cases h with
  | array _ h1 => exact h1

/-- The compact rendering of a float-free value starts with a significant
character that is not a closing bracket. -/
theorem compact_head (v : Value) (hnf : NoFloat v) :
    ∃ c w, compact v = c :: w ∧ MainToken.tokenize c ≠ .whitespace ∧
      MainToken.tokenize c ≠ .rightBracket := by
  cases v with
  | object ms =>
    exact ⟨'\x7b', joinSep (",".data) (compactMembers ms) ++ ['\x7d'], by simp [compact],
      by decide, by decide⟩
  | array es =>
    exact ⟨'[', joinSep (",".data) (compactElems es) ++ [']'], by simp [compact],
      by decide, by decide⟩
  | bool b =>
    cases b with
    | true => exact ⟨'t', "rue".data, by simp [compact], by decide, by decide⟩
    | false => exact ⟨'f', "alse".data, by simp [compact], by decide, by decide⟩
  | null => exact ⟨'n', "ull".data, by simp [compact], by decide, by decide⟩
  | string s =>
    exact ⟨'"', escStr s ++ ['"'], by rw [compact, quote_escStr], by decide, by decide⟩
  | integer n =>
    by_cases hneg : n < 0
    · exact ⟨'-', _, by rw [compact, intToString, if_pos hneg], by decide, by decide⟩
    · obtain ⟨hne, hdig, _, _⟩ := natDigits_spec n.natAbs
      obtain ⟨d, ds, hcons⟩ := List.exists_cons_of_ne_nil hne
      have hd : isDigitCh d = true := hdig d (by rw [hcons]; exact List.mem_cons_self _ _)
      refine ⟨d, ds, ?_, ?_, ?_⟩
      · rw [compact, intToString, if_neg hneg, hcons]
      · exact tokenizeMain_digit_not_ws hd
      · rw [tokenizeMain_digit hd]; simp
  | float f => cases hnf

/-- The member stream from inside the loop starts with the quotation of the
first key. -/
theorem membersHead (k2 : Str) (v2 : Value) (tl2 : List (Str × Value)) :
    ∃ w, joinSep (",".data) (compactMembers ((k2, v2) :: tl2)) ++ ['\x7d'] = '"' :: w := by
  cases tl2 with
  | nil =>
    refine ⟨(escStr k2 ++ ['"']) ++ ':' :: compact v2 ++ ['\x7d'], ?_⟩
    simp [compactMembers, joinSep, quote_escStr]
  | cons m3 tl3 =>
    refine ⟨(escStr k2 ++ ['"']) ++ ':' :: compact v2 ++ ',' ::
      (joinSep (",".data) (compactMembers (m3 :: tl3)) ++ ['\x7d']), ?_⟩
    simp [compactMembers, joinSep, quote_escStr]

/-- The element stream from inside the loop starts with the significant
leading character of the first element. -/
theorem elemsHead (v2 : Value) (tl2 : List Value) (hnf : NoFloat v2) :
    ∃ c w, joinSep (",".data) (compactElems (v2 :: tl2)) ++ [']'] = c :: w ∧
      MainToken.tokenize c ≠ .whitespace ∧ MainToken.tokenize c ≠ .rightBracket := by
  obtain ⟨c, w0, hc, h1, h2⟩ := compact_head v2 hnf
  cases tl2 with
  | nil => exact ⟨c, w0 ++ [']'], by simp [compactElems, joinSep, hc], h1, h2⟩
  | cons v3 tl3 =>
    exact ⟨c, w0 ++ ',' :: (joinSep (",".data) (compactElems (v3 :: tl3)) ++ [']']),
      by simp [compactElems, joinSep, hc], h1, h2⟩

/-- The parser reconstructs every well formed float-free value from its
compact rendering, for every frame of the mutual recursion: `parse_value` on
the rendering of `v`, and the member and element loops on the remaining
member or element text followed by the closing bracket, each followed by an
arbitrary safe rest of the stream. -/
theorem parseStep_compact_rt : ∀ fuel : Nat,
    (∀ (v : Value) (u l₁ l₂ : List PC) (e : Pos),
      needFuel v ≤ fuel → Wf v → NoFloat v → WsRun u →
      l₁.map Prod.snd = compact v → SafeRest l₂ →
      parseStep fuel .val ⟨u ++ (l₁ ++ l₂), e⟩ = .ok (v, ⟨l₂, e⟩)) ∧
    (∀ (ms acc : List (Str × Value)) (l₁ l₂ : List PC) (e : Pos),
      needLoopMembers ms ≤ fuel → ms.Pairwise (fun a b => a.1 ≠ b.1) →
      (∀ kv ∈ ms, Wf kv.2) → (∀ kv ∈ ms, NoFloat kv.2) →
      (∀ kv ∈ acc, ∀ kv2 ∈ ms, kv.1 ≠ kv2.1) →
      l₁.map Prod.snd = joinSep (",".data) (compactMembers ms) ++ ['\x7d'] →
      SafeRest l₂ →
      parseStep fuel (.objLoop acc) ⟨l₁ ++ l₂, e⟩ = .ok (.object (acc ++ ms), ⟨l₂, e⟩)) ∧
    (∀ (es : List Value) (acc : List Value) (l₁ l₂ : List PC) (e : Pos),
      needLoopElems es ≤ fuel → (∀ w ∈ es, Wf w) → (∀ w ∈ es, NoFloat w) →
      l₁.map Prod.snd = joinSep (",".data) (compactElems es) ++ [']'] →
      SafeRest l₂ →
      parseStep fuel (.arrLoop acc) ⟨l₁ ++ l₂, e⟩ = .ok (.array (acc ++ es), ⟨l₂, e⟩)) := by
  intro fuel
  induction fuel using Nat.strong_induction_on with
  | _ fuel IH =>
  refine ⟨?_, ?_, ?_⟩
  · -- parse_value
    intro v u l₁ l₂ e hfuel hwf hnf hu hmap hsafe
    have h1f : 1 ≤ fuel := le_trans (needFuel_pos v) hfuel
    obtain ⟨f, rfl⟩ : ∃ f, fuel = f + 1 := ⟨fuel - 1, by omega⟩
    cases v with
    | bool b => exact leafVal_rt (.bool b) trivial f u l₁ l₂ e hu hmap hsafe
    | null => exact leafVal_rt .null trivial f u l₁ l₂ e hu hmap hsafe
    | string s => exact leafVal_rt (.string s) trivial f u l₁ l₂ e hu hmap hsafe
    | integer n => exact leafVal_rt (.integer n) (wf_integer_inv hwf) f u l₁ l₂ e hu hmap hsafe
    | float fl => cases hnf
    | object ms =>
      obtain ⟨hpw, hwfm⟩ := wf_object_inv hwf
      have hnfm := noFloat_object_inv hnf
      have hfuel2 : 2 + needLoopMembers ms ≤ f + 1 := by simpa [needFuel] using hfuel
      have hnl := needLoopMembers_pos ms
      have hmap2 : l₁.map Prod.snd =
          '\x7b' :: (joinSep (",".data) (compactMembers ms) ++ ['\x7d']) := by
        simpa [compact] using hmap
      obtain ⟨p, r, rfl, hr⟩ := map_snd_cons hmap2
      obtain ⟨g, rfl⟩ : ∃ g, f = g + 1 := ⟨f - 1, by omega⟩
      simp only [List.cons_append, List.append_assoc]
      simp only [parseStep, Lexer.skipWs, skipWsList_append_ws hu,
        skipWsList_not_ws (show MainToken.tokenize '\x7b' ≠ .whitespace by decide),
        show MainToken.tokenize '\x7b' = .leftBrace by decide,
        lex1_skip_cons_ok (show MainToken.tokenize '\x7b' ≠ .whitespace by decide)
          (show MainToken.tokenize '\x7b' = .leftBrace by decide)]
      have hloop := (IH g (by omega)).2.1 ms [] r l₂ e (by omega) hpw hwfm hnfm
        (fun kv hkv => absurd hkv (List.not_mem_nil kv)) hr hsafe
      simpa using hloop
    | array es =>
      have hwfe := wf_array_inv hwf
      have hnfe := noFloat_array_inv hnf
      have hfuel2 : 2 + needLoopElems es ≤ f + 1 := by simpa [needFuel] using hfuel
      have hnl := needLoopElems_pos es
      have hmap2 : l₁.map Prod.snd =
          '[' :: (joinSep (",".data) (compactElems es) ++ [']']) := by
        simpa [compact] using hmap
      obtain ⟨p, r, rfl, hr⟩ := map_snd_cons hmap2
      obtain ⟨g, rfl⟩ : ∃ g, f = g + 1 := ⟨f - 1, by omega⟩
      simp only [List.cons_append, List.append_assoc]
      simp only [parseStep, Lexer.skipWs, skipWsList_append_ws hu,
        skipWsList_not_ws (show MainToken.tokenize '[' ≠ .whitespace by decide),
        show MainToken.tokenize '[' = .leftBracket by decide,
        lex1_skip_cons_ok (show MainToken.tokenize '[' ≠ .whitespace by decide)
          (show MainToken.tokenize '[' = .leftBracket by decide)]
      have hloop := (IH g (by omega)).2.2 es [] r l₂ e (by omega) hwfe hnfe hr hsafe
      simpa using hloop
  · -- member loop
    intro ms acc l₁ l₂ e hfuel hpw hwfm hnfm hdisj hmap hsafe
    have h1f : 1 ≤ fuel := le_trans (needLoopMembers_pos ms) hfuel
    obtain ⟨f, rfl⟩ : ∃ f, fuel = f + 1 := ⟨fuel - 1, by omega⟩
    cases ms with
    | nil =>
      have hmap2 : l₁.map Prod.snd = ['\x7d'] := by
        simpa [compactMembers, joinSep] using hmap
      obtain ⟨p, r, rfl, hr⟩ := map_snd_cons hmap2
      obtain rfl := map_snd_nil hr
      simp only [List.cons_append, List.nil_append, List.append_nil]
      simp only [parseStep,
        isNext_skip_cons (show MainToken.tokenize '\x7d' ≠ .whitespace by decide),
        show MainToken.tokenize '\x7d' = .rightBrace by decide, decide_True,
        eq_self_iff_true, closeObject,
        lex1_skip_cons_ok (show MainToken.tokenize '\x7d' ≠ .whitespace by decide)
          (show MainToken.tokenize '\x7d' = .rightBrace by decide)]
    | cons m tl =>
      obtain ⟨k, v⟩ := m
      have hwv : Wf v := hwfm (k, v) (List.mem_cons_self _ _)
      have hnv : NoFloat v := hnfm (k, v) (List.mem_cons_self _ _)
      have hkfresh : ∀ kv ∈ acc, kv.1 ≠ k := fun kv hkv =>
        hdisj kv hkv (k, v) (List.mem_cons_self _ _)
      rcases List.pairwise_cons.mp hpw with ⟨hknot, hpwtl⟩
      cases tl with
      | nil =>
        have hfv : needFuel v ≤ f := by
          simp only [needLoopMembers] at hfuel; omega
        have hf1 : 1 ≤ f := by
          simp only [needLoopMembers] at hfuel
          have := needFuel_pos v
          omega
        have hmap2 : l₁.map Prod.snd = quote k ++ (':' :: (compact v ++ ['\x7d'])) := by
          simpa [compactMembers, joinSep, List.append_assoc] using hmap
        obtain ⟨lk, rest, rfl, hlk, hrest⟩ := map_snd_append hmap2
        obtain ⟨pc, rest2, rfl, hrest2⟩ := map_snd_cons hrest
        obtain ⟨lv, lb, rfl, hlv, hlb⟩ := map_snd_append hrest2
        obtain ⟨pb, lbr, rfl, hlbr⟩ := map_snd_cons hlb
        obtain rfl := map_snd_nil hlbr
        have hlkq := hlk
        rw [quote_escStr] at hlkq
        obtain ⟨pq, lk2, rfl, hlk2⟩ := map_snd_cons hlkq
        have hps := parseString_rt ((pc, ':') :: (lv ++ ((pb, '\x7d') :: l₂))) e hlk
        rw [List.cons_append] at hps
        have hval := (IH f (by omega)).1 v [] lv ((pb, '\x7d') :: l₂) e hfv hwv hnv
          (by intro pc2 hpc2; cases hpc2) hlv (safeRest_cons (by decide))
        simp only [List.nil_append] at hval
        have hloop := (IH f (by omega)).2.1 [] (acc ++ [(k, v)]) [(pb, '\x7d')] l₂ e
          (by simp only [needLoopMembers] at hfuel ⊢; omega)
          List.Pairwise.nil (by simp) (by simp) (by simp)
          (by simp [compactMembers, joinSep]) hsafe
        simp only [List.cons_append, List.nil_append, List.append_nil] at hloop
        simp only [List.cons_append, List.append_assoc, List.nil_append]
        simp only [parseStep,
          isNext_skip_cons (show MainToken.tokenize '"' ≠ .whitespace by decide),
          show MainToken.tokenize '"' = .quotation by decide, eq_self_iff_true, decide_True,
          decide_eq_false (show MainToken.quotation ≠ MainToken.rightBrace by decide),
          hps, keyOf,
          lex1_skip_cons_ok (show MainToken.tokenize ':' ≠ .whitespace by decide)
            (show MainToken.tokenize ':' = .colon by decide),
          lex1_skip_cons_fail (show MainToken.tokenize '\x7d' ≠ .whitespace by decide)
            (show MainToken.tokenize '\x7d' ≠ .comma by decide),
          hval, insertMember_notMem hkfresh, hloop, closeObject,
          lex1_skip_cons_ok (show MainToken.tokenize '\x7d' ≠ .whitespace by decide)
            (show MainToken.tokenize '\x7d' = .rightBrace by decide)]
      | cons m2 tl2 =>
        obtain ⟨k2, v2⟩ := m2
        have hfv : needFuel v ≤ f := by
          simp only [needLoopMembers] at hfuel; omega
        have hmap2 : l₁.map Prod.snd = quote k ++ (':' :: (compact v ++ (',' ::
            (joinSep (",".data) (compactMembers ((k2, v2) :: tl2)) ++ ['\x7d'])))) := by
          simpa [compactMembers, joinSep, List.append_assoc] using hmap
        obtain ⟨lk, rest, rfl, hlk, hrest⟩ := map_snd_append hmap2
        obtain ⟨pc, rest2, rfl, hrest2⟩ := map_snd_cons hrest
        obtain ⟨lv, rest3, rfl, hlv, hrest3⟩ := map_snd_append hrest2
        obtain ⟨pm, rest4, rfl, hrest4⟩ := map_snd_cons hrest3
        have hlkq := hlk
        rw [quote_escStr] at hlkq
        obtain ⟨pq, lk2, rfl, hlk2⟩ := map_snd_cons hlkq
        obtain ⟨w, hw⟩ := membersHead k2 v2 tl2
        have hrest4q := hrest4
        rw [hw] at hrest4q
        obtain ⟨pq2, rest5, rfl, hrest5⟩ := map_snd_cons hrest4q
        have hps := parseString_rt
          ((pc, ':') :: (lv ++ ((pm, ',') :: ((pq2, '"') :: rest5 ++ l₂)))) e hlk
        simp only [List.cons_append] at hps
        have hval := (IH f (by omega)).1 v [] lv
          ((pm, ',') :: ((pq2, '"') :: rest5 ++ l₂)) e hfv hwv hnv
          (by intro pc2 hpc2; cases hpc2) hlv (safeRest_cons (by decide))
        simp only [List.nil_append, List.cons_append] at hval
        have hloop := (IH f (by omega)).2.1 ((k2, v2) :: tl2) (acc ++ [(k, v)])
          ((pq2, '"') :: rest5) l₂ e
          (by simp only [needLoopMembers] at hfuel ⊢; omega)
          hpwtl
          (fun kv hkv => hwfm kv (List.mem_cons_of_mem _ hkv))
          (fun kv hkv => hnfm kv (List.mem_cons_of_mem _ hkv))
          (by
            intro kv hkv kv2 hkv2
            rcases List.mem_append.mp hkv with h | h
            · exact hdisj kv h kv2 (List.mem_cons_of_mem _ hkv2)
            · simp only [List.mem_singleton] at h
              subst h
              exact hknot kv2 hkv2)
          hrest4 hsafe
        simp only [List.cons_append] at hloop
        simp only [List.cons_append, List.append_assoc, List.nil_append]
        simp only [parseStep,
          isNext_skip_cons (show MainToken.tokenize '"' ≠ .whitespace by decide),
          show MainToken.tokenize '"' = .quotation by decide, eq_self_iff_true, decide_True,
          decide_eq_false (show MainToken.quotation ≠ MainToken.rightBrace by decide),
          hps, keyOf,
          lex1_skip_cons_ok (show MainToken.tokenize ':' ≠ .whitespace by decide)
            (show MainToken.tokenize ':' = .colon by decide),
          hval, insertMember_notMem hkfresh,
          lex1_skip_cons_ok (show MainToken.tokenize ',' ≠ .whitespace by decide)
            (show MainToken.tokenize ',' = .comma by decide), hloop]
        simp
  · -- element loop
    intro es acc l₁ l₂ e hfuel hwfe hnfe hmap hsafe
    have h1f : 1 ≤ fuel := le_trans (needLoopElems_pos es) hfuel
    obtain ⟨f, rfl⟩ : ∃ f, fuel = f + 1 := ⟨fuel - 1, by omega⟩
    cases es with
    | nil =>
      have hmap2 : l₁.map Prod.snd = [']'] := by
        simpa [compactElems, joinSep] using hmap
      obtain ⟨p, r, rfl, hr⟩ := map_snd_cons hmap2
      obtain rfl := map_snd_nil hr
      simp only [List.cons_append, List.nil_append, List.append_nil]
      simp only [parseStep,
        isNext_skip_cons (show MainToken.tokenize ']' ≠ .whitespace by decide),
        show MainToken.tokenize ']' = .rightBracket by decide, decide_True,
        eq_self_iff_true, closeArray,
        lex1_skip_cons_ok (show MainToken.tokenize ']' ≠ .whitespace by decide)
          (show MainToken.tokenize ']' = .rightBracket by decide)]
    | cons v tl =>
      have hwv : Wf v := hwfe v (List.mem_cons_self _ _)
      have hnv : NoFloat v := hnfe v (List.mem_cons_self _ _)
      obtain ⟨c0, w0, hc0, hnws, hnrb⟩ := compact_head v hnv
      cases tl with
      | nil =>
        have hfv : needFuel v ≤ f := by
          simp only [needLoopElems] at hfuel; omega
        have hmap2 : l₁.map Prod.snd = compact v ++ [']'] := by
          simpa [compactElems, joinSep] using hmap
        obtain ⟨lv, lb, rfl, hlv, hlb⟩ := map_snd_append hmap2
        obtain ⟨pb, lbr, rfl, hlbr⟩ := map_snd_cons hlb
        obtain rfl := map_snd_nil hlbr
        have hlvh := hlv
        rw [hc0] at hlvh
        obtain ⟨p0, lv2, rfl, hlv2⟩ := map_snd_cons hlvh
        have hval := (IH f (by omega)).1 v [] ((p0, c0) :: lv2) ((pb, ']') :: l₂) e hfv hwv
          hnv (by intro pc2 hpc2; cases hpc2) hlv (safeRest_cons (by decide))
        simp only [List.nil_append, List.cons_append] at hval
        have hloop := (IH f (by omega)).2.2 [] (acc ++ [v]) [(pb, ']')] l₂ e
          (by simp only [needLoopElems] at hfuel ⊢; omega)
          (by simp) (by simp) (by simp [compactElems, joinSep]) hsafe
        simp only [List.cons_append, List.nil_append, List.append_nil] at hloop
        simp only [List.cons_append, List.append_assoc, List.nil_append]
        simp only [parseStep, isNext_skip_cons hnws, decide_eq_false hnrb, hval,
          lex1_skip_cons_fail (show MainToken.tokenize ']' ≠ .whitespace by decide)
            (show MainToken.tokenize ']' ≠ .comma by decide),
          hloop, closeArray, eq_self_iff_true, decide_True,
          isNext_skip_cons (show MainToken.tokenize ']' ≠ .whitespace by decide),
          show MainToken.tokenize ']' = .rightBracket by decide,
          lex1_skip_cons_ok (show MainToken.tokenize ']' ≠ .whitespace by decide)
            (show MainToken.tokenize ']' = .rightBracket by decide)]
      | cons v2 tl2 =>
        have hnv2 : NoFloat v2 := hnfe v2 (List.mem_cons_of_mem _ (List.mem_cons_self _ _))
        have hfv : needFuel v ≤ f := by
          simp only [needLoopElems] at hfuel; omega
        have hmap2 : l₁.map Prod.snd = compact v ++ (',' ::
            (joinSep (",".data) (compactElems (v2 :: tl2)) ++ [']'])) := by
          simpa [compactElems, joinSep, List.append_assoc] using hmap
        obtain ⟨lv, rest3, rfl, hlv, hrest3⟩ := map_snd_append hmap2
        obtain ⟨pm, rest4, rfl, hrest4⟩ := map_snd_cons hrest3
        have hlvh := hlv
        rw [hc0] at hlvh
        obtain ⟨p0, lv2, rfl, hlv2⟩ := map_snd_cons hlvh
        obtain ⟨c2, w2, hw2, hnws2, hnrb2⟩ := elemsHead v2 tl2 hnv2
        have hrest4q := hrest4
        rw [hw2] at hrest4q
        obtain ⟨p2, rest5, rfl, hrest5⟩ := map_snd_cons hrest4q
        have hval := (IH f (by omega)).1 v [] ((p0, c0) :: lv2)
          ((pm, ',') :: ((p2, c2) :: rest5 ++ l₂)) e hfv hwv hnv
          (by intro pc2 hpc2; cases hpc2) hlv (safeRest_cons (by decide))
        simp only [List.nil_append, List.cons_append] at hval
        have hloop := (IH f (by omega)).2.2 (v2 :: tl2) (acc ++ [v])
          ((p2, c2) :: rest5) l₂ e
          (by simp only [needLoopElems] at hfuel ⊢; omega)
          (fun w hwmem => hwfe w (List.mem_cons_of_mem _ hwmem))
          (fun w hwmem => hnfe w (List.mem_cons_of_mem _ hwmem))
          hrest4 hsafe
        simp only [List.cons_append] at hloop
        simp only [List.cons_append, List.append_assoc, List.nil_append]
        simp only [parseStep, isNext_skip_cons hnws, decide_eq_false hnrb, hval,
          lex1_skip_cons_ok (show MainToken.tokenize ',' ≠ .whitespace by decide)
            (show MainToken.tokenize ',' = .comma by decide),
          isNext_skip_cons hnws2, decide_eq_false hnrb2, hloop]
        simp

/-! ## Round trip: fuel sufficiency for the compact rendering -/

/-- Every value has positive depth. -/
theorem vdepth_pos (v : Value) : 1 ≤ vdepth v := by
  cases v <;> simp [vdepth]

/-- A quoted string is at least the two quotation marks long. -/
theorem quote_len (s : Str) : (quote s).length = 2 + (escStr s).length := by
  rw [quote_escStr]
  simp
  omega

/-- The fuel bounds hold for every value of bounded depth: the compact
rendering is long enough to pay for the recursion of the parser. -/
theorem needFuel_le_compact : ∀ n : Nat,
    (∀ v, vdepth v ≤ n → needFuel v ≤ 3 * (compact v).length + 1) ∧
    (∀ ms, vdepthMembers ms ≤ n →
      needLoopMembers ms ≤ 3 * (joinSep (",".data) (compactMembers ms)).length + 4) ∧
    (∀ es, vdepthElems es ≤ n →
      needLoopElems es ≤ 3 * (joinSep (",".data) (compactElems es)).length + 4) := by
  intro n
  induction n with
  | zero =>
    refine ⟨fun v hv => absurd hv (by have := vdepth_pos v; omega), ?_, ?_⟩
    · intro ms hms
      cases ms with
      | nil => simp [needLoopMembers]
      | cons hd tl =>
        obtain ⟨k, v⟩ := hd
        exfalso
        have h1 := vdepth_pos v
        have hms2 := hms
        rw [vdepthMembers] at hms2
        have := le_trans (Nat.le_max_left (vdepth v) (vdepthMembers tl)) hms2
        omega
    · intro es hes
      cases es with
      | nil => simp [needLoopElems]
      | cons v tl =>
        exfalso
        have h1 := vdepth_pos v
        have hes2 := hes
        rw [vdepthElems] at hes2
        have := le_trans (Nat.le_max_left (vdepth v) (vdepthElems tl)) hes2
        omega
  | succ n ih =>
    obtain ⟨ihv, ihm, ihe⟩ := ih
    have hval : ∀ v, vdepth v ≤ n + 1 → needFuel v ≤ 3 * (compact v).length + 1 := by
      intro v hv
      cases v with
      | object ms =>
        rw [vdepth] at hv
        have := ihm ms (by omega)
        have hlen : (compact (.object ms)).length =
            (joinSep (",".data) (compactMembers ms)).length + 2 := by
          simp [compact]
        rw [needFuel]
        omega
      | array es =>
        rw [vdepth] at hv
        have := ihe es (by omega)
        have hlen : (compact (.array es)).length =
            (joinSep (",".data) (compactElems es)).length + 2 := by
          simp [compact]
        rw [needFuel]
        omega
      | bool b => simp [needFuel]
      | null => simp [needFuel]
      | string s => simp [needFuel]
      | integer m => simp [needFuel]
      | float f => simp [needFuel]
    refine ⟨hval, ?_, ?_⟩
    · intro ms
      induction ms with
      | nil => intro _; simp [needLoopMembers]
      | cons hd tl ihtl =>
        intro hms
        obtain ⟨k, v⟩ := hd
        have hms2 := hms
        rw [vdepthMembers] at hms2
        have hdv : vdepth v ≤ n + 1 :=
          le_trans (Nat.le_max_left _ _) hms2
        have hdtl : vdepthMembers tl ≤ n + 1 :=
          le_trans (Nat.le_max_right _ _) hms2
        have hv := hval v hdv
        have hq := quote_len k
        cases tl with
        | nil =>
          have hlen : (joinSep (",".data) (compactMembers [(k, v)])).length =
              (quote k).length + 1 + (compact v).length := by
            simp [compactMembers, joinSep]
            omega
          have hmax : max (needFuel v) (needLoopMembers ([] : List (Str × Value))) ≤
              3 * (compact v).length + 1 :=
            Nat.max_le.mpr ⟨hv, by rw [needLoopMembers]; omega⟩
          rw [needLoopMembers]
          omega
        | cons m2 tl2 =>
          have htl := ihtl hdtl
          have hlen : (joinSep (",".data) (compactMembers ((k, v) :: m2 :: tl2))).length =
              (quote k).length + 1 + (compact v).length + 1 +
                (joinSep (",".data) (compactMembers (m2 :: tl2))).length := by
            simp [compactMembers, joinSep]
            omega
          have hmax : max (needFuel v) (needLoopMembers (m2 :: tl2)) ≤
              3 * (compact v).length + 1 +
                (3 * (joinSep (",".data) (compactMembers (m2 :: tl2))).length + 4) :=
            Nat.max_le.mpr ⟨by omega, by omega⟩
          rw [needLoopMembers]
          omega
    · intro es
      induction es with
      | nil => intro _; simp [needLoopElems]
      | cons v tl ihtl =>
        intro hes
        have hes2 := hes
        rw [vdepthElems] at hes2
        have hdv : vdepth v ≤ n + 1 :=
          le_trans (Nat.le_max_left _ _) hes2
        have hdtl : vdepthElems tl ≤ n + 1 :=
          le_trans (Nat.le_max_right _ _) hes2
        have hv := hval v hdv
        cases tl with
        | nil =>
          have hlen : (joinSep (",".data) (compactElems [v])).length =
              (compact v).length := by
            simp [compactElems, joinSep]
          have hmax : max (needFuel v) (needLoopElems ([] : List Value)) ≤
              3 * (compact v).length + 1 :=
            Nat.max_le.mpr ⟨hv, by rw [needLoopElems]; omega⟩
          rw [needLoopElems]
          omega
        | cons v2 tl2 =>
          have htl := ihtl hdtl
          have hlen : (joinSep (",".data) (compactElems (v :: v2 :: tl2))).length =
              (compact v).length + 1 +
                (joinSep (",".data) (compactElems (v2 :: tl2))).length := by
            simp [compactElems, joinSep]
            omega
          have hmax : max (needFuel v) (needLoopElems (v2 :: tl2)) ≤
              3 * (compact v).length + 1 +
                (3 * (joinSep (",".data) (compactElems (v2 :: tl2))).length + 4) :=
            Nat.max_le.mpr ⟨by omega, by omega⟩
          rw [needLoopElems]
          omega

/-! ## Round trip: the stream of a rendered text -/

/-- The characters of one annotated row are the row. -/
theorem rowPCs_map (r : Nat) : ∀ (c0 : Nat) (row : List Char),
    (rowPCs r c0 row).map Prod.snd = row := by
  intro c0 row
  induction row generalizing c0 with
  | nil => rfl
  | cons ch tl ih => simp [rowPCs, ih]

/-- The characters of the annotated stream are the concatenated rows. -/
theorem streamAux_map : ∀ (rows : RawJson) (r : Nat),
    (streamAux r rows).map Prod.snd = rows.flatten := by
  intro rows
  induction rows with
  | nil => intro r; rfl
  | cons row rest ih =>
    intro r
    simp [streamAux, rowPCs_map, ih]

/-- Splitting never produces an empty fragment list. -/
theorem splitNl_ne_nil : ∀ s : Str, splitNl s ≠ [] := by
  intro s
  cases s with
  | nil => simp [splitNl]
  | cons c tl =>
    simp only [splitNl]
    split_ifs
    · simp
    · cases h : splitNl tl <;> simp

/-- Concatenating the newline-terminated fragments restores the text plus
one final newline. -/
theorem flatten_splitNl : ∀ s : Str,
    ((splitNl s).map (fun row => row ++ ['\n'])).flatten = s ++ ['\n'] := by
  intro s
  induction s with
  | nil => rfl
  | cons c tl ih =>
    by_cases hc : c = '\n'
    · subst hc
      simp [splitNl, ih]
    · simp only [splitNl, if_neg hc]
      cases h : splitNl tl with
      | nil => exact absurd h (splitNl_ne_nil tl)
      | cons hd rest =>
        rw [h] at ih
        simp only [List.map_cons, List.flatten_cons] at ih ⊢
        simp only [List.cons_append, List.append_assoc] at ih ⊢
        rw [ih]

/-- A replacement pass over text without carriage returns is the
identity. -/
theorem replaceCrlf_id : ∀ s : Str, '\r' ∉ s → replaceCrlf s = s := by
  intro s
  induction s with
  | nil => intro _; rfl
  | cons c tl ih =>
    intro h
    have hc : c ≠ '\r' := fun hh => h (hh ▸ List.mem_cons_self _ _)
    have htl : '\r' ∉ tl := fun hh => h (List.mem_cons_of_mem _ hh)
    cases tl with
    | nil => rfl
    | cons c2 tl2 =>
      simp only [replaceCrlf]
      split_ifs with hif
      · exact absurd hif.1 hc
      · rw [ih htl]

/-- The lexer stream of the buffer of a carriage-return-free text holds
exactly the text plus one final newline. -/
theorem streamChars {s : Str} (hcr : '\r' ∉ s) (hne : s ≠ []) :
    (streamOf (rawJsonOfString s)).map Prod.snd = s ++ ['\n'] := by
  rw [streamOf, rawJsonOfString, if_neg hne, replaceCrlf_id s hcr, streamAux_map,
    flatten_splitNl]

/-! ## Round trip: the renderings carry no carriage return -/

/-- Escaped string bodies never contain a raw carriage return. -/
theorem cr_not_mem_escStr : ∀ s : Str, '\r' ∉ escStr s := by
  intro s
  induction s with
  | nil => simp [escStr]
  | cons c tl ih =>
    simp only [escStr]
    intro hmem
    rcases List.mem_append.mp hmem with h | h
    · by_cases h1 : c = '\\'
      · subst h1; revert h; decide
      by_cases h2 : c = '"'
      · subst h2; revert h; decide
      by_cases h3 : c = '/'
      · subst h3; revert h; decide
      by_cases h4 : c = '\n'
      · subst h4; revert h; decide
      by_cases h5 : c = '\r'
      · subst h5; revert h; decide
      by_cases h6 : c = '\t'
      · subst h6; revert h; decide
      rw [show escChar c = [c] by simp [escChar, h1, h2, h3, h4, h5, h6]] at h
      rcases List.mem_singleton.mp h with rfl
      exact h5 rfl
    · exact ih h

/-- A quoted string never contains a raw carriage return. -/
theorem cr_not_mem_quote (s : Str) : '\r' ∉ quote s := by
  rw [quote_escStr]
  intro h
  rcases List.mem_cons.mp h with h | h
  · exact absurd h (by decide)
  · rcases List.mem_append.mp h with h | h
    · exact cr_not_mem_escStr s h
    · rcases List.mem_singleton.mp h with h
      exact absurd h (by decide)

/-- A rendered integer never contains a carriage return. -/
theorem cr_not_mem_intToString (n : Int) : '\r' ∉ intToString n := by
  obtain ⟨hne, hdig, _, _⟩ := natDigits_spec n.natAbs
  rw [intToString]
  split_ifs
  · intro h
    rcases List.mem_cons.mp h with h | h
    · exact absurd h (by decide)
    · exact absurd (hdig _ h) (by decide)
  · intro h
    exact absurd (hdig _ h) (by decide)

/-- No compact rendering of a float-free value contains a carriage
return (value, member text and element text forms). -/
theorem cr_not_mem_compact : ∀ n : Nat,
    (∀ v, vdepth v ≤ n → NoFloat v → '\r' ∉ compact v) ∧
    (∀ ms, vdepthMembers ms ≤ n → (∀ kv ∈ ms, NoFloat kv.2) →
      '\r' ∉ joinSep (",".data) (compactMembers ms)) ∧
    (∀ es, vdepthElems es ≤ n → (∀ v ∈ es, NoFloat v) →
      '\r' ∉ joinSep (",".data) (compactElems es)) := by
  intro n
  induction n with
  | zero =>
    refine ⟨fun v hv => absurd hv (by have := vdepth_pos v; omega), ?_, ?_⟩
    · intro ms hms _
      cases ms with
      | nil => simp [compactMembers, joinSep]
      | cons hd tl =>
        obtain ⟨k, v⟩ := hd
        exfalso
        have h1 := vdepth_pos v
        have hms2 := hms
        rw [vdepthMembers] at hms2
        have := le_trans (Nat.le_max_left (vdepth v) (vdepthMembers tl)) hms2
        omega
    · intro es hes _
      cases es with
      | nil => simp [compactElems, joinSep]
      | cons v tl =>
        exfalso
        have h1 := vdepth_pos v
        have hes2 := hes
        rw [vdepthElems] at hes2
        have := le_trans (Nat.le_max_left (vdepth v) (vdepthElems tl)) hes2
        omega
  | succ n ih =>
    obtain ⟨ihv, ihm, ihe⟩ := ih
    have hval : ∀ v, vdepth v ≤ n + 1 → NoFloat v → '\r' ∉ compact v := by
      intro v hv hnf
      cases v with
      | object ms =>
        rw [vdepth] at hv
        have hin := ihm ms (by omega) (noFloat_object_inv hnf)
        have hform : compact (.object ms) =
            '\x7b' :: (joinSep (",".data) (compactMembers ms) ++ ['\x7d']) := by
          simp [compact]
        rw [hform]
        intro h
        rcases List.mem_cons.mp h with h | h
        · exact absurd h (by decide)
        · rcases List.mem_append.mp h with h | h
          · exact hin h
          · rcases List.mem_singleton.mp h with h
            exact absurd h (by decide)
      | array es =>
        rw [vdepth] at hv
        have hin := ihe es (by omega) (noFloat_array_inv hnf)
        have hform : compact (.array es) =
            '[' :: (joinSep (",".data) (compactElems es) ++ [']']) := by
          simp [compact]
        rw [hform]
        intro h
        rcases List.mem_cons.mp h with h | h
        · exact absurd h (by decide)
        · rcases List.mem_append.mp h with h | h
          · exact hin h
          · rcases List.mem_singleton.mp h with h
            exact absurd h (by decide)
      | bool b => cases b <;> decide
      | null => decide
      | string s => exact cr_not_mem_quote s
      | integer m => exact cr_not_mem_intToString m
      | float f => cases hnf
    refine ⟨hval, ?_, ?_⟩
    · intro ms
      induction ms with
      | nil => intro _ _; simp [compactMembers, joinSep]
      | cons hd tl ihtl =>
        intro hms hnfm
        obtain ⟨k, v⟩ := hd
        have hms2 := hms
        rw [vdepthMembers] at hms2
        have hdv : vdepth v ≤ n + 1 := le_trans (Nat.le_max_left _ _) hms2
        have hdtl : vdepthMembers tl ≤ n + 1 := le_trans (Nat.le_max_right _ _) hms2
        have hv := hval v hdv (hnfm (k, v) (List.mem_cons_self _ _))
        have hmem0 : '\r' ∉ quote k ++ (':' :: compact v) := by
          intro h
          rcases List.mem_append.mp h with h | h
          · exact cr_not_mem_quote k h
          · rcases List.mem_cons.mp h with h | h
            · exact absurd h (by decide)
            · exact hv h
        cases tl with
        | nil =>
          intro h
          rw [show joinSep (",".data) (compactMembers [(k, v)]) =
              quote k ++ (':' :: compact v) by simp [compactMembers, joinSep]] at h
          exact hmem0 h
        | cons m2 tl2 =>
          have htl := ihtl hdtl (fun kv hkv => hnfm kv (List.mem_cons_of_mem _ hkv))
          intro h
          rw [show joinSep (",".data) (compactMembers ((k, v) :: m2 :: tl2)) =
              (quote k ++ (':' :: compact v)) ++ (',' ::
                joinSep (",".data) (compactMembers (m2 :: tl2))) by
            simp [compactMembers, joinSep]] at h
          rcases List.mem_append.mp h with h | h
          · exact hmem0 h
          · rcases List.mem_cons.mp h with h | h
            · exact absurd h (by decide)
            · exact htl h
    · intro es
      induction es with
      | nil => intro _ _; simp [compactElems, joinSep]
      | cons v tl ihtl =>
        intro hes hnfe
        have hes2 := hes
        rw [vdepthElems] at hes2
        have hdv : vdepth v ≤ n + 1 := le_trans (Nat.le_max_left _ _) hes2
        have hdtl : vdepthElems tl ≤ n + 1 := le_trans (Nat.le_max_right _ _) hes2
        have hv := hval v hdv (hnfe v (List.mem_cons_self _ _))
        cases tl with
        | nil =>
          intro h
          rw [show joinSep (",".data) (compactElems [v]) = compact v by
            simp [compactElems, joinSep]] at h
          exact hv h
        | cons v2 tl2 =>
          have htl := ihtl hdtl (fun w hw => hnfe w (List.mem_cons_of_mem _ hw))
          intro h
          rw [show joinSep (",".data) (compactElems (v :: v2 :: tl2)) =
              compact v ++ (',' :: joinSep (",".data) (compactElems (v2 :: tl2))) by
            simp [compactElems, joinSep]] at h
          rcases List.mem_append.mp h with h | h
          · exact hv h
          · rcases List.mem_cons.mp h with h | h
            · exact absurd h (by decide)
            · exact htl h

/-- The full compact round trip: Value::parse inverts the compact rendering
of every well formed float-free value. -/
theorem parse_compact_ok (v : Value) (hwf : Wf v) (hnf : NoFloat v) :
    Value.parse (compact v) = .ok v := by
  have hcr : '\r' ∉ compact v := (cr_not_mem_compact (vdepth v)).1 v le_rfl hnf
  obtain ⟨c0, w0, hc0, _, _⟩ := compact_head v hnf
  have hne : compact v ≠ [] := by rw [hc0]; simp
  have hst := streamChars hcr hne
  obtain ⟨l₁, l₂, hsplit, h1, h2⟩ := map_snd_append hst
  obtain ⟨q, lnil, rfl, hnil⟩ := map_snd_cons h2
  obtain rfl := map_snd_nil hnil
  have hbound := (needFuel_le_compact (vdepth v)).1 v le_rfl
  have hlen : (streamOf (rawJsonOfString (compact v))).length = (compact v).length + 1 := by
    have := congrArg List.length hst
    simpa using this
  have hmaster := (parseStep_compact_rt
      (3 * (streamOf (rawJsonOfString (compact v))).length + 4)).1
    v [] l₁ [(q, '\n')] (rawEof (rawJsonOfString (compact v)))
    (by omega) hwf hnf (by intro pc h; cases h) h1 (safeRest_cons (by decide))
  simp only [List.nil_append] at hmaster
  simp only [Value.parse, parseValue]
  rw [hsplit] at hmaster ⊢
  rw [hmaster]

/-! ## Round trip: the pretty rendering -/

/-- Indentation is all whitespace. -/
theorem ws_indentStr {ind : Nat} : ∀ c ∈ indentStr ind, MainToken.tokenize c = .whitespace := by
  intro c hc
  rw [indentStr] at hc
  rcases List.eq_of_mem_replicate hc with rfl
  decide

/-- A stream segment over whitespace characters is a whitespace run. -/
theorem wsRun_of_map {u : List PC} {w : Str} (hm : u.map Prod.snd = w)
    (hw : ∀ c ∈ w, MainToken.tokenize c = .whitespace) : WsRun u := by
  intro pc hpc
  exact hw pc.2 (hm ▸ List.mem_map_of_mem Prod.snd hpc)

/-- The pretty rendering of a leaf coincides with its compact rendering. -/
theorem stringify_leaf : ∀ (v : Value) (ind : Nat),
    (∀ ms, v ≠ .object ms) → (∀ es, v ≠ .array es) →
    stringifyRec v ind = compact v := by
  intro v ind hno hna
  cases v with
  | object ms => exact absurd rfl (hno ms)
  | array es => exact absurd rfl (hna es)
  | bool b => simp [stringifyRec, compact]
  | null => simp [stringifyRec, compact]
  | string s => simp [stringifyRec, compact]
  | integer n => simp [stringifyRec, compact]
  | float f => simp [stringifyRec, compact]

/-- The pretty rendering of a float-free value starts with a significant
character that is not a closing bracket. -/
theorem stringify_head (v : Value) (hnf : NoFloat v) (ind : Nat) :
    ∃ c w, stringifyRec v ind = c :: w ∧ MainToken.tokenize c ≠ .whitespace ∧
      MainToken.tokenize c ≠ .rightBracket := by
  cases v with
  | object ms =>
    refine ⟨'\x7b', '\n' :: (joinSep (",\n".data) (stringifyMembers ms (ind + 1)) ++
      ('\n' :: (indentStr ind ++ ['\x7d']))), ?_, by decide, by decide⟩
    simp [stringifyRec]
  | array es =>
    refine ⟨'[', '\n' :: (joinSep (",\n".data) (stringifyElems es (ind + 1)) ++
      ('\n' :: (indentStr ind ++ [']']))), ?_, by decide, by decide⟩
    simp [stringifyRec]
  | bool b =>
    obtain ⟨c, w, hc, h1, h2⟩ := compact_head (.bool b) hnf
    exact ⟨c, w, by rw [stringify_leaf _ _ (by intro _ h; cases h) (by intro _ h; cases h),
      hc], h1, h2⟩
  | null =>
    obtain ⟨c, w, hc, h1, h2⟩ := compact_head .null hnf
    exact ⟨c, w, by rw [stringify_leaf _ _ (by intro _ h; cases h) (by intro _ h; cases h),
      hc], h1, h2⟩
  | string s =>
    obtain ⟨c, w, hc, h1, h2⟩ := compact_head (.string s) hnf
    exact ⟨c, w, by rw [stringify_leaf _ _ (by intro _ h; cases h) (by intro _ h; cases h),
      hc], h1, h2⟩
  | integer n =>
    obtain ⟨c, w, hc, h1, h2⟩ := compact_head (.integer n) hnf
    exact ⟨c, w, by rw [stringify_leaf _ _ (by intro _ h; cases h) (by intro _ h; cases h),
      hc], h1, h2⟩
  | float f => cases hnf

/-- The member lines of a pretty object, re-expressed from inside the
member loop: the first indentation is split off and the closing line is
attached. -/
theorem pObjTail_spec : ∀ (ms : List (Str × Value)) (k : Str) (v : Value) (ind : Nat),
    joinSep (",\n".data) (stringifyMembers ((k, v) :: ms) (ind + 1)) ++
      ('\n' :: (indentStr ind ++ ['\x7d'])) =
    indentStr (ind + 1) ++ pObjTail ((k, v) :: ms) ind := by
  intro ms
  induction ms with
  | nil =>
    intro k v ind
    simp [stringifyMembers, joinSep, pObjTail, List.append_assoc]
  | cons m2 tl ih =>
    intro k v ind
    obtain ⟨k2, v2⟩ := m2
    have hstep : joinSep (",\n".data) (stringifyMembers ((k, v) :: (k2, v2) :: tl) (ind + 1)) =
        (indentStr (ind + 1) ++ quote k ++ ':' :: ' ' :: stringifyRec v (ind + 1)) ++
          (',' :: '\n' ::
            joinSep (",\n".data) (stringifyMembers ((k2, v2) :: tl) (ind + 1))) := by
      simp [stringifyMembers, joinSep]
    rw [hstep, List.append_assoc, List.cons_append]
    have ih2 := ih k2 v2 ind
    have hrhs : pObjTail ((k, v) :: (k2, v2) :: tl) ind =
        quote k ++ ':' :: ' ' :: (stringifyRec v (ind + 1) ++
          (',' :: '\n' :: (indentStr (ind + 1) ++ pObjTail ((k2, v2) :: tl) ind))) := by
      simp [pObjTail]
    rw [hrhs, ← ih2]
    simp [List.append_assoc]

/-- The element lines of a pretty array, re-expressed from inside the
element loop. -/
theorem pArrTail_spec : ∀ (es : List Value) (v : Value) (ind : Nat),
    joinSep (",\n".data) (stringifyElems (v :: es) (ind + 1)) ++
      ('\n' :: (indentStr ind ++ [']'])) =
    indentStr (ind + 1) ++ pArrTail (v :: es) ind := by
  intro es
  induction es with
  | nil =>
    intro v ind
    simp [stringifyElems, joinSep, pArrTail, List.append_assoc]
  | cons v2 tl ih =>
    intro v ind
    have hstep : joinSep (",\n".data) (stringifyElems (v :: v2 :: tl) (ind + 1)) =
        (indentStr (ind + 1) ++ stringifyRec v (ind + 1)) ++
          (',' :: '\n' ::
            joinSep (",\n".data) (stringifyElems (v2 :: tl) (ind + 1))) := by
      simp [stringifyElems, joinSep]
    rw [hstep, List.append_assoc, List.cons_append]
    have ih2 := ih v2 ind
    have hrhs : pArrTail (v :: v2 :: tl) ind =
        stringifyRec v (ind + 1) ++
          (',' :: '\n' :: (indentStr (ind + 1) ++ pArrTail (v2 :: tl) ind)) := by
      simp [pArrTail]
    rw [hrhs, ← ih2]
    simp [List.append_assoc]

/-- The parser reconstructs every well formed float-free value from its
pretty rendering at any indentation level, for every frame of the mutual
recursion.  The loops run on the member or element text as reshaped by
`pObjTail` and `pArrTail`, behind an arbitrary whitespace run. -/
theorem parseStep_pretty_rt : ∀ fuel : Nat,
    (∀ (v : Value) (ind : Nat) (u l₁ l₂ : List PC) (e : Pos),
      needFuel v ≤ fuel → Wf v → NoFloat v → WsRun u →
      l₁.map Prod.snd = stringifyRec v ind → SafeRest l₂ →
      parseStep fuel .val ⟨u ++ (l₁ ++ l₂), e⟩ = .ok (v, ⟨l₂, e⟩)) ∧
    (∀ (ms acc : List (Str × Value)) (ind : Nat) (u l₁ l₂ : List PC) (e : Pos),
      needLoopMembers ms ≤ fuel → ms.Pairwise (fun a b => a.1 ≠ b.1) →
      (∀ kv ∈ ms, Wf kv.2) → (∀ kv ∈ ms, NoFloat kv.2) →
      (∀ kv ∈ acc, ∀ kv2 ∈ ms, kv.1 ≠ kv2.1) → WsRun u →
      l₁.map Prod.snd = pObjTail ms ind → SafeRest l₂ →
      parseStep fuel (.objLoop acc) ⟨u ++ (l₁ ++ l₂), e⟩ =
        .ok (.object (acc ++ ms), ⟨l₂, e⟩)) ∧
    (∀ (es acc2 : List Value) (ind : Nat) (u l₁ l₂ : List PC) (e : Pos),
      needLoopElems es ≤ fuel → (∀ w ∈ es, Wf w) → (∀ w ∈ es, NoFloat w) → WsRun u →
      l₁.map Prod.snd = pArrTail es ind → SafeRest l₂ →
      parseStep fuel (.arrLoop acc2) ⟨u ++ (l₁ ++ l₂), e⟩ =
        .ok (.array (acc2 ++ es), ⟨l₂, e⟩)) := by
  intro fuel
  induction fuel using Nat.strong_induction_on with
  | _ fuel IH =>
  refine ⟨?_, ?_, ?_⟩
  · -- parse_value on a pretty rendering
    intro v ind u l₁ l₂ e hfuel hwf hnf hu hmap hsafe
    have h1f : 1 ≤ fuel := le_trans (needFuel_pos v) hfuel
    obtain ⟨f, rfl⟩ : ∃ f, fuel = f + 1 := ⟨fuel - 1, by omega⟩
    cases v with
    | bool b =>
      rw [stringify_leaf _ _ (by intro _ h; cases h) (by intro _ h; cases h)] at hmap
      exact leafVal_rt (.bool b) trivial f u l₁ l₂ e hu hmap hsafe
    | null =>
      rw [stringify_leaf _ _ (by intro _ h; cases h) (by intro _ h; cases h)] at hmap
      exact leafVal_rt .null trivial f u l₁ l₂ e hu hmap hsafe
    | string s =>
      rw [stringify_leaf _ _ (by intro _ h; cases h) (by intro _ h; cases h)] at hmap
      exact leafVal_rt (.string s) trivial f u l₁ l₂ e hu hmap hsafe
    | integer n =>
      rw [stringify_leaf _ _ (by intro _ h; cases h) (by intro _ h; cases h)] at hmap
      exact leafVal_rt (.integer n) (wf_integer_inv hwf) f u l₁ l₂ e hu hmap hsafe
    | float fl => cases hnf
    | object ms =>
      obtain ⟨hpw, hwfm⟩ := wf_object_inv hwf
      have hnfm := noFloat_object_inv hnf
      have hfuel2 : 2 + needLoopMembers ms ≤ f + 1 := by simpa [needFuel] using hfuel
      have hnl := needLoopMembers_pos ms
      have hmap2 : l₁.map Prod.snd = '\x7b' ::
          ('\n' :: (joinSep (",\n".data) (stringifyMembers ms (ind + 1)) ++
            ('\n' :: (indentStr ind ++ ['\x7d'])))) := by
        simpa [stringifyRec] using hmap
      obtain ⟨p, r, rfl, hr⟩ := map_snd_cons hmap2
      obtain ⟨g, rfl⟩ : ∃ g, f = g + 1 := ⟨f - 1, by omega⟩
      simp only [List.cons_append, List.append_assoc]
      simp only [parseStep, Lexer.skipWs, skipWsList_append_ws hu,
        skipWsList_not_ws (show MainToken.tokenize '\x7b' ≠ .whitespace by decide),
        show MainToken.tokenize '\x7b' = .leftBrace by decide,
        lex1_skip_cons_ok (show MainToken.tokenize '\x7b' ≠ .whitespace by decide)
          (show MainToken.tokenize '\x7b' = .leftBrace by decide)]
      cases ms with
      | nil =>
        have hr2 : r.map Prod.snd = ('\n' :: '\n' :: indentStr ind) ++ ['\x7d'] := by
          simpa [stringifyMembers, joinSep] using hr
        obtain ⟨u2, r2, rfl, hu2, hr2m⟩ := map_snd_append hr2
        have hloop := (IH (g) (by omega)).2.1 [] [] ind u2 r2 l₂ e (by omega)
          List.Pairwise.nil (by simp) (by simp)
          (fun kv hkv => absurd hkv (List.not_mem_nil kv))
          (wsRun_of_map hu2 (by
            intro c hc
            rcases List.mem_cons.mp hc with rfl | hc
            · decide
            rcases List.mem_cons.mp hc with rfl | hc
            · decide
            · exact ws_indentStr c hc))
          (by simpa [pObjTail] using hr2m) hsafe
        simpa [List.append_assoc] using hloop
      | cons m tl =>
        obtain ⟨k, v⟩ := m
        have hspec := pObjTail_spec tl k v ind
        have hr2 : r.map Prod.snd =
            ('\n' :: indentStr (ind + 1)) ++ pObjTail ((k, v) :: tl) ind := by
          rw [List.cons_append, ← hspec]
          simpa [List.append_assoc] using hr
        obtain ⟨u2, r2, rfl, hu2, hr2m⟩ := map_snd_append hr2
        have hloop := (IH (g) (by omega)).2.1 ((k, v) :: tl) [] ind u2 r2 l₂ e (by omega)
          hpw hwfm hnfm (fun kv hkv => absurd hkv (List.not_mem_nil kv))
          (wsRun_of_map hu2 (by
            intro c hc
            rcases List.mem_cons.mp hc with rfl | hc
            · decide
            · exact ws_indentStr c hc))
          hr2m hsafe
        simpa [List.append_assoc] using hloop
    | array es =>
      have hwfe := wf_array_inv hwf
      have hnfe := noFloat_array_inv hnf
      have hfuel2 : 2 + needLoopElems es ≤ f + 1 := by simpa [needFuel] using hfuel
      have hnl := needLoopElems_pos es
      have hmap2 : l₁.map Prod.snd = '[' ::
          ('\n' :: (joinSep (",\n".data) (stringifyElems es (ind + 1)) ++
            ('\n' :: (indentStr ind ++ [']'])))) := by
        simpa [stringifyRec] using hmap
      obtain ⟨p, r, rfl, hr⟩ := map_snd_cons hmap2
      obtain ⟨g, rfl⟩ : ∃ g, f = g + 1 := ⟨f - 1, by omega⟩
      simp only [List.cons_append, List.append_assoc]
      simp only [parseStep, Lexer.skipWs, skipWsList_append_ws hu,
        skipWsList_not_ws (show MainToken.tokenize '[' ≠ .whitespace by decide),
        show MainToken.tokenize '[' = .leftBracket by decide,
        lex1_skip_cons_ok (show MainToken.tokenize '[' ≠ .whitespace by decide)
          (show MainToken.tokenize '[' = .leftBracket by decide)]
      cases es with
      | nil =>
        have hr2 : r.map Prod.snd = ('\n' :: '\n' :: indentStr ind) ++ [']'] := by
          simpa [stringifyElems, joinSep] using hr
        obtain ⟨u2, r2, rfl, hu2, hr2m⟩ := map_snd_append hr2
        have hloop := (IH (g) (by omega)).2.2 [] [] ind u2 r2 l₂ e (by omega)
          (by simp) (by simp)
          (wsRun_of_map hu2 (by
            intro c hc
            rcases List.mem_cons.mp hc with rfl | hc
            · decide
            rcases List.mem_cons.mp hc with rfl | hc
            · decide
            · exact ws_indentStr c hc))
          (by simpa [pArrTail] using hr2m) hsafe
        simpa [List.append_assoc] using hloop
      | cons v tl =>
        have hspec := pArrTail_spec tl v ind
        have hr2 : r.map Prod.snd =
            ('\n' :: indentStr (ind + 1)) ++ pArrTail (v :: tl) ind := by
          rw [List.cons_append, ← hspec]
          simpa [List.append_assoc] using hr
        obtain ⟨u2, r2, rfl, hu2, hr2m⟩ := map_snd_append hr2
        have hloop := (IH (g) (by omega)).2.2 (v :: tl) [] ind u2 r2 l₂ e (by omega)
          hwfe hnfe
          (wsRun_of_map hu2 (by
            intro c hc
            rcases List.mem_cons.mp hc with rfl | hc
            · decide
            · exact ws_indentStr c hc))
          hr2m hsafe
        simpa [List.append_assoc] using hloop
  · -- member loop on a pretty rendering
    intro ms acc ind u l₁ l₂ e hfuel hpw hwfm hnfm hdisj hu hmap hsafe
    have h1f : 1 ≤ fuel := le_trans (needLoopMembers_pos ms) hfuel
    obtain ⟨f, rfl⟩ : ∃ f, fuel = f + 1 := ⟨fuel - 1, by omega⟩
    cases ms with
    | nil =>
      have hmap2 : l₁.map Prod.snd = ['\x7d'] := by simpa [pObjTail] using hmap
      obtain ⟨p, r, rfl, hr⟩ := map_snd_cons hmap2
      obtain rfl := map_snd_nil hr
      simp only [List.cons_append, List.nil_append, List.append_nil]
      simp only [parseStep,
        isNext_ws hu (show MainToken.tokenize '\x7d' ≠ .whitespace by decide),
        show MainToken.tokenize '\x7d' = .rightBrace by decide, decide_True,
        eq_self_iff_true, closeObject,
        lex1_skip_cons_ok (show MainToken.tokenize '\x7d' ≠ .whitespace by decide)
          (show MainToken.tokenize '\x7d' = .rightBrace by decide)]
    | cons m tl =>
      obtain ⟨k, v⟩ := m
      have hwv : Wf v := hwfm (k, v) (List.mem_cons_self _ _)
      have hnv : NoFloat v := hnfm (k, v) (List.mem_cons_self _ _)
      have hkfresh : ∀ kv ∈ acc, kv.1 ≠ k := fun kv hkv =>
        hdisj kv hkv (k, v) (List.mem_cons_self _ _)
      rcases List.pairwise_cons.mp hpw with ⟨hknot, hpwtl⟩
      cases tl with
      | nil =>
        have hfv : needFuel v ≤ f := by
          simp only [needLoopMembers] at hfuel; omega
        have hf1 : 1 ≤ f := by
          simp only [needLoopMembers] at hfuel
          have := needFuel_pos v
          omega
        have hmap2 : l₁.map Prod.snd = quote k ++ (':' :: (' ' ::
            (stringifyRec v (ind + 1) ++ ('\n' :: (indentStr ind ++ ['\x7d']))))) := by
          simpa [pObjTail, List.append_assoc] using hmap
        obtain ⟨lk, rest, rfl, hlk, hrest⟩ := map_snd_append hmap2
        obtain ⟨pc, rest2, rfl, hrest2⟩ := map_snd_cons hrest
        obtain ⟨psp, rest3, rfl, hrest3⟩ := map_snd_cons hrest2
        obtain ⟨lv, rest4, rfl, hlv, hrest4⟩ := map_snd_append hrest3
        obtain ⟨pn, rest5, rfl, hrest5⟩ := map_snd_cons hrest4
        obtain ⟨uind, lb, rfl, huind, hlb⟩ := map_snd_append hrest5
        obtain ⟨pb, lbr, rfl, hlbr⟩ := map_snd_cons hlb
        obtain rfl := map_snd_nil hlbr
        have hlkq := hlk
        rw [quote_escStr] at hlkq
        obtain ⟨pq, lk2, rfl, hlk2⟩ := map_snd_cons hlkq
        have hwsrun : WsRun ((pn, '\n') :: uind) := by
          intro pc2 hpc2
          rcases List.mem_cons.mp hpc2 with rfl | hpc2
          · exact (by decide : MainToken.tokenize '\n' = MainToken.whitespace)
          · exact wsRun_of_map huind (fun c hc => ws_indentStr c hc) pc2 hpc2
        have hps := parseString_rt ((pc, ':') :: ((psp, ' ') :: (lv ++
          ((pn, '\n') :: (uind ++ ((pb, '\x7d') :: l₂)))))) e hlk
        simp only [List.cons_append] at hps
        have hval := (IH f (by omega)).1 v (ind + 1) [(psp, ' ')] lv
          ((pn, '\n') :: (uind ++ ((pb, '\x7d') :: l₂))) e hfv hwv hnv
          (by
            intro pc2 hpc2
            rcases List.mem_singleton.mp hpc2 with rfl
            exact (by decide : MainToken.tokenize ' ' = MainToken.whitespace))
          hlv (safeRest_cons (by decide))
        simp only [List.nil_append, List.cons_append, List.singleton_append] at hval
        have hcomma : lex1 MainToken.tokenize TokKind.mainTok .comma true
            ⟨((pn, '\n') :: uind) ++ ((pb, '\x7d') :: l₂), e⟩ =
            (.error (.lexUnexpected (TokKind.mainTok (MainToken.tokenize '\x7d'))
              (TokKind.mainTok .comma) pb), ⟨(pb, '\x7d') :: l₂, e⟩) :=
          lex1_ws_fail hwsrun (by decide) (by decide)
        simp only [List.cons_append, List.append_assoc] at hcomma
        have hloop := (IH f (by omega)).2.1 [] (acc ++ [(k, v)]) ind [] [(pb, '\x7d')] l₂ e
          (by simp only [needLoopMembers] at hfuel ⊢; omega)
          List.Pairwise.nil (by simp) (by simp) (by simp)
          (by intro pc2 hpc2; cases hpc2)
          (by simp [pObjTail]) hsafe
        simp only [List.cons_append, List.nil_append, List.append_nil] at hloop
        simp only [List.cons_append, List.append_assoc, List.nil_append]
        simp only [parseStep,
          isNext_ws hu (show MainToken.tokenize '"' ≠ .whitespace by decide),
          isNext_skip_cons (show MainToken.tokenize '"' ≠ .whitespace by decide),
          show MainToken.tokenize '"' = .quotation by decide, eq_self_iff_true, decide_True,
          decide_eq_false (show MainToken.quotation ≠ MainToken.rightBrace by decide),
          hps, keyOf,
          lex1_skip_cons_ok (show MainToken.tokenize ':' ≠ .whitespace by decide)
            (show MainToken.tokenize ':' = .colon by decide),
          hval, insertMember_notMem hkfresh, hcomma, hloop, closeObject,
          lex1_skip_cons_ok (show MainToken.tokenize '\x7d' ≠ .whitespace by decide)
            (show MainToken.tokenize '\x7d' = .rightBrace by decide)]
      | cons m2 tl2 =>
        obtain ⟨k2, v2⟩ := m2
        have hfv : needFuel v ≤ f := by
          simp only [needLoopMembers] at hfuel; omega
        have hmap2 : l₁.map Prod.snd = quote k ++ (':' :: (' ' ::
            (stringifyRec v (ind + 1) ++ (',' :: ('\n' :: (indentStr (ind + 1) ++
              pObjTail ((k2, v2) :: tl2) ind)))))) := by
          simpa [pObjTail, List.append_assoc] using hmap
        obtain ⟨lk, rest, rfl, hlk, hrest⟩ := map_snd_append hmap2
        obtain ⟨pc, rest2, rfl, hrest2⟩ := map_snd_cons hrest
        obtain ⟨psp, rest3, rfl, hrest3⟩ := map_snd_cons hrest2
        obtain ⟨lv, rest4, rfl, hlv, hrest4⟩ := map_snd_append hrest3
        obtain ⟨pcm, rest5, rfl, hrest5⟩ := map_snd_cons hrest4
        obtain ⟨pn, rest6, rfl, hrest6⟩ := map_snd_cons hrest5
        obtain ⟨uind, lnext, rfl, huind, hlnext⟩ := map_snd_append hrest6
        have hlkq := hlk
        rw [quote_escStr] at hlkq
        obtain ⟨pq, lk2, rfl, hlk2⟩ := map_snd_cons hlkq
        have hnexthead : ∃ w2, pObjTail ((k2, v2) :: tl2) ind = '"' :: w2 := by
          cases tl2 with
          | nil =>
            refine ⟨escStr k2 ++ ['"'] ++ (':' :: ' ' :: (stringifyRec v2 (ind + 1) ++
              ('\n' :: (indentStr ind ++ ['\x7d'])))), ?_⟩
            simp [pObjTail, quote_escStr, List.append_assoc]
          | cons m3 tl3 =>
            refine ⟨escStr k2 ++ ['"'] ++ (':' :: ' ' :: (stringifyRec v2 (ind + 1) ++
              (',' :: '\n' :: (indentStr (ind + 1) ++ pObjTail (m3 :: tl3) ind)))), ?_⟩
            simp [pObjTail, quote_escStr, List.append_assoc]
        obtain ⟨w2, hw2⟩ := hnexthead
        have hlnextq := hlnext
        rw [hw2] at hlnextq
        obtain ⟨pq2, lrest, rfl, hlrest⟩ := map_snd_cons hlnextq
        have hwsrun : WsRun ((pn, '\n') :: uind) := by
          intro pc2 hpc2
          rcases List.mem_cons.mp hpc2 with rfl | hpc2
          · exact (by decide : MainToken.tokenize '\n' = MainToken.whitespace)
          · exact wsRun_of_map huind (fun c hc => ws_indentStr c hc) pc2 hpc2
        have hps := parseString_rt ((pc, ':') :: ((psp, ' ') :: (lv ++
          ((pcm, ',') :: ((pn, '\n') :: (uind ++ ((pq2, '"') :: lrest ++ l₂))))))) e hlk
        simp only [List.cons_append] at hps
        have hval := (IH f (by omega)).1 v (ind + 1) [(psp, ' ')] lv
          ((pcm, ',') :: ((pn, '\n') :: (uind ++ ((pq2, '"') :: lrest ++ l₂)))) e hfv hwv hnv
          (by
            intro pc2 hpc2
            rcases List.mem_singleton.mp hpc2 with rfl
            exact (by decide : MainToken.tokenize ' ' = MainToken.whitespace))
          hlv (safeRest_cons (by decide))
        simp only [List.nil_append, List.cons_append, List.singleton_append] at hval
        have hnext : isNext MainToken.tokenize .rightBrace true
            ⟨((pn, '\n') :: uind) ++ ((pq2, '"') :: (lrest ++ l₂)), e⟩ =
            (decide (MainToken.tokenize '"' = .rightBrace), ⟨(pq2, '"') :: (lrest ++ l₂), e⟩) :=
          isNext_ws hwsrun (by decide)
        simp only [List.cons_append, List.append_assoc] at hnext
        have hloop := (IH f (by omega)).2.1 ((k2, v2) :: tl2) (acc ++ [(k, v)]) ind []
          ((pq2, '"') :: lrest) l₂ e
          (by simp only [needLoopMembers] at hfuel ⊢; omega)
          hpwtl
          (fun kv hkv => hwfm kv (List.mem_cons_of_mem _ hkv))
          (fun kv hkv => hnfm kv (List.mem_cons_of_mem _ hkv))
          (by
            intro kv hkv kv2 hkv2
            rcases List.mem_append.mp hkv with h | h
            · exact hdisj kv h kv2 (List.mem_cons_of_mem _ hkv2)
            · rcases List.mem_singleton.mp h with rfl
              exact hknot kv2 hkv2)
          (by intro pc2 hpc2; cases hpc2)
          hlnext hsafe
        simp only [List.cons_append, List.nil_append] at hloop
        simp only [List.cons_append, List.append_assoc, List.nil_append]
        simp only [parseStep,
          isNext_ws hu (show MainToken.tokenize '"' ≠ .whitespace by decide),
          isNext_skip_cons (show MainToken.tokenize '"' ≠ .whitespace by decide),
          show MainToken.tokenize '"' = .quotation by decide, eq_self_iff_true, decide_True,
          decide_eq_false (show MainToken.quotation ≠ MainToken.rightBrace by decide),
          hps, keyOf,
          lex1_skip_cons_ok (show MainToken.tokenize ':' ≠ .whitespace by decide)
            (show MainToken.tokenize ':' = .colon by decide),
          hval, insertMember_notMem hkfresh,
          lex1_skip_cons_ok (show MainToken.tokenize ',' ≠ .whitespace by decide)
            (show MainToken.tokenize ',' = .comma by decide),
          hnext, hloop]
        simp
  · -- element loop on a pretty rendering
    intro es acc2 ind u l₁ l₂ e hfuel hwfe hnfe hu hmap hsafe
    have h1f : 1 ≤ fuel := le_trans (needLoopElems_pos es) hfuel
    obtain ⟨f, rfl⟩ : ∃ f, fuel = f + 1 := ⟨fuel - 1, by omega⟩
    cases es with
    | nil =>
      have hmap2 : l₁.map Prod.snd = [']'] := by simpa [pArrTail] using hmap
      obtain ⟨p, r, rfl, hr⟩ := map_snd_cons hmap2
      obtain rfl := map_snd_nil hr
      simp only [List.cons_append, List.nil_append, List.append_nil]
      simp only [parseStep,
        isNext_ws hu (show MainToken.tokenize ']' ≠ .whitespace by decide),
        show MainToken.tokenize ']' = .rightBracket by decide, decide_True,
        eq_self_iff_true, closeArray,
        lex1_skip_cons_ok (show MainToken.tokenize ']' ≠ .whitespace by decide)
          (show MainToken.tokenize ']' = .rightBracket by decide)]
    | cons v tl =>
      have hwv : Wf v := hwfe v (List.mem_cons_self _ _)
      have hnv : NoFloat v := hnfe v (List.mem_cons_self _ _)
      obtain ⟨c0, w0, hc0, hnws, hnrb⟩ := stringify_head v hnv (ind + 1)
      cases tl with
      | nil =>
        have hfv : needFuel v ≤ f := by
          simp only [needLoopElems] at hfuel; omega
        have hf1 : 1 ≤ f := by
          simp only [needLoopElems] at hfuel
          have := needFuel_pos v
          omega
        have hmap2 : l₁.map Prod.snd = stringifyRec v (ind + 1) ++
            ('\n' :: (indentStr ind ++ [']'])) := by
          simpa [pArrTail, List.append_assoc] using hmap
        obtain ⟨lv, rest4, rfl, hlv, hrest4⟩ := map_snd_append hmap2
        obtain ⟨pn, rest5, rfl, hrest5⟩ := map_snd_cons hrest4
        obtain ⟨uind, lb, rfl, huind, hlb⟩ := map_snd_append hrest5
        obtain ⟨pb, lbr, rfl, hlbr⟩ := map_snd_cons hlb
        obtain rfl := map_snd_nil hlbr
        have hlvh := hlv
        rw [hc0] at hlvh
        obtain ⟨p0, lv2, rfl, hlv2⟩ := map_snd_cons hlvh
        have hwsrun : WsRun ((pn, '\n') :: uind) := by
          intro pc2 hpc2
          rcases List.mem_cons.mp hpc2 with rfl | hpc2
          · exact (by decide : MainToken.tokenize '\n' = MainToken.whitespace)
          · exact wsRun_of_map huind (fun c hc => ws_indentStr c hc) pc2 hpc2
        have hval := (IH f (by omega)).1 v (ind + 1) [] ((p0, c0) :: lv2)
          ((pn, '\n') :: (uind ++ ((pb, ']') :: l₂))) e hfv hwv hnv
          (by intro pc2 hpc2; cases hpc2) hlv (safeRest_cons (by decide))
        simp only [List.nil_append, List.cons_append] at hval
        have hcomma : lex1 MainToken.tokenize TokKind.mainTok .comma true
            ⟨((pn, '\n') :: uind) ++ ((pb, ']') :: l₂), e⟩ =
            (.error (.lexUnexpected (TokKind.mainTok (MainToken.tokenize ']'))
              (TokKind.mainTok .comma) pb), ⟨(pb, ']') :: l₂, e⟩) :=
          lex1_ws_fail hwsrun (by decide) (by decide)
        simp only [List.cons_append, List.append_assoc] at hcomma
        have hloop := (IH f (by omega)).2.2 [] (acc2 ++ [v]) ind [] [(pb, ']')] l₂ e
          (by simp only [needLoopElems] at hfuel ⊢; omega)
          (by simp) (by simp) (by intro pc2 hpc2; cases hpc2)
          (by simp [pArrTail]) hsafe
        simp only [List.cons_append, List.nil_append, List.append_nil] at hloop
        simp only [List.cons_append, List.append_assoc, List.nil_append]
        simp only [parseStep, isNext_ws hu hnws, decide_eq_false hnrb, hval, hcomma,
          hloop, closeArray, eq_self_iff_true, decide_True,
          lex1_skip_cons_ok (show MainToken.tokenize ']' ≠ .whitespace by decide)
            (show MainToken.tokenize ']' = .rightBracket by decide)]
      | cons v2 tl2 =>
        have hnv2 : NoFloat v2 := hnfe v2 (List.mem_cons_of_mem _ (List.mem_cons_self _ _))
        have hfv : needFuel v ≤ f := by
          simp only [needLoopElems] at hfuel; omega
        have hmap2 : l₁.map Prod.snd = stringifyRec v (ind + 1) ++
            (',' :: ('\n' :: (indentStr (ind + 1) ++ pArrTail (v2 :: tl2) ind))) := by
          simpa [pArrTail, List.append_assoc] using hmap
        obtain ⟨lv, rest4, rfl, hlv, hrest4⟩ := map_snd_append hmap2
        obtain ⟨pcm, rest5, rfl, hrest5⟩ := map_snd_cons hrest4
        obtain ⟨pn, rest6, rfl, hrest6⟩ := map_snd_cons hrest5
        obtain ⟨uind, lnext, rfl, huind, hlnext⟩ := map_snd_append hrest6
        have hlvh := hlv
        rw [hc0] at hlvh
        obtain ⟨p0, lv2, rfl, hlv2⟩ := map_snd_cons hlvh
        obtain ⟨c2, w2, hw2, hnws2, hnrb2⟩ := stringify_head v2 hnv2 (ind + 1)
        have hnexthead : ∃ w3, pArrTail (v2 :: tl2) ind = c2 :: w3 := by
          cases tl2 with
          | nil =>
            refine ⟨w2 ++ ('\n' :: (indentStr ind ++ [']'])), ?_⟩
            simp [pArrTail, hw2]
          | cons v3 tl3 =>
            refine ⟨w2 ++ (',' :: '\n' :: (indentStr (ind + 1) ++ pArrTail (v3 :: tl3) ind)), ?_⟩
            simp [pArrTail, hw2]
        obtain ⟨w3, hw3⟩ := hnexthead
        have hlnextq := hlnext
        rw [hw3] at hlnextq
        obtain ⟨p2, lrest, rfl, hlrest⟩ := map_snd_cons hlnextq
        have hwsrun : WsRun ((pn, '\n') :: uind) := by
          intro pc2 hpc2
          rcases List.mem_cons.mp hpc2 with rfl | hpc2
          · exact (by decide : MainToken.tokenize '\n' = MainToken.whitespace)
          · exact wsRun_of_map huind (fun c hc => ws_indentStr c hc) pc2 hpc2
        have hval := (IH f (by omega)).1 v (ind + 1) [] ((p0, c0) :: lv2)
          ((pcm, ',') :: ((pn, '\n') :: (uind ++ ((p2, c2) :: lrest ++ l₂)))) e hfv hwv hnv
          (by intro pc2 hpc2; cases hpc2) hlv (safeRest_cons (by decide))
        simp only [List.nil_append, List.cons_append] at hval
        have hnext : isNext MainToken.tokenize .rightBracket true
            ⟨((pn, '\n') :: uind) ++ ((p2, c2) :: (lrest ++ l₂)), e⟩ =
            (decide (MainToken.tokenize c2 = .rightBracket), ⟨(p2, c2) :: (lrest ++ l₂), e⟩) :=
          isNext_ws hwsrun hnws2
        simp only [List.cons_append, List.append_assoc] at hnext
        have hloop := (IH f (by omega)).2.2 (v2 :: tl2) (acc2 ++ [v]) ind []
          ((p2, c2) :: lrest) l₂ e
          (by simp only [needLoopElems] at hfuel ⊢; omega)
          (fun w hwmem => hwfe w (List.mem_cons_of_mem _ hwmem))
          (fun w hwmem => hnfe w (List.mem_cons_of_mem _ hwmem))
          (by intro pc2 hpc2; cases hpc2)
          hlnext hsafe
        simp only [List.cons_append, List.nil_append] at hloop
        simp only [List.cons_append, List.append_assoc, List.nil_append]
        simp only [parseStep, isNext_ws hu hnws, decide_eq_false hnrb, hval,
          lex1_skip_cons_ok (show MainToken.tokenize ',' ≠ .whitespace by decide)
            (show MainToken.tokenize ',' = .comma by decide),
          hnext, decide_eq_false hnrb2, hloop]
        simp

/-- The fuel bounds hold against the pretty rendering as well, at every
indentation level. -/
theorem needFuel_le_stringify : ∀ n : Nat,
    (∀ v ind, vdepth v ≤ n → needFuel v ≤ 3 * (stringifyRec v ind).length + 1) ∧
    (∀ ms ind, vdepthMembers ms ≤ n →
      needLoopMembers ms ≤ 3 * (joinSep (",\n".data) (stringifyMembers ms ind)).length + 4) ∧
    (∀ es ind, vdepthElems es ≤ n →
      needLoopElems es ≤ 3 * (joinSep (",\n".data) (stringifyElems es ind)).length + 4) := by
  intro n
  induction n with
  | zero =>
    refine ⟨fun v ind hv => absurd hv (by have := vdepth_pos v; omega), ?_, ?_⟩
    · intro ms ind hms
      cases ms with
      | nil => simp [needLoopMembers]
      | cons hd tl =>
        obtain ⟨k, v⟩ := hd
        exfalso
        have h1 := vdepth_pos v
        have hms2 := hms
        rw [vdepthMembers] at hms2
        have := le_trans (Nat.le_max_left (vdepth v) (vdepthMembers tl)) hms2
        omega
    · intro es ind hes
      cases es with
      | nil => simp [needLoopElems]
      | cons v tl =>
        exfalso
        have h1 := vdepth_pos v
        have hes2 := hes
        rw [vdepthElems] at hes2
        have := le_trans (Nat.le_max_left (vdepth v) (vdepthElems tl)) hes2
        omega
  | succ n ih =>
    obtain ⟨ihv, ihm, ihe⟩ := ih
    have hval : ∀ v ind, vdepth v ≤ n + 1 →
        needFuel v ≤ 3 * (stringifyRec v ind).length + 1 := by
      intro v ind hv
      cases v with
      | object ms =>
        rw [vdepth] at hv
        have := ihm ms (ind + 1) (by omega)
        have hlen : (stringifyRec (.object ms) ind).length =
            (joinSep (",\n".data) (stringifyMembers ms (ind + 1))).length +
              (indentStr ind).length + 4 := by
          simp [stringifyRec]
          omega
        rw [needFuel]
        omega
      | array es =>
        rw [vdepth] at hv
        have := ihe es (ind + 1) (by omega)
        have hlen : (stringifyRec (.array es) ind).length =
            (joinSep (",\n".data) (stringifyElems es (ind + 1))).length +
              (indentStr ind).length + 4 := by
          simp [stringifyRec]
          omega
        rw [needFuel]
        omega
      | bool b => simp [stringifyRec, needFuel]
      | null => simp [stringifyRec, needFuel]
      | string s => simp [stringifyRec, needFuel]
      | integer m => simp [stringifyRec, needFuel]
      | float f => simp [stringifyRec, needFuel]
    refine ⟨hval, ?_, ?_⟩
    · intro ms
      induction ms with
      | nil => intro ind _; simp [needLoopMembers]
      | cons hd tl ihtl =>
        intro ind hms
        obtain ⟨k, v⟩ := hd
        have hms2 := hms
        rw [vdepthMembers] at hms2
        have hdv : vdepth v ≤ n + 1 := le_trans (Nat.le_max_left _ _) hms2
        have hdtl : vdepthMembers tl ≤ n + 1 := le_trans (Nat.le_max_right _ _) hms2
        have hv := hval v ind hdv
        have hq := quote_len k
        cases tl with
        | nil =>
          have hlen : (joinSep (",\n".data) (stringifyMembers [(k, v)] ind)).length =
              (indentStr ind).length + (quote k).length + 2 +
                (stringifyRec v ind).length := by
            simp [stringifyMembers, joinSep]
            omega
          have hmax : max (needFuel v) (needLoopMembers ([] : List (Str × Value))) ≤
              3 * (stringifyRec v ind).length + 1 :=
            Nat.max_le.mpr ⟨hv, by rw [needLoopMembers]; omega⟩
          rw [needLoopMembers]
          omega
        | cons m2 tl2 =>
          have htl := ihtl ind hdtl
          have hlen : (joinSep (",\n".data)
                (stringifyMembers ((k, v) :: m2 :: tl2) ind)).length =
              (indentStr ind).length + (quote k).length + 2 +
                (stringifyRec v ind).length + 2 +
                (joinSep (",\n".data) (stringifyMembers (m2 :: tl2) ind)).length := by
            simp [stringifyMembers, joinSep]
            omega
          have hmax : max (needFuel v) (needLoopMembers (m2 :: tl2)) ≤
              3 * (stringifyRec v ind).length + 1 +
                (3 * (joinSep (",\n".data) (stringifyMembers (m2 :: tl2) ind)).length +
                  4) :=
            Nat.max_le.mpr ⟨by omega, by omega⟩
          rw [needLoopMembers]
          omega
    · intro es
      induction es with
      | nil => intro ind _; simp [needLoopElems]
      | cons v tl ihtl =>
        intro ind hes
        have hes2 := hes
        rw [vdepthElems] at hes2
        have hdv : vdepth v ≤ n + 1 := le_trans (Nat.le_max_left _ _) hes2
        have hdtl : vdepthElems tl ≤ n + 1 := le_trans (Nat.le_max_right _ _) hes2
        have hv := hval v ind hdv
        cases tl with
        | nil =>
          have hlen : (joinSep (",\n".data) (stringifyElems [v] ind)).length =
              (indentStr ind).length + (stringifyRec v ind).length := by
            simp [stringifyElems, joinSep]
          have hmax : max (needFuel v) (needLoopElems ([] : List Value)) ≤
              3 * (stringifyRec v ind).length + 1 :=
            Nat.max_le.mpr ⟨hv, by rw [needLoopElems]; omega⟩
          rw [needLoopElems]
          omega
        | cons v2 tl2 =>
          have htl := ihtl ind hdtl
          have hlen : (joinSep (",\n".data) (stringifyElems (v :: v2 :: tl2) ind)).length =
              (indentStr ind).length + (stringifyRec v ind).length + 2 +
                (joinSep (",\n".data) (stringifyElems (v2 :: tl2) ind)).length := by
            simp [stringifyElems, joinSep]
            omega
          have hmax : max (needFuel v) (needLoopElems (v2 :: tl2)) ≤
              3 * (stringifyRec v ind).length + 1 +
                (3 * (joinSep (",\n".data) (stringifyElems (v2 :: tl2) ind)).length + 4) :=
            Nat.max_le.mpr ⟨by omega, by omega⟩
          rw [needLoopElems]
          omega

/-- No pretty rendering of a float-free value contains a carriage
return. -/
theorem cr_not_mem_stringify : ∀ n : Nat,
    (∀ v ind, vdepth v ≤ n → NoFloat v → '\r' ∉ stringifyRec v ind) ∧
    (∀ ms ind, vdepthMembers ms ≤ n → (∀ kv ∈ ms, NoFloat kv.2) →
      '\r' ∉ joinSep (",\n".data) (stringifyMembers ms ind)) ∧
    (∀ es ind, vdepthElems es ≤ n → (∀ v ∈ es, NoFloat v) →
      '\r' ∉ joinSep (",\n".data) (stringifyElems es ind)) := by
  have hind : ∀ ind : Nat, '\r' ∉ indentStr ind := by
    intro ind h
    rw [indentStr] at h
    have h2 : '\r' = ' ' := List.eq_of_mem_replicate h
    exact absurd h2 (by decide)
  intro n
  induction n with
  | zero =>
    refine ⟨fun v ind hv => absurd hv (by have := vdepth_pos v; omega), ?_, ?_⟩
    · intro ms ind hms _
      cases ms with
      | nil => simp [stringifyMembers, joinSep]
      | cons hd tl =>
        obtain ⟨k, v⟩ := hd
        exfalso
        have h1 := vdepth_pos v
        have hms2 := hms
        rw [vdepthMembers] at hms2
        have := le_trans (Nat.le_max_left (vdepth v) (vdepthMembers tl)) hms2
        omega
    · intro es ind hes _
      cases es with
      | nil => simp [stringifyElems, joinSep]
      | cons v tl =>
        exfalso
        have h1 := vdepth_pos v
        have hes2 := hes
        rw [vdepthElems] at hes2
        have := le_trans (Nat.le_max_left (vdepth v) (vdepthElems tl)) hes2
        omega
  | succ n ih =>
    obtain ⟨ihv, ihm, ihe⟩ := ih
    have hval : ∀ v ind, vdepth v ≤ n + 1 → NoFloat v → '\r' ∉ stringifyRec v ind := by
      intro v ind hv hnf
      cases v with
      | object ms =>
        rw [vdepth] at hv
        have hin := ihm ms (ind + 1) (by omega) (noFloat_object_inv hnf)
        have hform : stringifyRec (.object ms) ind = '\x7b' ::
            ('\n' :: (joinSep (",\n".data) (stringifyMembers ms (ind + 1)) ++
              ('\n' :: (indentStr ind ++ ['\x7d'])))) := by
          simp [stringifyRec]
        rw [hform]
        intro h
        rcases List.mem_cons.mp h with h | h
        · exact absurd h (by decide)
        rcases List.mem_cons.mp h with h | h
        · exact absurd h (by decide)
        rcases List.mem_append.mp h with h | h
        · exact hin h
        rcases List.mem_cons.mp h with h | h
        · exact absurd h (by decide)
        rcases List.mem_append.mp h with h | h
        · exact hind ind h
        · rcases List.mem_singleton.mp h with h
          exact absurd h (by decide)
      | array es =>
        rw [vdepth] at hv
        have hin := ihe es (ind + 1) (by omega) (noFloat_array_inv hnf)
        have hform : stringifyRec (.array es) ind = '[' ::
            ('\n' :: (joinSep (",\n".data) (stringifyElems es (ind + 1)) ++
              ('\n' :: (indentStr ind ++ [']'])))) := by
          simp [stringifyRec]
        rw [hform]
        intro h
        rcases List.mem_cons.mp h with h | h
        · exact absurd h (by decide)
        rcases List.mem_cons.mp h with h | h
        · exact absurd h (by decide)
        rcases List.mem_append.mp h with h | h
        · exact hin h
        rcases List.mem_cons.mp h with h | h
        · exact absurd h (by decide)
        rcases List.mem_append.mp h with h | h
        · exact hind ind h
        · rcases List.mem_singleton.mp h with h
          exact absurd h (by decide)
      | bool b =>
        rw [stringify_leaf _ _ (by intro _ h; cases h) (by intro _ h; cases h)]
        cases b <;> decide
      | null =>
        rw [stringify_leaf _ _ (by intro _ h; cases h) (by intro _ h; cases h)]
        decide
      | string s =>
        rw [stringify_leaf _ _ (by intro _ h; cases h) (by intro _ h; cases h)]
        exact cr_not_mem_quote s
      | integer m =>
        rw [stringify_leaf _ _ (by intro _ h; cases h) (by intro _ h; cases h)]
        exact cr_not_mem_intToString m
      | float f => cases hnf
    refine ⟨hval, ?_, ?_⟩
    · intro ms
      induction ms with
      | nil => intro ind _ _; simp [stringifyMembers, joinSep]
      | cons hd tl ihtl =>
        intro ind hms hnfm
        obtain ⟨k, v⟩ := hd
        have hms2 := hms
        rw [vdepthMembers] at hms2
        have hdv : vdepth v ≤ n + 1 := le_trans (Nat.le_max_left _ _) hms2
        have hdtl : vdepthMembers tl ≤ n + 1 := le_trans (Nat.le_max_right _ _) hms2
        have hv := hval v ind hdv (hnfm (k, v) (List.mem_cons_self _ _))
        have hmem0 : '\r' ∉ indentStr ind ++ (quote k ++ (':' :: (' ' ::
            stringifyRec v ind))) := by
          intro h
          rcases List.mem_append.mp h with h | h
          · exact hind ind h
          rcases List.mem_append.mp h with h | h
          · exact cr_not_mem_quote k h
          rcases List.mem_cons.mp h with h | h
          · exact absurd h (by decide)
          rcases List.mem_cons.mp h with h | h
          · exact absurd h (by decide)
          · exact hv h
        cases tl with
        | nil =>
          intro h
          rw [show joinSep (",\n".data) (stringifyMembers [(k, v)] ind) =
              indentStr ind ++ (quote k ++ (':' :: (' ' :: stringifyRec v ind))) by
            simp [stringifyMembers, joinSep]] at h
          exact hmem0 h
        | cons m2 tl2 =>
          have htl := ihtl ind hdtl (fun kv hkv => hnfm kv (List.mem_cons_of_mem _ hkv))
          intro h
          rw [show joinSep (",\n".data) (stringifyMembers ((k, v) :: m2 :: tl2) ind) =
              (indentStr ind ++ (quote k ++ (':' :: (' ' :: stringifyRec v ind)))) ++
                (',' :: ('\n' ::
                  joinSep (",\n".data) (stringifyMembers (m2 :: tl2) ind))) by
            simp [stringifyMembers, joinSep]] at h
          rcases List.mem_append.mp h with h | h
          · exact hmem0 h
          rcases List.mem_cons.mp h with h | h
          · exact absurd h (by decide)
          rcases List.mem_cons.mp h with h | h
          · exact absurd h (by decide)
          · exact htl h
    · intro es
      induction es with
      | nil => intro ind _ _; simp [stringifyElems, joinSep]
      | cons v tl ihtl =>
        intro ind hes hnfe
        have hes2 := hes
        rw [vdepthElems] at hes2
        have hdv : vdepth v ≤ n + 1 := le_trans (Nat.le_max_left _ _) hes2
        have hdtl : vdepthElems tl ≤ n + 1 := le_trans (Nat.le_max_right _ _) hes2
        have hv := hval v ind hdv (hnfe v (List.mem_cons_self _ _))
        have hmem0 : '\r' ∉ indentStr ind ++ stringifyRec v ind := by
          intro h
          rcases List.mem_append.mp h with h | h
          · exact hind ind h
          · exact hv h
        cases tl with
        | nil =>
          intro h
          rw [show joinSep (",\n".data) (stringifyElems [v] ind) =
              indentStr ind ++ stringifyRec v ind by simp [stringifyElems, joinSep]] at h
          exact hmem0 h
        | cons v2 tl2 =>
          have htl := ihtl ind hdtl (fun w hw => hnfe w (List.mem_cons_of_mem _ hw))
          intro h
          rw [show joinSep (",\n".data) (stringifyElems (v :: v2 :: tl2) ind) =
              (indentStr ind ++ stringifyRec v ind) ++ (',' :: ('\n' ::
                joinSep (",\n".data) (stringifyElems (v2 :: tl2) ind))) by
            simp [stringifyElems, joinSep]] at h
          rcases List.mem_append.mp h with h | h
          · exact hmem0 h
          rcases List.mem_cons.mp h with h | h
          · exact absurd h (by decide)
          rcases List.mem_cons.mp h with h | h
          · exact absurd h (by decide)
          · exact htl h

/-- The full pretty round trip: Value::parse inverts Value::stringify on
every well formed float-free value. -/
theorem parse_pretty_ok (v : Value) (hwf : Wf v) (hnf : NoFloat v) :
    Value.parse (stringify v) = .ok v := by
  have hcr : '\r' ∉ stringifyRec v 0 := (cr_not_mem_stringify (vdepth v)).1 v 0 le_rfl hnf
  obtain ⟨c0, w0, hc0, _, _⟩ := stringify_head v hnf 0
  have hne : stringifyRec v 0 ≠ [] := by rw [hc0]; simp
  have hst := streamChars hcr hne
  obtain ⟨l₁, l₂, hsplit, h1, h2⟩ := map_snd_append hst
  obtain ⟨q, lnil, rfl, hnil⟩ := map_snd_cons h2
  obtain rfl := map_snd_nil hnil
  have hbound := (needFuel_le_stringify (vdepth v)).1 v 0 le_rfl
  have hlen : (streamOf (rawJsonOfString (stringifyRec v 0))).length =
      (stringifyRec v 0).length + 1 := by
    have := congrArg List.length hst
    simpa using this
  have hmaster := (parseStep_pretty_rt
      (3 * (streamOf (rawJsonOfString (stringifyRec v 0))).length + 4)).1
    v 0 [] l₁ [(q, '\n')] (rawEof (rawJsonOfString (stringifyRec v 0)))
    (by omega) hwf hnf (by intro pc h; cases h) h1 (safeRest_cons (by decide))
  simp only [List.nil_append] at hmaster
  rw [stringify]
  simp only [Value.parse, parseValue]
  rw [hsplit] at hmaster ⊢
  rw [hmaster]

/-- C1 counterexample: the float `1.0` renders as `1` in both the compact
and the pretty rendering (Rust `Display for f64` drops the integral
decimal point), and parsing `1` yields `Integer(1)`, not `Float(1.0)`: the
round trip fails on float values with zero fractional part. -/
theorem claim1_counterexample :
    compact (.float (.num 1 0)) = "1".data ∧
    stringify (.float (.num 1 0)) = "1".data ∧
    Value.parse ("1".data) = .ok (.integer 1) ∧
    (Value.integer 1 : Value) ≠ .float (.num 1 0) := by
  have hc : compact (.float (.num 1 0)) = "1".data := by
    simp [compact, f64ToString, F64.canon, intToString, natDigits, natDigitsAux, digitChar]
  refine ⟨hc, ?_, rfl, fun h => Value.noConfusion h⟩
  rw [stringify, stringify_leaf _ _ (by intro _ h; cases h) (by intro _ h; cases h)]
  exact hc

/-- C1 (corrected): the serialization round trip holds on the float-free
fragment: for every well formed value `v` (distinct object keys,
`i64`-ranged integers) with no float leaf, parsing the compact rendering
(`Display`, `Indent<0>`) returns exactly `v`, and parsing the pretty
rendering (`Value::stringify`, `Indent<1>`) also returns exactly `v`.  The
float exclusion is necessary: `Float(1.0)` reparses as `Integer(1)`. -/
theorem claim1_round_trip_float_free :
    ∀ v : Value, Wf v → NoFloat v →
      Value.parse (compact v) = .ok v ∧ Value.parse (stringify v) = .ok v :=
  fun v hwf hnf => ⟨parse_compact_ok v hwf hnf, parse_pretty_ok v hwf hnf⟩

/-- Witness: the round trip theorem applied to the concrete value
`{"a": 1, "b": [true, null]}`. -/
theorem claim1_round_trip_witness :
    Wf (.object [(['a'], .integer 1), (['b'], .array [.bool true, .null])]) ∧
    NoFloat (.object [(['a'], .integer 1), (['b'], .array [.bool true, .null])]) ∧
    Value.parse (compact (.object [(['a'], .integer 1), (['b'], .array [.bool true, .null])]))
      = .ok (.object [(['a'], .integer 1), (['b'], .array [.bool true, .null])]) ∧
    Value.parse (stringify (.object [(['a'], .integer 1), (['b'], .array [.bool true, .null])]))
      = .ok (.object [(['a'], .integer 1), (['b'], .array [.bool true, .null])]) := by
  have hwf : Wf (.object [(['a'], .integer 1), (['b'], .array [.bool true, .null])]) := by
    refine Wf.object _ ?_ ?_
    · refine List.Pairwise.cons ?_ (List.Pairwise.cons ?_ List.Pairwise.nil)
      · intro b hb
        rcases List.mem_singleton.mp hb with rfl
        decide
      · intro b hb
        cases hb
    · intro kv hkv
      rcases List.mem_cons.mp hkv with rfl | hkv
      · exact Wf.integer 1 (by omega) (by omega)
      rcases List.mem_cons.mp hkv with rfl | hkv
      · refine Wf.array _ ?_
        intro w hw
        rcases List.mem_cons.mp hw with rfl | hw
        · exact Wf.bool true
        rcases List.mem_cons.mp hw with rfl | hw
        · exact Wf.null
        · cases hw
      · cases hkv
  have hnf : NoFloat (.object [(['a'], .integer 1), (['b'], .array [.bool true, .null])]) := by
    refine NoFloat.object _ ?_
    intro kv hkv
    rcases List.mem_cons.mp hkv with rfl | hkv
    · exact NoFloat.integer 1
    rcases List.mem_cons.mp hkv with rfl | hkv
    · refine NoFloat.array _ ?_
      intro w hw
      rcases List.mem_cons.mp hw with rfl | hw
      · exact NoFloat.bool true
      rcases List.mem_cons.mp hw with rfl | hw
      · exact NoFloat.null
      · cases hw
    · cases hkv
  obtain ⟨h1, h2⟩ := claim1_round_trip_float_free _ hwf hnf
  exact ⟨hwf, hnf, h1, h2⟩

end Dyson
